import Mathlib

/-!
Verification of the rustasim conservative discrete-event simulation core.

This file is a shallow embedding, in Lean 4, of the core of the `rustasim`
repository:

* `src/src/engine.rs` : `EventType`, `Event`, the `Ord`/`PartialEq`
  instances on `Event`, `ltr_walk`, `Merger::new` and `Merger::next`
  (the tournament / loser-tree k-way merge);
* `src/rustasim-models/src/network/router.rs` : `RouterBuilder::build`
  and `Router::advance`;
* `src/rustasim-dcsim/src/server.rs` : `ServerBuilder::build` and
  `Server::advance`, together with the TCP flow logic of
  `src/rustasim-dcsim/src/tcp.rs`.

Modelling conventions:

* Rust `u64`/`usize` become `Nat`; no arithmetic here can overflow a `u64`
  in any scenario we evaluate, and `usize` subtraction that can underflow
  (a debug-mode panic in Rust) is modelled explicitly with `Except`.
* SPSC queues are modelled as lists (front = next element popped).  The
  producer side of a queue is modelled by list extension between steps.
* Loops are modelled by structural recursion with explicit fuel wherever
  the Rust loop is not primitively bounded, so that every definition
  evaluates by kernel reduction.  Running out of fuel returns `none` /
  an error, which models divergence of the Rust loop.
* `f32` logarithm computations in the source (`(n as f32).log2().ceil()`
  and `.floor()`) are modelled by the exact `Nat.clog 2` and `Nat.log 2`.
  These agree with the `f32` computation for every realistic queue count
  (in particular all `n < 2 ^ 24`).
* Rust panics (`unwrap`, out-of-bounds indexing, `unreachable!`,
  `assert!`) are modelled with `Except String`.
-/

set_option linter.unusedVariables false

namespace Rustasim

/-- Event types, from `src/src/engine.rs` (`enum EventType<U>`). -/
inductive EventType (U : Type) where
  /-- The model-specific payload event. -/
  | ModelEvent (u : U)
  /-- The simulation is stalled, the actor must update its neighbours. -/
  | Stalled
  /-- It is safe for the simulation to advance to this time. -/
  | Null
  /-- Simulation end. -/
  | Close
deriving DecidableEq, Repr

/-- An event, from `src/src/engine.rs` (`struct Event<U>`). -/
structure Event (U : Type) where
  time : Nat
  src : Nat
  event_type : EventType U
deriving DecidableEq, Repr

/-- Embedding of `impl<U> Ord for Event<U>`: the body is
`other.time.cmp(&self.time)`, with `self = a` and `other = b`. -/
def Event.cmp {U : Type} (a b : Event U) : Ordering :=
  compare b.time a.time

/-- Embedding of `impl<U> PartialEq for Event<U>`: `self.time == other.time`. -/
def Event.beq {U : Type} (a b : Event U) : Bool :=
  a.time == b.time

/-- Is this event a `Stalled` event?  (`if let EventType::Stalled = ...`). -/
def Event.isStalled {U : Type} (e : Event U) : Bool :=
  match e.event_type with
  | EventType.Stalled => true
  | _ => false

/-- Is this event a `Null` event? -/
def Event.isNull {U : Type} (e : Event U) : Bool :=
  match e.event_type with
  | EventType.Null => true
  | _ => false

/-- Is this event a `ModelEvent`? -/
def Event.isModel {U : Type} (e : Event U) : Bool :=
  match e.event_type with
  | EventType.ModelEvent _ => true
  | _ => false

/-- One comparison of the tournament walk in `Merger::next`
(`src/src/engine.rs`, the body of `while index != 0`): given the moving
candidate `cand` and the loser `loser` stored at the current node, return
the pair (new candidate, new stored loser).  The source swaps them when
`cur_loser_t < new_winner_e.time`, or when the times are equal and the
candidate is a `Stalled` event. -/
def tourneyStep {U : Type} (cand loser : Event U) : Event U × Event U :=
  if loser.time < cand.time then
    (loser, cand)
  else if loser.time = cand.time then
    if cand.isStalled then (loser, cand) else (cand, loser)
  else
    (cand, loser)

/-- Fuelled walk from a tree node up to the root (`while index != 0` in
`Merger::next`), carrying the candidate and updating the stored losers.
The fuel only needs to exceed the number of halvings of `index`. -/
def walkUpAux {U : Type} : Nat → (Nat → Event U) → Event U → Nat →
    Event U × (Nat → Event U)
  | 0, lose, cand, _ => (cand, lose)
  | fuel + 1, lose, cand, index =>
    if index = 0 then (cand, lose)
    else
      let s := tourneyStep cand (lose index)
      walkUpAux fuel (Function.update lose index s.2) s.1 (index / 2)

/-- The walk from `index` to the root; `index + 1` units of fuel always
suffice since the index at least halves each step. -/
def walkUp {U : Type} (lose : Nat → Event U) (cand : Event U) (index : Nat) :
    Event U × (Nat → Event U) :=
  walkUpAux (index + 1) lose cand index

/-- The state of a `Merger` (`struct Merger<U>` in `src/src/engine.rs`).
`Vec`s are modelled as functions out of `Nat` (the merger only ever
accesses indices below the queue count), and the input queues hold their
current contents, front first. -/
structure Merger (U : Type) where
  id : Nat
  in_queues : Nat → List (Event U)
  n_layers : Nat
  paths : Nat → Nat
  winner_q : Nat
  safe_time : Nat
  loser_e : Nat → Event U
  ix_to_id : List Nat

/-- The state-transforming core of one iteration of the `loop` in
`Merger::next`: pop one event from the previous winner's queue (or
fabricate a `Stalled` at `safe_time` if it is empty), rewrite its `src` to
the input index, walk the precomputed path up to the root, and record the
emerging winner's `src` and `time` as the new `winner_q` and `safe_time`.
Returns the winner together with the updated state. -/
def Merger.iterCore {U : Type} (s : Merger U) : Event U × Merger U :=
  let pc : Event U × (Nat → List (Event U)) :=
    match s.in_queues s.winner_q with
    | [] =>
      ({ time := s.safe_time, src := s.winner_q, event_type := EventType.Stalled },
        s.in_queues)
    | e :: rest => (e, Function.update s.in_queues s.winner_q rest)
  let cand : Event U := { pc.1 with src := s.winner_q }
  let w := walkUp s.loser_e cand (s.paths s.winner_q)
  (w.1,
    { s with
      loser_e := w.2
      in_queues := pc.2
      winner_q := w.1.src
      safe_time := w.1.time })

/-- One iteration of the `loop` in `Merger::next`: run the core, then
either yield the winner (`some`) or continue (`none`, when the winner is a
`Null`, or a `Stalled` whose source queue is no longer empty). -/
def Merger.nextIter {U : Type} (s : Merger U) : Option (Event U) × Merger U :=
  let c := s.iterCore
  match c.1.event_type with
  | EventType.Null => (none, c.2)
  | EventType.Stalled =>
    if 0 < (c.2.in_queues c.1.src).length then (none, c.2) else (some c.1, c.2)
  | _ => (some c.1, c.2)

/-- The `loop` of `Merger::next`, with fuel.  `none` models the Rust
loop spinning (it never breaks out without returning an event). -/
def Merger.nextFuel {U : Type} : Nat → Merger U → Option (Event U × Merger U)
  | 0, _ => none
  | fuel + 1, s =>
    match s.nextIter with
    | (some e, s') => some (e, s')
    | (none, s') => Merger.nextFuel fuel s'

/-- Kernel-reducible ceiling base-2 logarithm (fuelled); models the
source's `(n as f32).log2().ceil() as usize`, exactly for all realistic
sizes.  Equal to `Nat.clog 2` (see `clog2_eq`). -/
def clog2Aux : Nat → Nat → Nat
  | 0, _ => 0
  | fuel + 1, n => if n ≤ 1 then 0 else clog2Aux fuel ((n + 1) / 2) + 1

/-- Ceiling base-2 logarithm. -/
def clog2 (n : Nat) : Nat := clog2Aux n n

/-- Kernel-reducible floor base-2 logarithm (fuelled); models the source's
`(n as f32).log2().floor() as u32`.  Equal to `Nat.log 2` (see `log2_eq`). -/
def log2Aux : Nat → Nat → Nat
  | 0, _ => 0
  | fuel + 1, n => if n ≤ 1 then 0 else log2Aux fuel (n / 2) + 1

/-- Floor base-2 logarithm. -/
def log2 (n : Nat) : Nat := log2Aux n n

theorem clog2Aux_eq (fuel n : Nat) (h : n ≤ fuel) :
    clog2Aux fuel n = Nat.clog 2 n := by
  induction fuel generalizing n with
  | zero =>
    interval_cases n
    simp [clog2Aux]
  | succ fuel ih =>
    rcases le_or_lt n 1 with h1 | h1
    · interval_cases n <;> simp [clog2Aux]
    · rw [clog2Aux, if_neg (by omega), ih _ (by omega)]
      conv_rhs => rw [Nat.clog]
      rw [dif_pos ⟨by norm_num, h1⟩]
      norm_num

theorem clog2_eq (n : Nat) : clog2 n = Nat.clog 2 n :=
  clog2Aux_eq n n le_rfl

theorem log2Aux_eq (fuel n : Nat) (h : n ≤ fuel) :
    log2Aux fuel n = Nat.log 2 n := by
  induction fuel generalizing n with
  | zero =>
    interval_cases n
    simp [log2Aux]
  | succ fuel ih =>
    rcases le_or_lt n 1 with h1 | h1
    · interval_cases n <;> simp [log2Aux]
    · rw [log2Aux, if_neg (by omega), ih _ (by omega)]
      conv_rhs => rw [Nat.log]
      rw [dif_pos ⟨by omega, by norm_num⟩]

theorem log2_eq (n : Nat) : log2 n = Nat.log 2 n :=
  log2Aux_eq n n le_rfl

/-- Checked read of `visited[i]` (a Rust `Vec<bool>` index panics when out
of bounds). -/
def vget (l : List Bool) (i : Nat) : Except String Bool :=
  if h : i < l.length then pure l[i] else Except.error "index out of bounds"

/-- Checked write `visited[i] = b`. -/
def vset (l : List Bool) (i : Nat) (b : Bool) : Except String (List Bool) :=
  if i < l.length then pure (l.set i b) else Except.error "index out of bounds"

/-- The `while visited[cur_index] { cur_index /= 2 }` loop of `ltr_walk`,
with fuel; if the loop reaches index `0` while `visited[0]` is set the
Rust loop never terminates, which we model as an error. -/
def upWhileAux : Nat → List Bool → Nat → Except String Nat
  | 0, _, _ => Except.error "out of fuel"
  | fuel + 1, visited, cur => do
    let b ← vget visited cur
    if b then
      if cur = 0 then Except.error "ltr walk stuck at zero"
      else upWhileAux fuel visited (cur / 2)
    else pure cur

/-- The `while cur_index * 2 < n_nodes { cur_index *= 2 }` loop of
`ltr_walk`, with fuel. -/
def downWhileAux : Nat → Nat → Nat → Except String Nat
  | 0, _, _ => Except.error "out of fuel"
  | fuel + 1, n, cur =>
    if cur * 2 < n then
      if cur = 0 then Except.error "ltr walk stuck at zero"
      else downWhileAux fuel n (cur * 2)
    else pure cur

/-- The mutable state of the `for` loop in `ltr_walk`.  `indices` is kept
in reverse order (most recently pushed first). -/
structure WalkSt where
  visited : List Bool
  cur : Nat
  goingUp : Bool
  indices : List Nat

/-- One iteration of the `for _ in 0..n_nodes - 1` loop of `ltr_walk`.
The `continue` branch (no existing right child while going down) performs
no push and leaves `going_up = true`. -/
def ltrIter (n : Nat) (st : WalkSt) : Except String WalkSt :=
  if st.goingUp then do
    let cur' ← upWhileAux (st.cur + 1) st.visited st.cur
    let visited' ← vset st.visited cur' true
    pure { visited := visited', cur := cur', goingUp := false,
           indices := cur' :: st.indices }
  else
    if n ≤ st.cur * 2 + 1 then
      pure { st with goingUp := true }
    else do
      let cur' ← downWhileAux n n (st.cur * 2 + 1)
      let visited' ← vset st.visited cur' true
      pure { visited := visited', cur := cur', goingUp := true,
             indices := cur' :: st.indices }

/-- Run `fuel` iterations of a fallible step function, in order. -/
def iterM {α : Type} (f : α → Except String α) : Nat → α → Except String α
  | 0, a => pure a
  | k + 1, a => f a >>= iterM f k

/-- Embedding of `ltr_walk` (`src/src/engine.rs`).  `n_layers` is the
`f32` ceiling log (exact as `Nat.clog 2`); when it is zero (`n_nodes ≤ 1`)
the source computes `2_usize.pow((n_layers - 1) as u32)`, whose `usize`
subtraction underflows (a debug-build panic), modelled as an error. -/
def ltr_walk (n_nodes : Nat) : Except String (List Nat) := do
  let n_layers := clog2 n_nodes
  if n_layers = 0 then Except.error "underflow computing first index" else
  let cur := 2 ^ (n_layers - 1)
  let visited ← vset (List.replicate (n_nodes + 1) false) cur true
  let st0 : WalkSt := { visited := visited, cur := cur, goingUp := true,
                        indices := [cur] }
  let stF ← iterM (ltrIter n_nodes) (n_nodes - 1) st0
  let v0 ← vget stF.visited 0
  let indices := if v0 then stF.indices.tail else stF.indices
  pure indices.reverse

/-- The `for (loser, ix) in ltr_walk(in_queues.len()).iter().enumerate()`
loop of `Merger::new`: store at position `ix` a `Null` placeholder whose
`src` is the (1-based) walk position.  `loser_e[*ix]` is a checked index. -/
def assignSrcs {U : Type} (n : Nat) :
    (Nat → Event U) → List Nat → Nat → Except String (Nat → Event U)
  | lose, [], _ => pure lose
  | lose, ix :: rest, j =>
    if ix < n then
      assignSrcs n
        (Function.update lose ix
          { time := 0, src := j + 1, event_type := EventType.Null })
        rest (j + 1)
    else Except.error "loser index out of bounds"

/-- The inner `for level in (0..n_layers).rev()` loop of `Merger::new`:
starting at the deepest level, compute `index = 2^level + v / 2^(L - level)`
and stop at the first index inside `loser_e`; if even level 0 is out of
bounds the Rust loop simply ends and the last computed index is used. -/
def entryAux (len L v : Nat) : Nat → Nat
  | 0 => 2 ^ 0 + v / 2 ^ L
  | level + 1 =>
    let idx := 2 ^ (level + 1) + v / 2 ^ (L - (level + 1))
    if idx < len then idx else entryAux len L v level

/-- The path entry computed by `Merger::new` for input `ix`: the virtual
position `v_ix` (shifted for inputs past `last_layer_max_i`) followed by
the level descent. -/
def pathOf (len L llmi offset ix : Nat) : Nat :=
  let v := if llmi < ix then (ix - offset) * 2 else ix
  entryAux len L v (L - 1)

/-- Embedding of `Merger::new` (`src/src/engine.rs`). -/
def Merger.new {U : Type} (in_queues : List (List (Event U))) (id : Nat)
    (ix_to_id : List Nat) : Except String (Merger U) := do
  let n_queues := in_queues.length
  let lose0 : Nat → Event U :=
    fun i => { time := 0, src := i, event_type := EventType.Null }
  let walk ← ltr_walk n_queues
  let lose ← assignSrcs n_queues lose0 walk 0
  let n_layers := clog2 n_queues
  let largest_full_layer := 2 ^ (log2 n_queues)
  let last_layer_max_i := ((n_queues + largest_full_layer - 1) % largest_full_layer + 1) * 2
  let offset := (last_layer_max_i + 1) / 2
  if n_layers = 0 then Except.error "assertion failed: n layers positive" else
  pure
    { id := id
      in_queues := fun i => (in_queues.getD i [])
      n_layers := n_layers
      paths := fun ix => pathOf n_queues n_layers last_layer_max_i offset ix
      winner_q := 0
      safe_time := 0
      loser_e := lose
      ix_to_id := ix_to_id }

/-! ### Basic lemmas about the merger step -/

/-- Any event yielded by one iteration of the `next` loop has the time the
iteration stored into `safe_time` (the source does
`self.safe_time = new_winner_e.time` before returning). -/
theorem Merger.iterCore_safe {U : Type} (s : Merger U) :
    (s.iterCore).2.safe_time = (s.iterCore).1.time := rfl

/-- If an iteration of the loop yields an event, that event is the core's
winner and the state is the core's updated state. -/
theorem Merger.nextIter_some {U : Type} (s : Merger U) (e : Event U)
    (s' : Merger U) (h : s.nextIter = (some e, s')) :
    e = (s.iterCore).1 ∧ s' = (s.iterCore).2 := by
  unfold Merger.nextIter at h
  rcases hty : (s.iterCore).1.event_type with u | _ | _ | _ <;>
      simp only [hty] at h
  · simp only [Prod.mk.injEq, Option.some.injEq] at h
    exact ⟨h.1.symm, h.2.symm⟩
  · split at h
    · simp only [Prod.mk.injEq] at h
      exact Option.noConfusion h.1
    · simp only [Prod.mk.injEq, Option.some.injEq] at h
      exact ⟨h.1.symm, h.2.symm⟩
  · simp only [Prod.mk.injEq] at h
    exact Option.noConfusion h.1
  · simp only [Prod.mk.injEq, Option.some.injEq] at h
    exact ⟨h.1.symm, h.2.symm⟩

theorem Merger.nextIter_some_time {U : Type} (s : Merger U) (e : Event U)
    (s' : Merger U) (h : s.nextIter = (some e, s')) :
    e.time = s'.safe_time := by
  obtain ⟨he, hs⟩ := Merger.nextIter_some s e s' h
  rw [he, hs, Merger.iterCore_safe]

/-- Any event returned by `Merger::next` has the time recorded in the
resulting `safe_time` field. -/
theorem Merger.nextFuel_time {U : Type} (f : Nat) (s : Merger U)
    (e : Event U) (s' : Merger U) (h : Merger.nextFuel f s = some (e, s')) :
    e.time = s'.safe_time := by
  induction f generalizing s with
  | zero => exact absurd h (by simp [Merger.nextFuel])
  | succ f ih =>
    unfold Merger.nextFuel at h
    rcases hit : s.nextIter with ⟨o, s₁⟩
    rw [hit] at h
    rcases o with _ | e₁
    · exact ih s₁ h
    · replace h : some (e₁, s₁) = some (e, s') := h
      simp only [Option.some.injEq, Prod.mk.injEq] at h
      obtain ⟨rfl, rfl⟩ := h
      exact Merger.nextIter_some_time s _ _ hit

/-! ### Claim C5: the tie policy of the tournament comparison -/

/-- C5: in the Merger's tournament comparison step, whenever the moving
candidate and the stored loser have equal times and exactly one of them is
a `Stalled` event, the non-`Stalled` event proceeds toward the root (first
component) and the `Stalled` event is the one stored as loser (second
component); the pair is a permutation of the two inputs. -/
theorem claim_C5_tie_policy {U : Type} (cand loser : Event U)
    (ht : cand.time = loser.time) (hs : cand.isStalled ≠ loser.isStalled) :
    (tourneyStep cand loser).1.isStalled = false ∧
      (tourneyStep cand loser).2.isStalled = true ∧
      (tourneyStep cand loser = (cand, loser) ∨
        tourneyStep cand loser = (loser, cand)) := by
  have hlt : ¬ loser.time < cand.time := by omega
  have heq : loser.time = cand.time := ht.symm
  rcases hc : cand.isStalled with _ | _ <;>
    rcases hl : loser.isStalled with _ | _ <;>
      simp_all [tourneyStep]

/-- C5 witness: a concrete tie between a `Stalled` candidate and a `Null`
loser at time 3. -/
theorem claim_C5_tie_policy_witness :
    (tourneyStep (U := Unit) ⟨3, 0, EventType.Stalled⟩ ⟨3, 1, EventType.Null⟩).1.isStalled
        = false ∧
      (tourneyStep (U := Unit) ⟨3, 0, EventType.Stalled⟩ ⟨3, 1, EventType.Null⟩).2.isStalled
        = true ∧
      (tourneyStep (U := Unit) ⟨3, 0, EventType.Stalled⟩ ⟨3, 1, EventType.Null⟩
          = (⟨3, 0, EventType.Stalled⟩, ⟨3, 1, EventType.Null⟩) ∨
        tourneyStep (U := Unit) ⟨3, 0, EventType.Stalled⟩ ⟨3, 1, EventType.Null⟩
          = (⟨3, 1, EventType.Null⟩, ⟨3, 0, EventType.Stalled⟩)) :=
  claim_C5_tie_policy ⟨3, 0, EventType.Stalled⟩ ⟨3, 1, EventType.Null⟩
    (by decide) (by decide)

/-! ### Claim C6: the `Ord`/`PartialEq` instances of `Event` -/

/-- C6 counterexample: the claim states `a < b` under `Ord::cmp` iff
`a.time < b.time`; but for `a` at time 1 and `b` at time 2 the source's
`cmp` (which is `other.time.cmp(&self.time)`, i.e. reversed) returns
`Greater`, so the claimed equivalence is false at this input. -/
theorem claim_C6_counterexample :
    ¬ ((Event.cmp (U := Unit) ⟨1, 0, EventType.Null⟩ ⟨2, 0, EventType.Null⟩
          = Ordering.lt) ↔ (1 : Nat) < 2) := by
  decide

/-- C6 amended: the comparison of two events depends only on their time
fields, but it *reverses* the order of the times: `a.cmp b = Less` iff
`b.time < a.time` (and `Greater` iff `a.time < b.time`), while `PartialEq`
agrees with equality of times as claimed. -/
theorem claim_C6_amended {U : Type} (a b : Event U) :
    (Event.cmp a b = Ordering.lt ↔ b.time < a.time) ∧
      (Event.cmp a b = Ordering.eq ↔ a.time = b.time) ∧
      (Event.cmp a b = Ordering.gt ↔ a.time < b.time) ∧
      (Event.beq a b = true ↔ a.time = b.time) := by
  refine ⟨?_, ?_, ?_, ?_⟩
  · exact Nat.compare_eq_lt
  · exact Nat.compare_eq_eq.trans eq_comm
  · exact Nat.compare_eq_gt
  · simp [Event.beq]

/-! ### Claim C2: the time carried by returned `Stalled` events -/

/-- C2 counterexample: a freshly built merger over the two queues
`[Null@5]` and `[Null@7]`.  No event has ever been yielded, so the claim
requires the first returned `Stalled` to carry time 0; the merger consumes
the two `Null` events internally, advancing `safe_time` to 5, and the
first returned event is a `Stalled` with time 5. -/
theorem claim_C2_counterexample :
    ((Merger.new (U := Unit) [[⟨5, 0, EventType.Null⟩], [⟨7, 1, EventType.Null⟩]]
          0 [7, 8]).toOption.bind
        (fun s => (Merger.nextFuel 10 s).map
          (fun p => (p.1.time, p.1.event_type, p.1.src))))
      = some (5, EventType.Stalled, 0) ∧ (5 : Nat) ≠ 0 := by
  exact ⟨by decide, by decide⟩

/-- C2 amended: every `Stalled` event returned by `Merger::next` carries
time equal to the merger's `safe_time` at the moment of return, i.e. the
time of the most recent tournament winner — where winners include `Null`
events consumed internally and discarded stale `Stalled` events, not only
previously returned events — or 0 for a fresh merger.  This time can
exceed the time of the most recently returned event. -/
theorem claim_C2_amended {U : Type} (f : Nat) (s : Merger U) (e : Event U)
    (s' : Merger U) (h : Merger.nextFuel f s = some (e, s'))
    (hst : e.event_type = EventType.Stalled) :
    e.time = s'.safe_time :=
  Merger.nextFuel_time f s e s' h

/-- A tiny concrete two-queue merger state: both queues empty, the single
tree node holding a `Null` at time 5(so the fabricated `Stalled` is
returned unchanged). -/
def c2State : Merger Unit :=
  { id := 0, in_queues := fun _ => [], n_layers := 1, paths := fun _ => 1,
    winner_q := 0, safe_time := 0,
    loser_e := fun i => ⟨5, i, EventType.Null⟩, ix_to_id := [] }

/-- The state after one `next` call on `c2State`. -/
def c2StateAfter : Merger Unit :=
  { id := 0, in_queues := fun _ => [], n_layers := 1, paths := fun _ => 1,
    winner_q := 0, safe_time := 0,
    loser_e := Function.update (fun i => ⟨5, i, EventType.Null⟩) 1
      ⟨5, 1, EventType.Null⟩,
    ix_to_id := [] }

/-- C2 amended, witness: on `c2State` the call returns a `Stalled` at
time 0, which equals the resulting `safe_time`. -/
theorem claim_C2_amended_witness :
    (⟨0, 0, EventType.Stalled⟩ : Event Unit).time = c2StateAfter.safe_time :=
  claim_C2_amended 1 c2State ⟨0, 0, EventType.Stalled⟩ c2StateAfter rfl rfl

/-! ### The datacenter model: TCP flows, servers and routers

The types below embed `src/rustasim-dcsim/src/tcp.rs` and the actors of
`src/rustasim-dcsim/src/server.rs` and
`src/rustasim-models/src/network/router.rs`.  The `NetworkEvent` payload
follows the constructors matched by those two `advance` functions (the
`network.rs` module of `rustasim-models` itself is not among the provided
sources).  An actor's `advance` pulls from its merger; we model the merger
output as an input stream (a list), and the producer ends of the outgoing
SPSC queues as lists of pushed events, oldest first. -/

/-- `BYTES_PER_PACKET` from `src/rustasim-dcsim/src/tcp.rs`. -/
def BYTES_PER_PACKET : Nat := 1500

/-- `MIN_RTO` from `src/rustasim-dcsim/src/tcp.rs`. -/
def MIN_RTO : Nat := 2000000

/-- A TCP/IP packet (`struct Packet` in `src/rustasim-dcsim/src/tcp.rs`). -/
structure Packet where
  src : Nat
  dst : Nat
  seq_num : Nat
  size_byte : Nat
  is_ack : Bool
  flow_id : Nat
  sent_ns : Nat
deriving DecidableEq, Repr

/-- The model event payload, with the constructors matched by
`Server::advance` and `Router::advance`. -/
inductive NetworkEvent where
  | Flow (src dst : Nat) (size_byte : Nat)
  | Packet (p : Packet)
  | Timeout
deriving DecidableEq, Repr

/-- A TCP flow (`struct Flow` in `src/rustasim-dcsim/src/tcp.rs`). -/
structure Flow where
  flow_id : Nat
  src : Nat
  dst : Nat
  size_byte : Nat
  start : Nat
  cwnd : Nat
  outstanding : Nat
  n_acked : Nat
  next_seq : Nat
  acked : List Bool
  rtx_queue : List Nat
deriving DecidableEq, Repr

/-- `Flow::new`. -/
def Flow.new (flow_id src dst size_byte : Nat) : Flow :=
  { flow_id := flow_id, src := src, dst := dst, size_byte := size_byte,
    start := 0, cwnd := 5, outstanding := 0, n_acked := 0, next_seq := 0,
    acked := [], rtx_queue := [] }

/-- `Flow::rto`. -/
def Flow.rto (_f : Flow) : Nat := MIN_RTO

/-- `Flow::gen_packet`. -/
def Flow.gen_packet (f : Flow) (seq_num : Nat) : Packet :=
  { src := f.src, dst := f.dst, seq_num := seq_num,
    size_byte := BYTES_PER_PACKET, is_ack := false, flow_id := f.flow_id,
    sent_ns := 0 }

/-- Checked read of `self.acked[seq_num]` (out-of-bounds panics). -/
def Flow.ackedAt (f : Flow) (seq : Nat) : Except String Bool :=
  if h : seq < f.acked.length then pure f.acked[seq]
  else Except.error "acked index out of bounds"

/-- The retransmission part of `impl Iterator for Flow`'s `next`: pop
sequence numbers from `rtx_queue` until one that is not yet acked.  The
first argument is the current `rtx_queue`, threaded structurally. -/
def Flow.rtxNextAux : List Nat → Flow → Except String (Option Nat × Flow)
  | [], f => pure (none, f)
  | seq :: rest, f => do
    let acked ← f.ackedAt seq
    if acked then Flow.rtxNextAux rest { f with rtx_queue := rest }
    else pure (some seq, { f with rtx_queue := rest })

/-- The `while let Some(seq_num) = self.rtx_queue.pop_front()` loop. -/
def Flow.rtxNext (f : Flow) : Except String (Option Nat × Flow) :=
  Flow.rtxNextAux f.rtx_queue f

/-- `impl Iterator for Flow` (`fn next`): first retransmits, then fresh
packets while `next_seq * BYTES_PER_PACKET < size_byte`. -/
def Flow.next (f : Flow) : Except String (Option Packet × Flow) := do
  let (rtx, f) ← f.rtxNext
  match rtx with
  | some seq => pure (some (f.gen_packet seq), f)
  | none =>
    if f.next_seq * BYTES_PER_PACKET < f.size_byte then
      pure (some (f.gen_packet f.next_seq),
        { f with next_seq := f.next_seq + 1, acked := f.acked ++ [false] })
    else pure (none, f)

/-- The `for _ in lo..cwnd { match self.next() ... }` loops shared by
`Flow::start`, `Flow::src_receive` and `Flow::timeout`: run `n` times,
collecting packets and `(rto, flow_id, seq_num)` timeout entries. -/
def Flow.sendLoop : Nat → Flow → Except String (List Packet × List (Nat × Nat × Nat) × Flow)
  | 0, f => pure ([], [], f)
  | n + 1, f => do
    let (op, f) ← f.next
    match op with
    | none => pure ([], [], f)
    | some p => do
      let (ps, ts, f) ← Flow.sendLoop n f
      pure (p :: ps, (f.rto, f.flow_id, p.seq_num) :: ts, f)

/-- `Flow::start`. -/
def Flow.start_ (f : Flow) (time : Nat) :
    Except String (List Packet × List (Nat × Nat × Nat) × Flow) := do
  let (ps, ts, f) ← Flow.sendLoop f.cwnd f
  pure (ps, ts, { f with outstanding := ps.length, start := time })

/-- `Flow::src_receive`: process an incoming ack, then refill the window.
The flow-completion record printed on completion is an I/O side effect
and is not modelled. -/
def Flow.src_receive (f : Flow) (time : Nat) (packet : Packet) :
    Except String (List Packet × List (Nat × Nat × Nat) × Flow) := do
  let was ← f.ackedAt packet.seq_num
  let f ←
    if was then pure f
    else
      if f.outstanding = 0 then Except.error "outstanding underflow"
      else pure { f with outstanding := f.outstanding - 1, n_acked := f.n_acked + 1 }
  let f := { f with acked := f.acked.set packet.seq_num true }
  let (ps, ts, f) ← Flow.sendLoop (f.cwnd - f.outstanding) f
  pure (ps, ts, { f with outstanding := f.outstanding + ps.length })

/-- `Flow::timeout`. -/
def Flow.timeout (f : Flow) (seq_num : Nat) :
    Except String (List Packet × List (Nat × Nat × Nat) × Flow) := do
  let was ← f.ackedAt seq_num
  if was then pure ([], [], f)
  else do
    let f ←
      if f.outstanding = 0 then Except.error "outstanding underflow"
      else pure { f with outstanding := f.outstanding - 1,
                         rtx_queue := f.rtx_queue ++ [seq_num] }
    let (ps, ts, f) ← Flow.sendLoop (f.cwnd - f.outstanding) f
    pure (ps, ts, { f with outstanding := f.outstanding + ps.length })

/-- `enum ActorState<T, R>` from `rustasim-engine/src/worker.rs`. -/
inductive ActorState (T R : Type) where
  | Continue (t : T)
  | Done (r : R)
deriving DecidableEq, Repr

/-- Lexicographic order on Rust `(u64, usize, usize)` tuples (the order
`BinaryHeap<Reverse<Timeout>>` pops minima in). -/
def tupLe (a b : Nat × Nat × Nat) : Bool :=
  a.1 < b.1 ∨ (a.1 = b.1 ∧ (a.2.1 < b.2.1 ∨ (a.2.1 = b.2.1 ∧ a.2.2 ≤ b.2.2)))

/-- `BinaryHeap<Reverse<Timeout>>::push`, modelled as sorted insertion so
that the head is always the heap minimum. -/
def heapPush : List (Nat × Nat × Nat) → (Nat × Nat × Nat) → List (Nat × Nat × Nat)
  | [], x => [x]
  | y :: ys, x => if tupLe x y then x :: y :: ys else y :: heapPush ys x

/-- Append one pushed event at the producer end of outgoing queue `j`. -/
def pushOut {U : Type} (outq : Nat → List (Event U)) (j : Nat) (e : Event U) :
    Nat → List (Event U) :=
  Function.update outq j (outq j ++ [e])

/-- Modelled from the spec: `tx_rx_time` is called by `Server::advance`
but its definition (in the `rustasim-dcsim` crate root) is not among the
provided sources; the spec's design notes give the formula
`tx = cur + 8 * size / bandwidth_gbps` with `rx = tx + latency`. -/
def tx_rx_time (cur size_byte latency bandwidth_gbps : Nat) : Nat × Nat :=
  let tx_end := cur + 8 * size_byte / bandwidth_gbps
  (tx_end, tx_end + latency)

/-- A server actor (`struct Server` in `src/rustasim-dcsim/src/server.rs`).
The merger is modelled as the input stream handed to `advance`; outgoing
queue 0 is the self-loop, queue 1 the top-of-rack switch. -/
structure Server where
  id : Nat
  bandwidth_gbps : Nat
  latency_ns : Nat
  out_queues : Nat → List (Event NetworkEvent)
  n_out : Nat
  ix_to_id : List Nat
  tor_time : Nat
  timeouts : List (Nat × Nat × Nat)
  flows : List Flow
  count : Nat

/-- Checked `self.flows.get_mut(flow_id).unwrap()`. -/
def Server.flowAt (s : Server) (fid : Nat) : Except String Flow :=
  if h : fid < s.flows.length then pure s.flows[fid]
  else Except.error "flow unwrap failed"

/-- The send block at the end of the `ModelEvent` branch of
`Server::advance`: push each packet on the ToR queue, accumulating
`tx_end += bandwidth_gbps * size_byte * 8`, then record the produced
timeouts in the heap. -/
def Server.sendPackets (s : Server) (time : Nat) (packets : List Packet)
    (touts : List (Nat × Nat × Nat)) : Server :=
  let acc := packets.foldl
    (fun (a : Nat × (Nat → List (Event NetworkEvent))) p =>
      let tx_end := a.1 + s.bandwidth_gbps * p.size_byte * 8
      (tx_end,
        pushOut a.2 1
          { time := tx_end + s.latency_ns, src := s.id,
            event_type := EventType.ModelEvent (NetworkEvent.Packet p) }))
    (s.tor_time, s.out_queues)
  { s with
    out_queues := acc.2
    tor_time := acc.1
    timeouts := touts.foldl
      (fun h t => heapPush h (time + t.1, t.2.1, t.2.2)) s.timeouts }

/-- The `EventType::ModelEvent` branch of `Server::advance`: process one
model event at the given time and return the updated server (every
sub-branch of the source ends by continuing the event loop). -/
def Server.handleModel (s : Server) (time : Nat) :
    NetworkEvent → Except String Server
  | NetworkEvent.Timeout => do
    let (res, s) ←
      match s.timeouts with
      | [] => pure ((([] : List Packet), ([] : List (Nat × Nat × Nat))), s)
      | (t0, fid, seq) :: restT =>
        if t0 ≤ time then do
          let fl ← s.flowAt fid
          let (ps, ts, fl') ← fl.timeout seq
          pure ((ps, ts),
            { s with flows := s.flows.set fid fl', timeouts := restT })
        else pure ((([] : List Packet), ([] : List (Nat × Nat × Nat))), s)
    let tnext :=
      match s.timeouts with
      | [] => time + MIN_RTO
      | (t0, _, _) :: _ =>
        if t0 < time + MIN_RTO then t0 else time + MIN_RTO
    let s := { s with
      out_queues := pushOut s.out_queues 0
        { time := tnext, src := s.id,
          event_type := EventType.ModelEvent NetworkEvent.Timeout } }
    pure (s.sendPackets time res.1 res.2)
  | NetworkEvent.Flow src dst size_byte => do
    let flow_id := s.flows.length
    let fl := Flow.new flow_id src dst size_byte
    let (ps, ts, fl') ← fl.start_ time
    let s := { s with flows := s.flows ++ [fl'] }
    pure (s.sendPackets time ps ts)
  | NetworkEvent.Packet p =>
    if p.is_ack then do
      let fl ← s.flowAt p.flow_id
      let (ps, ts, fl') ← fl.src_receive time p
      let s := { s with flows := s.flows.set p.flow_id fl' }
      pure (s.sendPackets time ps ts)
    else do
      let p' : Packet :=
        { p with dst := p.src, src := s.id, is_ack := true, size_byte := 10 }
      let tr := tx_rx_time s.tor_time p'.size_byte s.latency_ns s.bandwidth_gbps
      pure { s with
        out_queues := pushOut s.out_queues 1
          { time := tr.2, src := s.id,
            event_type := EventType.ModelEvent (NetworkEvent.Packet p') }
        tor_time := tr.1 }

/-- `Server::advance` (`src/rustasim-dcsim/src/server.rs`).  The events
the merger yields are supplied as a list; the returned list is what the
merger has not yet yielded when `advance` returns.  An empty stream
models a merger that never becomes ready again (the Rust call would block
forever), hence the error. -/
def Server.advance : Server → List (Event NetworkEvent) →
    Except String (ActorState Nat Nat × Server × List (Event NetworkEvent))
  | _, [] => Except.error "merger stream exhausted"
  | s, e :: rest =>
    match e.event_type with
    | EventType.Close =>
      let outq' := fun j =>
        if j < s.n_out then
          s.out_queues j ++
            [{ time := e.time + s.latency_ns, src := s.id,
               event_type := EventType.Close }]
        else s.out_queues j
      pure (ActorState.Done s.count, { s with out_queues := outq' }, rest)
    | EventType.Stalled =>
      let s' :=
        if s.tor_time < e.time then
          { s with
            out_queues := pushOut s.out_queues 1
              { time := e.time + s.latency_ns, src := s.id,
                event_type := EventType.Null }
            tor_time := e.time }
        else s
      pure (ActorState.Continue e.time, s', rest)
    | EventType.Null => Server.advance s rest
    | EventType.ModelEvent net_event => do
      let s' ← Server.handleModel { s with count := s.count + 1 } e.time net_event
      Server.advance s' rest

/-- The network event payload of the `rustasim-models` crate, used by its
`Router`.  Modelled from the spec: the crate's own `network.rs` is not
among the provided sources; `Router::advance` matches exactly the two
constructors `Flow` (unreachable in a router) and `Packet`. -/
inductive MNetworkEvent where
  | Flow (src dst : Nat) (size_byte : Nat)
  | Packet (p : Packet)
deriving DecidableEq, Repr

/-- A top-of-rack/backbone router
(`struct Router` in `src/rustasim-models/src/network/router.rs`). -/
structure Router where
  id : Nat
  latency_ns : Nat
  ns_per_byte : Nat
  ix_to_id : List Nat
  out_queues : Nat → List (Event MNetworkEvent)
  n_out : Nat
  out_times : Nat → Nat
  route : Nat → List Nat
  count : Nat

/-- The `EventType::ModelEvent` branch of `Router::advance`: `draw` is the
RNG draw consumed by `choose` (picking index `draw % len`); a `Flow` event
hits `unreachable!`.  The packet is either dropped (outgoing queue full by
time estimate) or forwarded with the transmission-time bookkeeping. -/
def Router.handleModel (r : Router) (draw time : Nat) :
    MNetworkEvent → Except String Router
  | MNetworkEvent.Flow _ _ _ => Except.error "unreachable"
  | MNetworkEvent.Packet p =>
    let routes := r.route p.dst
    if routes.length = 0 then Except.error "choose unwrap failed"
    else
      let next_hop := routes.getD (draw % routes.length) 0
      if r.out_times next_hop + 1000 * 1500 * r.ns_per_byte < time then
        pure r
      else
        let cur_time := max time (r.out_times next_hop)
        let tx_end := cur_time + r.ns_per_byte * p.size_byte
        let rx_end := tx_end + r.latency_ns
        pure { r with
          out_queues := pushOut r.out_queues next_hop
            { time := rx_end, src := r.id,
              event_type := EventType.ModelEvent (MNetworkEvent.Packet p) }
          out_times := Function.update r.out_times next_hop tx_end }

/-- `Router::advance` (`src/rustasim-models/src/network/router.rs`).
Merger output is the supplied stream; `rng` is the stream of draws of the
thread-local RNG consumed by `choose` (the k-th `choose` over a slice of
length `n` picks index `rng k % n`), starting at draw `k`. -/
def Router.advance : Router → (Nat → Nat) → Nat → List (Event MNetworkEvent) →
    Except String (ActorState Nat Nat × Router × List (Event MNetworkEvent))
  | _, _, _, [] => Except.error "merger stream exhausted"
  | r, rng, k, e :: rest =>
    match e.event_type with
    | EventType.Close =>
      let outq' := fun j =>
        if j < r.n_out then
          r.out_queues j ++
            [{ time := e.time + r.latency_ns, src := r.id,
               event_type := EventType.Close }]
        else r.out_queues j
      pure (ActorState.Done r.count, { r with out_queues := outq' }, rest)
    | EventType.Stalled =>
      let outq' := fun j =>
        if j < r.n_out ∧ r.out_times j < e.time then
          r.out_queues j ++
            [{ time := e.time + r.latency_ns, src := r.id,
               event_type := EventType.Null }]
        else r.out_queues j
      let times' := fun j =>
        if j < r.n_out ∧ r.out_times j < e.time then e.time else r.out_times j
      pure (ActorState.Continue e.time,
        { r with out_queues := outq', out_times := times' }, rest)
    | EventType.Null => Router.advance r rng k rest
    | EventType.ModelEvent ne => do
      let r' ← Router.handleModel { r with count := r.count + 1 } (rng k) e.time ne
      Router.advance r' rng (k + 1) rest

/-- The parameters of a `RouterBuilder`
(`src/rustasim-models/src/network/router.rs`) that are relevant after the
connection plumbing: `n_out` outgoing queues have been connected (each
freshly allocated queue is empty, since the router is its only producer).
`RouterBuilder::new` sets `latency_ns = 500` and `ns_per_byte = 1`. -/
structure RouterBuilder where
  id : Nat
  latency_ns : Nat
  ns_per_byte : Nat
  ix_to_id : List Nat
  route : Nat → List Nat
  n_out : Nat

/-- `RouterBuilder::new`. -/
def RouterBuilder.new (id : Nat) : RouterBuilder :=
  { id := id, latency_ns := 500, ns_per_byte := 1, ix_to_id := [],
    route := fun _ => [], n_out := 0 }

/-- `RouterBuilder::build`: push one `Null` at `time = latency_ns` on
every outgoing queue and start every `out_times` entry at 0. -/
def RouterBuilder.build (b : RouterBuilder) : Router :=
  { id := b.id, latency_ns := b.latency_ns, ns_per_byte := b.ns_per_byte,
    ix_to_id := b.ix_to_id,
    out_queues := fun j =>
      if j < b.n_out then
        [{ time := b.latency_ns, src := b.id, event_type := EventType.Null }]
      else [],
    n_out := b.n_out,
    out_times := fun _ => 0,
    route := b.route, count := 0 }

/-- The parameters of a `ServerBuilder`
(`src/rustasim-dcsim/src/server.rs`): queue 0 is the self-loop allocated
by `ServerBuilder::new`, queue 1 the ToR connection.  `new` sets
`bandwidth_gbps = 10` and `latency_ns = 500`. -/
structure ServerBuilder where
  id : Nat
  bandwidth_gbps : Nat
  latency_ns : Nat
  ix_to_id : List Nat

/-- `ServerBuilder::new`. -/
def ServerBuilder.new (id : Nat) : ServerBuilder :=
  { id := id, bandwidth_gbps := 10, latency_ns := 500, ix_to_id := [id] }

/-- Inversion for a successful `Except` bind. -/
theorem exceptBind_ok {α β : Type} (x : Except String α)
    (f : α → Except String β) (b : β) (h : x >>= f = Except.ok b) :
    ∃ a, x = Except.ok a ∧ f a = Except.ok b := by
  cases x with
  | error e => exact absurd h (by simp [Bind.bind, Except.bind])
  | ok a => exact ⟨a, rfl, by simpa [Bind.bind, Except.bind] using h⟩

theorem exceptPure_ok {α : Type} {a b : α}
    (h : (pure a : Except String α) = Except.ok b) : a = b :=
  Except.ok.inj h

/-- `Server::sendPackets` does not touch the event counter. -/
theorem Server.sendPackets_count (s : Server) (time : Nat)
    (ps : List Packet) (ts : List (Nat × Nat × Nat)) :
    (s.sendPackets time ps ts).count = s.count := rfl

/-- The `ModelEvent` branch body of `Server::advance` does not change the
counter (it was already incremented on entry). -/
theorem Server.handleModel_count (s : Server) (time : Nat)
    (ne : NetworkEvent) (s' : Server)
    (h : Server.handleModel s time ne = Except.ok s') :
    s'.count = s.count := by
  cases ne with
  | Timeout =>
    simp only [Server.handleModel] at h
    split at h
    · obtain ⟨y, hy, h1⟩ := exceptBind_ok _ _ _ h
      cases exceptPure_ok hy
      cases exceptPure_ok h1
      rfl
    · split at h
      · obtain ⟨fl, hfl, h1⟩ := exceptBind_ok _ _ _ h
        obtain ⟨d, hd, h2⟩ := exceptBind_ok _ _ _ h1
        obtain ⟨y, hy, h3⟩ := exceptBind_ok _ _ _ h2
        cases exceptPure_ok hy
        cases exceptPure_ok h3
        rfl
      · obtain ⟨y, hy, h1⟩ := exceptBind_ok _ _ _ h
        cases exceptPure_ok hy
        cases exceptPure_ok h1
        rfl
  | Flow src dst size_byte =>
    simp only [Server.handleModel] at h
    obtain ⟨⟨ps, ts, fl'⟩, h1, h2⟩ := exceptBind_ok _ _ _ h
    cases exceptPure_ok h2
    rfl
  | Packet p =>
    simp only [Server.handleModel] at h
    split at h
    · obtain ⟨fl, hfl, h1⟩ := exceptBind_ok _ _ _ h
      obtain ⟨⟨ps, ts, fl'⟩, hsr, h2⟩ := exceptBind_ok _ _ _ h1
      cases exceptPure_ok h2
      rfl
    · cases exceptPure_ok h
      rfl

/-- The `ModelEvent` branch body of `Router::advance` does not change the
counter. -/
theorem Router.handleModel_count_r (r : Router) (draw time : Nat)
    (ne : MNetworkEvent) (r' : Router)
    (h : Router.handleModel r draw time ne = Except.ok r') :
    r'.count = r.count := by
  cases ne with
  | Flow src dst size_byte => exact absurd h (by simp [Router.handleModel])
  | Packet p =>
    simp only [Router.handleModel] at h
    split at h
    · exact absurd h (by simp)
    · split at h
      · cases exceptPure_ok h; rfl
      · cases exceptPure_ok h; rfl

/-- Per-call counter accounting of `Server::advance`: a successful call
consumed a prefix of the merger stream and increased `count` by exactly
the number of `ModelEvent`s in that prefix. -/
theorem Server.advance_count :
    ∀ (stream : List (Event NetworkEvent)) (s : Server)
      (st : ActorState Nat Nat) (s' : Server)
      (rest' : List (Event NetworkEvent)),
      Server.advance s stream = Except.ok (st, s', rest') →
      ∃ pre, stream = pre ++ rest' ∧
        s'.count = s.count + (pre.filter (fun e => e.isModel)).length := by
  intro stream
  induction stream with
  | nil => intro s st s' rest' h; exact absurd h (by simp [Server.advance])
  | cons e rest ih =>
    intro s st s' rest' h
    rw [Server.advance] at h
    rcases hty : e.event_type with u | _ | _ | _ <;> rw [hty] at h
    · obtain ⟨s₂, h1, h2⟩ := exceptBind_ok _ _ _ h
      obtain ⟨pre₂, hpre, hcnt⟩ := ih s₂ st s' rest' h2
      refine ⟨e :: pre₂, by simp [hpre], ?_⟩
      have hm : e.isModel = true := by simp [Event.isModel, hty]
      have h₂c : s₂.count = s.count + 1 :=
        Server.handleModel_count _ _ _ _ h1
      simp [hm, hcnt, h₂c]
      omega
    · replace h : Except.ok (ε := String)
          (ActorState.Continue (T := Nat) (R := Nat) e.time, _, rest)
            = Except.ok (st, s', rest') := h
      have h' := Except.ok.inj h
      simp only [Prod.mk.injEq] at h'
      obtain ⟨h1, h2, h3⟩ := h'
      have hm : e.isModel = false := by simp [Event.isModel, hty]
      have hc : s'.count = s.count := by
        rw [← h2]
        split <;> rfl
      exact ⟨[e], by simp [h3], by simp [hm, hc]⟩
    · obtain ⟨pre₂, hpre, hcnt⟩ := ih s st s' rest' h
      refine ⟨e :: pre₂, by simp [hpre], ?_⟩
      have hm : e.isModel = false := by simp [Event.isModel, hty]
      simp [hm, hcnt]
    · replace h : Except.ok (ε := String)
          (ActorState.Done (T := Nat) s.count, _, rest)
            = Except.ok (st, s', rest') := h
      have h' := Except.ok.inj h
      simp only [Prod.mk.injEq] at h'
      obtain ⟨h1, h2, h3⟩ := h'
      have hm : e.isModel = false := by simp [Event.isModel, hty]
      have hc : s'.count = s.count := by rw [← h2]
      exact ⟨[e], by simp [h3], by simp [hm, hc]⟩

/-- Per-call counter accounting of `Router::advance`. -/
theorem Router.advance_count_r :
    ∀ (stream : List (Event MNetworkEvent)) (r : Router) (rng : Nat → Nat)
      (k : Nat) (st : ActorState Nat Nat) (r' : Router)
      (rest' : List (Event MNetworkEvent)),
      Router.advance r rng k stream = Except.ok (st, r', rest') →
      ∃ pre, stream = pre ++ rest' ∧
        r'.count = r.count + (pre.filter (fun e => e.isModel)).length := by
  intro stream
  induction stream with
  | nil => intro r rng k st r' rest' h; exact absurd h (by simp [Router.advance])
  | cons e rest ih =>
    intro r rng k st r' rest' h
    rw [Router.advance] at h
    rcases hty : e.event_type with u | _ | _ | _ <;> rw [hty] at h
    · obtain ⟨r₂, h1, h2⟩ := exceptBind_ok _ _ _ h
      obtain ⟨pre₂, hpre, hcnt⟩ := ih r₂ rng (k + 1) st r' rest' h2
      refine ⟨e :: pre₂, by simp [hpre], ?_⟩
      have hm : e.isModel = true := by simp [Event.isModel, hty]
      have h₂c : r₂.count = r.count + 1 :=
        Router.handleModel_count_r _ _ _ _ _ h1
      simp [hm, hcnt, h₂c]
      omega
    · replace h : Except.ok (ε := String)
          (ActorState.Continue (T := Nat) (R := Nat) e.time, _, rest)
            = Except.ok (st, r', rest') := h
      have h' := Except.ok.inj h
      simp only [Prod.mk.injEq] at h'
      obtain ⟨h1, h2, h3⟩ := h'
      have hm : e.isModel = false := by simp [Event.isModel, hty]
      have hc : r'.count = r.count := by rw [← h2]
      exact ⟨[e], by simp [h3], by simp [hm, hc]⟩
    · obtain ⟨pre₂, hpre, hcnt⟩ := ih r rng k st r' rest' h
      refine ⟨e :: pre₂, by simp [hpre], ?_⟩
      have hm : e.isModel = false := by simp [Event.isModel, hty]
      simp [hm, hcnt]
    · replace h : Except.ok (ε := String)
          (ActorState.Done (T := Nat) r.count, _, rest)
            = Except.ok (st, r', rest') := h
      have h' := Except.ok.inj h
      simp only [Prod.mk.injEq] at h'
      obtain ⟨h1, h2, h3⟩ := h'
      have hm : e.isModel = false := by simp [Event.isModel, hty]
      have hc : r'.count = r.count := by rw [← h2]
      exact ⟨[e], by simp [h3], by simp [hm, hc]⟩

/-- `ServerBuilder::build`: push one `Null` at `time = latency_ns` on the
ToR queue (index 1) and one `ModelEvent(Timeout)` at `time = MIN_RTO` on
the self-loop (index 0). -/
def ServerBuilder.build (b : ServerBuilder) : Server :=
  { id := b.id, bandwidth_gbps := b.bandwidth_gbps,
    latency_ns := b.latency_ns,
    out_queues := fun j =>
      if j = 0 then
        [{ time := MIN_RTO, src := b.id,
           event_type := EventType.ModelEvent NetworkEvent.Timeout }]
      else if j = 1 then
        [{ time := b.latency_ns, src := b.id, event_type := EventType.Null }]
      else [],
    n_out := 2,
    ix_to_id := b.ix_to_id,
    tor_time := 0, timeouts := [], flows := [], count := 0 }

theorem pushOut_same {U : Type} (q : Nat → List (Event U)) (j : Nat)
    (e : Event U) : pushOut q j e j = q j ++ [e] := by
  simp [pushOut]

theorem pushOut_other {U : Type} (q : Nat → List (Event U)) (i j : Nat)
    (e : Event U) (hij : i ≠ j) : pushOut q j e i = q i := by
  simp [pushOut, Function.update_noteq hij]

/-- Behaviour of `Router::advance` on a `Close` event: echo `Close` at
`time + latency_ns` with its own id on every outgoing queue, leave the
counter unchanged, and return `Done(count)`. -/
theorem Router.advance_close_r (r : Router) (rng : Nat → Nat)
    (k t src : Nat) (rest : List (Event MNetworkEvent))
    (st : ActorState Nat Nat) (r' : Router)
    (rest' : List (Event MNetworkEvent))
    (h : Router.advance r rng k
        ({ time := t, src := src, event_type := EventType.Close } :: rest)
      = Except.ok (st, r', rest')) :
    st = ActorState.Done r.count ∧ r'.count = r.count ∧ rest' = rest ∧
      (∀ j, j < r.n_out →
        r'.out_queues j = r.out_queues j ++
          [{ time := t + r.latency_ns, src := r.id,
             event_type := EventType.Close }]) ∧
      (∀ j, ¬ j < r.n_out → r'.out_queues j = r.out_queues j) ∧
      r'.out_times = r.out_times := by
  rw [Router.advance] at h
  replace h : Except.ok (ε := String)
      (ActorState.Done (T := Nat) r.count, _, rest)
        = Except.ok (st, r', rest') := h
  have h' := Except.ok.inj h
  simp only [Prod.mk.injEq] at h'
  obtain ⟨h1, h2, h3⟩ := h'
  refine ⟨h1.symm, by rw [← h2], h3.symm, ?_, ?_, by rw [← h2]⟩
  · intro j hj
    rw [← h2]
    simp [hj]
  · intro j hj
    rw [← h2]
    simp [hj]

/-- Behaviour of `Server::advance` on a `Close` event. -/
theorem Server.advance_close (s : Server) (t src : Nat)
    (rest : List (Event NetworkEvent)) (st : ActorState Nat Nat)
    (s' : Server) (rest' : List (Event NetworkEvent))
    (h : Server.advance s
        ({ time := t, src := src, event_type := EventType.Close } :: rest)
      = Except.ok (st, s', rest')) :
    st = ActorState.Done s.count ∧ s'.count = s.count ∧ rest' = rest ∧
      (∀ j, j < s.n_out →
        s'.out_queues j = s.out_queues j ++
          [{ time := t + s.latency_ns, src := s.id,
             event_type := EventType.Close }]) ∧
      (∀ j, ¬ j < s.n_out → s'.out_queues j = s.out_queues j) := by
  rw [Server.advance] at h
  replace h : Except.ok (ε := String)
      (ActorState.Done (T := Nat) s.count, _, rest)
        = Except.ok (st, s', rest') := h
  have h' := Except.ok.inj h
  simp only [Prod.mk.injEq] at h'
  obtain ⟨h1, h2, h3⟩ := h'
  refine ⟨h1.symm, by rw [← h2], h3.symm, ?_, ?_⟩
  · intro j hj
    rw [← h2]
    simp [hj]
  · intro j hj
    rw [← h2]
    simp [hj]

/-- Behaviour of `Router::advance` on a `Stalled` event: push a `Null` at
`time + latency_ns` on exactly the outgoing queues whose `out_times` entry
is behind, update those entries to the stall time, and return
`Continue(time)`. -/
theorem Router.advance_stalled_r (r : Router) (rng : Nat → Nat)
    (k t src : Nat) (rest : List (Event MNetworkEvent))
    (st : ActorState Nat Nat) (r' : Router)
    (rest' : List (Event MNetworkEvent))
    (h : Router.advance r rng k
        ({ time := t, src := src, event_type := EventType.Stalled } :: rest)
      = Except.ok (st, r', rest')) :
    st = ActorState.Continue t ∧ rest' = rest ∧
      (∀ j, j < r.n_out → r.out_times j < t →
        r'.out_queues j = r.out_queues j ++
            [{ time := t + r.latency_ns, src := r.id,
               event_type := EventType.Null }] ∧
          r'.out_times j = t) ∧
      (∀ j, ¬ (j < r.n_out ∧ r.out_times j < t) →
        r'.out_queues j = r.out_queues j ∧ r'.out_times j = r.out_times j) := by
  rw [Router.advance] at h
  replace h : Except.ok (ε := String)
      (ActorState.Continue (T := Nat) (R := Nat) t, _, rest)
        = Except.ok (st, r', rest') := h
  have h' := Except.ok.inj h
  simp only [Prod.mk.injEq] at h'
  obtain ⟨h1, h2, h3⟩ := h'
  refine ⟨h1.symm, h3.symm, ?_, ?_⟩
  · intro j hj hlt
    rw [← h2]
    constructor <;> simp [hj, hlt]
  · intro j hj
    rw [← h2]
    constructor <;> simp [hj]

/-- Behaviour of `Server::advance` on a `Stalled` event: a `Null` goes to
the ToR queue alone (guarded by `tor_time`); the self-loop queue receives
nothing. -/
theorem Server.advance_stalled (s : Server) (t src : Nat)
    (rest : List (Event NetworkEvent)) (st : ActorState Nat Nat)
    (s' : Server) (rest' : List (Event NetworkEvent))
    (h : Server.advance s
        ({ time := t, src := src, event_type := EventType.Stalled } :: rest)
      = Except.ok (st, s', rest')) :
    st = ActorState.Continue t ∧ rest' = rest ∧
      (s.tor_time < t →
        s'.out_queues 1 = s.out_queues 1 ++
            [{ time := t + s.latency_ns, src := s.id,
               event_type := EventType.Null }] ∧
          s'.tor_time = t) ∧
      (¬ s.tor_time < t →
        s'.out_queues 1 = s.out_queues 1 ∧ s'.tor_time = s.tor_time) ∧
      (∀ j, j ≠ 1 → s'.out_queues j = s.out_queues j) := by
  rw [Server.advance] at h
  replace h : Except.ok (ε := String)
      (ActorState.Continue (T := Nat) (R := Nat) t, _, rest)
        = Except.ok (st, s', rest') := h
  have h' := Except.ok.inj h
  simp only [Prod.mk.injEq] at h'
  obtain ⟨h1, h2, h3⟩ := h'
  refine ⟨h1.symm, h3.symm, ?_, ?_, ?_⟩
  · intro hlt
    rw [← h2, if_pos hlt]
    exact ⟨by simp [pushOut], rfl⟩
  · intro hlt
    rw [← h2, if_neg hlt]
    exact ⟨rfl, rfl⟩
  · intro j hj
    rw [← h2]
    split
    · simp [pushOut, Function.update_noteq hj]
    · rfl

/-! ### Claim C3: the `Stalled` branch of actor `advance` -/

/-- A freshly built server (id 3, default latency 500). -/
def c3Server : Server := (ServerBuilder.new 3).build

/-- The result of `advance` on that server when the merger yields a single
`Stalled` at time 5000. -/
def c3Result :=
  Server.advance c3Server [{ time := 5000, src := 2, event_type := EventType.Stalled }]

/-- C3 counterexample: the claim quantifies over every actor and every
outgoing neighbor `j`.  A freshly built `Server` receiving `Stalled` at
time 5000 returns `Continue(5000)` and pushes a `Null` only on its ToR
queue (index 1); its self-loop outgoing queue (index 0) receives nothing —
even though the server has never committed to any send time on that queue
(any `out_times[0]` is 0 < 5000), so the claim requires a
`Null{time = 5500}` there.  Queue 0 still holds only the builder's
`Timeout` seed. -/
theorem claim_C3_counterexample :
    (c3Result.toOption.map (fun r =>
        ((r.2.1.out_queues 0).map (fun e => (e.time, e.event_type)),
         (r.2.1.out_queues 1).map (fun e => (e.time, e.event_type)),
         (match r.1 with
          | ActorState.Continue t => some t
          | ActorState.Done _ => none))))
      = some ([(MIN_RTO, EventType.ModelEvent NetworkEvent.Timeout)],
              [(500, EventType.Null), (5500, EventType.Null)],
              some 5000) ∧
    (0 : Nat) < 5000 := by
  exact ⟨by decide, by decide⟩

/-- C3 amended: on a `Stalled` event at time `t`, a `Router` pushes
`Null{time = t + ε, src = own id}` onto exactly the outgoing queues `j`
with `out_times[j] < t`, updates those `out_times[j]` to `t`, and returns
`Continue(t)`; a `Server`, however, emits the `Null` only to its ToR queue
(index 1, guarded by `tor_time`), never on its self-loop, and returns
`Continue(t)`. -/
theorem claim_C3_amended :
    (∀ (r : Router) (rng : Nat → Nat) (k t src : Nat)
        (rest : List (Event MNetworkEvent)) (st : ActorState Nat Nat)
        (r' : Router) (rest' : List (Event MNetworkEvent)),
      Router.advance r rng k
          ({ time := t, src := src, event_type := EventType.Stalled } :: rest)
        = Except.ok (st, r', rest') →
      st = ActorState.Continue t ∧ rest' = rest ∧
        (∀ j, j < r.n_out → r.out_times j < t →
          r'.out_queues j = r.out_queues j ++
              [{ time := t + r.latency_ns, src := r.id,
                 event_type := EventType.Null }] ∧
            r'.out_times j = t) ∧
        (∀ j, ¬ (j < r.n_out ∧ r.out_times j < t) →
          r'.out_queues j = r.out_queues j ∧
            r'.out_times j = r.out_times j)) ∧
    (∀ (s : Server) (t src : Nat) (rest : List (Event NetworkEvent))
        (st : ActorState Nat Nat) (s' : Server)
        (rest' : List (Event NetworkEvent)),
      Server.advance s
          ({ time := t, src := src, event_type := EventType.Stalled } :: rest)
        = Except.ok (st, s', rest') →
      st = ActorState.Continue t ∧ rest' = rest ∧
        (s.tor_time < t →
          s'.out_queues 1 = s.out_queues 1 ++
              [{ time := t + s.latency_ns, src := s.id,
                 event_type := EventType.Null }] ∧
            s'.tor_time = t) ∧
        (¬ s.tor_time < t →
          s'.out_queues 1 = s.out_queues 1 ∧ s'.tor_time = s.tor_time) ∧
        (∀ j, j ≠ 1 → s'.out_queues j = s.out_queues j)) :=
  ⟨fun r rng k t src rest st r' rest' h =>
      Router.advance_stalled_r r rng k t src rest st r' rest' h,
    fun s t src rest st s' rest' h =>
      Server.advance_stalled s t src rest st s' rest' h⟩

/-- A concrete router for the C3 witness: id 4, two connected outgoing
queues, default latency 500. -/
def c3Router : Router :=
  RouterBuilder.build { RouterBuilder.new 4 with n_out := 2 }

/-- The literal result state of `c3Router.advance` on `Stalled` at 7. -/
def c3RouterAfter : Router :=
  { c3Router with
    out_queues := fun j =>
      if j < c3Router.n_out ∧ c3Router.out_times j < 7 then
        c3Router.out_queues j ++
          [{ time := 7 + c3Router.latency_ns, src := c3Router.id,
             event_type := EventType.Null }]
      else c3Router.out_queues j
    out_times := fun j =>
      if j < c3Router.n_out ∧ c3Router.out_times j < 7 then 7
      else c3Router.out_times j }

/-- C3 amended, witness: the router part applied at `c3Router` with a
concrete `Stalled` at time 7 pushed `Null@507` on queue 0 and advanced its
out time. -/
theorem claim_C3_amended_witness :
    c3RouterAfter.out_queues 0 = c3Router.out_queues 0 ++
        [{ time := 7 + c3Router.latency_ns, src := c3Router.id,
           event_type := EventType.Null }] ∧
      c3RouterAfter.out_times 0 = 7 :=
  (claim_C3_amended.1 c3Router (fun _ => 0) 0 7 9 [] (ActorState.Continue 7)
      c3RouterAfter [] rfl).2.2.1 0 (by decide) (by decide)

/-! ### Claim C4: the `Close` branch of actor `advance` -/

/-- C4: on a `Close` event at time `t`, both actors push
`Close{time = t + latency, src = own id}` onto every one of their outgoing
queues, exit the loop and return `Done(count)`; and (counter accounting)
every successful `advance` call increases `count` by exactly the number of
`ModelEvent`s in the consumed stream prefix, so the value returned by
`Done` is the number of `ModelEvent`s processed by an actor whose counter
started at 0. -/
theorem claim_C4_close_done :
    (∀ (r : Router) (rng : Nat → Nat) (k t src : Nat)
        (rest : List (Event MNetworkEvent)) (st : ActorState Nat Nat)
        (r' : Router) (rest' : List (Event MNetworkEvent)),
      Router.advance r rng k
          ({ time := t, src := src, event_type := EventType.Close } :: rest)
        = Except.ok (st, r', rest') →
      st = ActorState.Done r.count ∧ r'.count = r.count ∧ rest' = rest ∧
        (∀ j, j < r.n_out →
          r'.out_queues j = r.out_queues j ++
            [{ time := t + r.latency_ns, src := r.id,
               event_type := EventType.Close }]) ∧
        (∀ j, ¬ j < r.n_out → r'.out_queues j = r.out_queues j)) ∧
    (∀ (s : Server) (t src : Nat) (rest : List (Event NetworkEvent))
        (st : ActorState Nat Nat) (s' : Server)
        (rest' : List (Event NetworkEvent)),
      Server.advance s
          ({ time := t, src := src, event_type := EventType.Close } :: rest)
        = Except.ok (st, s', rest') →
      st = ActorState.Done s.count ∧ s'.count = s.count ∧ rest' = rest ∧
        (∀ j, j < s.n_out →
          s'.out_queues j = s.out_queues j ++
            [{ time := t + s.latency_ns, src := s.id,
               event_type := EventType.Close }]) ∧
        (∀ j, ¬ j < s.n_out → s'.out_queues j = s.out_queues j)) ∧
    (∀ (stream : List (Event MNetworkEvent)) (r : Router) (rng : Nat → Nat)
        (k : Nat) (st : ActorState Nat Nat) (r' : Router)
        (rest' : List (Event MNetworkEvent)),
      Router.advance r rng k stream = Except.ok (st, r', rest') →
      ∃ pre, stream = pre ++ rest' ∧
        r'.count = r.count + (pre.filter (fun e => e.isModel)).length) ∧
    (∀ (stream : List (Event NetworkEvent)) (s : Server)
        (st : ActorState Nat Nat) (s' : Server)
        (rest' : List (Event NetworkEvent)),
      Server.advance s stream = Except.ok (st, s', rest') →
      ∃ pre, stream = pre ++ rest' ∧
        s'.count = s.count + (pre.filter (fun e => e.isModel)).length) :=
  ⟨fun r rng k t src rest st r' rest' h =>
      (Router.advance_close_r r rng k t src rest st r' rest' h).imp id
        (fun a => ⟨a.1, a.2.1, a.2.2.1, a.2.2.2.1⟩),
    fun s t src rest st s' rest' h =>
      Server.advance_close s t src rest st s' rest' h,
    fun stream r rng k st r' rest' h =>
      Router.advance_count_r stream r rng k st r' rest' h,
    fun stream s st s' rest' h =>
      Server.advance_count stream s st s' rest' h⟩

/-- A concrete router for the C4 witness. -/
def c4Router : Router :=
  RouterBuilder.build { RouterBuilder.new 6 with n_out := 2 }

/-- The literal result state of `c4Router.advance` on `Close` at 11. -/
def c4RouterAfter : Router :=
  { c4Router with
    out_queues := fun j =>
      if j < c4Router.n_out then
        c4Router.out_queues j ++
          [{ time := 11 + c4Router.latency_ns, src := c4Router.id,
             event_type := EventType.Close }]
      else c4Router.out_queues j }

/-- C4 witness: the router part applied at `c4Router` with a concrete
`Close` at time 11: the result is `Done(count)` and queue 1 got the echoed
`Close@511`. -/
theorem claim_C4_close_done_witness :
    ActorState.Done (T := Nat) c4Router.count = ActorState.Done c4Router.count ∧
      c4RouterAfter.out_queues 1 = c4Router.out_queues 1 ++
        [{ time := 11 + c4Router.latency_ns, src := c4Router.id,
           event_type := EventType.Close }] :=
  ⟨rfl,
    (claim_C4_close_done.1 c4Router (fun _ => 0) 0 11 9 []
        (ActorState.Done c4Router.count) c4RouterAfter [] rfl).2.2.2.1 1
      (by decide)⟩

/-! ### Claim C7: bootstrap seeding of outgoing queues -/

/-- C7 counterexample: the self-loop outgoing queue (index 0) of a freshly
built server is seeded with a `ModelEvent(Timeout)` at `MIN_RTO`, not with
a `Null` at the link latency: the claim fails on every server's self-loop.
-/
theorem claim_C7_counterexample :
    (((ServerBuilder.new 3).build.out_queues 0).map
        (fun e => (e.time, e.event_type)))
      = [(MIN_RTO, EventType.ModelEvent NetworkEvent.Timeout)] ∧
    MIN_RTO ≠ (ServerBuilder.new 3).latency_ns := by
  exact ⟨by decide, by decide⟩

/-- C7 amended: at build time every outgoing queue of a `Router` is seeded
with exactly one `Null` at `time = latency_ns` (routers have no self-loop),
and a `Server`'s ToR queue is seeded with exactly one `Null` at
`time = latency_ns` while its self-loop (index 0) is seeded with one
`ModelEvent(Timeout)` at `time = MIN_RTO`. -/
theorem claim_C7_amended :
    (∀ (b : RouterBuilder) (j : Nat), j < b.n_out →
      b.build.out_queues j =
        [{ time := b.latency_ns, src := b.id, event_type := EventType.Null }]) ∧
    (∀ (b : ServerBuilder),
      b.build.out_queues 1 =
          [{ time := b.latency_ns, src := b.id, event_type := EventType.Null }] ∧
        b.build.out_queues 0 =
          [{ time := MIN_RTO, src := b.id,
             event_type := EventType.ModelEvent NetworkEvent.Timeout }]) := by
  refine ⟨fun b j hj => ?_, fun b => ⟨rfl, rfl⟩⟩
  simp [RouterBuilder.build, hj]

/-- C7 amended, witness: a concrete two-port router builder seeds queue 1
with a single `Null` at the default latency 500. -/
theorem claim_C7_amended_witness :
    (RouterBuilder.build { RouterBuilder.new 8 with n_out := 2 }).out_queues 1
      = [{ time := 500, src := 8, event_type := EventType.Null }] :=
  claim_C7_amended.1 { RouterBuilder.new 8 with n_out := 2 } 1 (by decide)

/-! ### The in-order traversal of the truncated binary tree

`ltr_walk n` walks the tree whose nodes are `1, ..., n - 1` with children
`2m` and `2m + 1` (heap indexing) and emits the nodes in order.  We verify
it against the recursive in-order traversal `inord` defined here, and
derive the properties of the walk needed by `Merger::new`. -/

/-- In-order traversal of the subtree rooted at `m`, restricted to nodes
`< n`, with fuel. -/
def inordAux (n : Nat) : Nat → Nat → List Nat
  | 0, _ => []
  | fuel + 1, m =>
    if m < n then inordAux n fuel (2 * m) ++ m :: inordAux n fuel (2 * m + 1)
    else []

/-- The in-order list of the subtree rooted at `m` (canonical fuel). -/
def subInord (n m : Nat) : List Nat := inordAux n n m

/-- The in-order traversal of the whole truncated tree. -/
def inord (n : Nat) : List Nat := subInord n 1

theorem inordAux_congr (n : Nat) :
    ∀ (f g m : Nat), n ≤ m * 2 ^ f → n ≤ m * 2 ^ g →
      inordAux n f m = inordAux n g m := by
  intro f
  induction f with
  | zero =>
    intro g m hf hg
    simp only [pow_zero, mul_one] at hf
    cases g with
    | zero => rfl
    | succ g => simp [inordAux, Nat.not_lt_of_le hf]
  | succ f ih =>
    intro g m hf hg
    cases g with
    | zero =>
      simp only [pow_zero, mul_one] at hg
      simp [inordAux, Nat.not_lt_of_le hg]
    | succ g =>
      simp only [inordAux]
      rcases Nat.lt_or_ge m n with hm | hm
      · have hf2 : n ≤ 2 * m * 2 ^ f := by
          calc n ≤ m * 2 ^ (f + 1) := hf
          _ = 2 * m * 2 ^ f := by ring
        have hg2 : n ≤ 2 * m * 2 ^ g := by
          calc n ≤ m * 2 ^ (g + 1) := hg
          _ = 2 * m * 2 ^ g := by ring
        have hf3 : n ≤ (2 * m + 1) * 2 ^ f :=
          le_trans hf2 (Nat.mul_le_mul_right _ (by omega))
        have hg3 : n ≤ (2 * m + 1) * 2 ^ g :=
          le_trans hg2 (Nat.mul_le_mul_right _ (by omega))
        rw [if_pos hm, if_pos hm, ih g (2 * m) hf2 hg2, ih g (2 * m + 1) hf3 hg3]
      · rw [if_neg (Nat.not_lt_of_le hm), if_neg (Nat.not_lt_of_le hm)]

theorem le_mul_two_pow_self (n m : Nat) (hm : 1 ≤ m) : n ≤ m * 2 ^ n := by
  calc n ≤ 2 ^ n := Nat.le_of_lt (Nat.lt_two_pow n)
  _ ≤ m * 2 ^ n := Nat.le_mul_of_pos_left _ hm

/-- The defining recurrence of `subInord` with the fuel hidden. -/
theorem subInord_decomp (n m : Nat) (h1 : 1 ≤ m) (h2 : m < n) :
    subInord n m = subInord n (2 * m) ++ m :: subInord n (2 * m + 1) := by
  have e1 : subInord n m = inordAux n (n + 1) m :=
    inordAux_congr n n (n + 1) m (le_mul_two_pow_self n m h1)
      (le_trans (le_mul_two_pow_self n m h1)
        (Nat.mul_le_mul_left _ (Nat.pow_le_pow_right (by norm_num) (by omega))))
  rw [e1]
  simp only [inordAux]
  rw [if_pos h2]
  rfl

theorem subInord_nil (n m : Nat) (h : n ≤ m) : subInord n m = [] := by
  cases n with
  | zero => rfl
  | succ k =>
    show inordAux (k + 1) (k + 1) m = []
    simp only [inordAux]
    rw [if_neg (by omega)]

/-- `x` lies in the subtree rooted at `m` (heap indexing). -/
def isDesc (m x : Nat) : Prop := ∃ d, x / 2 ^ d = m

theorem isDesc_refl (m : Nat) : isDesc m m := ⟨0, by simp⟩

theorem isDesc_left {m x : Nat} (h : isDesc (2 * m) x) : isDesc m x := by
  obtain ⟨d, hd⟩ := h
  exact ⟨d + 1, by
    rw [pow_succ, ← Nat.div_div_eq_div_mul, hd]
    omega⟩

theorem isDesc_right {m x : Nat} (h : isDesc (2 * m + 1) x) : isDesc m x := by
  obtain ⟨d, hd⟩ := h
  exact ⟨d + 1, by
    rw [pow_succ, ← Nat.div_div_eq_div_mul, hd]
    omega⟩

theorem isDesc_ge {m x : Nat} (hm : 1 ≤ m) (h : isDesc m x) : m ≤ x := by
  obtain ⟨d, hd⟩ := h
  calc m = x / 2 ^ d := hd.symm
  _ ≤ x := Nat.div_le_self _ _

theorem mem_subInord_aux (n : Nat) :
    ∀ (k m x : Nat), n - m = k → 1 ≤ m →
      (x ∈ subInord n m ↔ (x < n ∧ isDesc m x)) := by
  intro k
  induction k using Nat.strong_induction_on with
  | _ k ih =>
  intro m x hk hm
  rcases Nat.lt_or_ge m n with hmn | hmn
  · rw [subInord_decomp n m hm hmn]
    simp only [List.mem_append, List.mem_cons]
    constructor
    · rintro (hx | rfl | hx)
      · have := (ih (n - 2 * m) (by omega) (2 * m) x rfl (by omega)).mp hx
        exact ⟨this.1, isDesc_left this.2⟩
      · exact ⟨hmn, isDesc_refl x⟩
      · have := (ih (n - (2 * m + 1)) (by omega) (2 * m + 1) x rfl (by omega)).mp hx
        exact ⟨this.1, isDesc_right this.2⟩
    · rintro ⟨hxn, d, hd⟩
      cases d with
      | zero => right; left; simpa using hd
      | succ d =>
        have h2 : x / 2 ^ d / 2 = m := by
          rw [Nat.div_div_eq_div_mul, ← pow_succ]; exact hd
        have h3 : x / 2 ^ d = 2 * m ∨ x / 2 ^ d = 2 * m + 1 := by omega
        rcases h3 with h3 | h3
        · exact Or.inl ((ih (n - 2 * m) (by omega) (2 * m) x rfl (by omega)).mpr
            ⟨hxn, d, h3⟩)
        · exact Or.inr (Or.inr
            ((ih (n - (2 * m + 1)) (by omega) (2 * m + 1) x rfl (by omega)).mpr
              ⟨hxn, d, h3⟩))
  · rw [subInord_nil n m hmn]
    simp only [List.not_mem_nil, false_iff, not_and]
    intro hxn hdesc
    have := isDesc_ge hm hdesc
    omega

theorem mem_subInord (n m x : Nat) (hm : 1 ≤ m) :
    x ∈ subInord n m ↔ (x < n ∧ isDesc m x) :=
  mem_subInord_aux n (n - m) m x rfl hm

theorem isDesc_trans {p q x : Nat} (h1 : isDesc p q) (h2 : isDesc q x) :
    isDesc p x := by
  obtain ⟨e, he⟩ := h1
  obtain ⟨d, hd⟩ := h2
  exact ⟨d + e, by rw [pow_add, ← Nat.div_div_eq_div_mul, hd, he]⟩

theorem le_mul_two_pow_le {n y f g : Nat} (hfg : f ≤ g) (h : n ≤ y * 2 ^ f) :
    n ≤ y * 2 ^ g :=
  le_trans h (Nat.mul_le_mul_left _ (Nat.pow_le_pow_right (by norm_num) hfg))

/-- Descend to the leftmost node of the subtree at `y`: keep taking the left
child while it exists (`while cur * 2 < num { cur *= 2 }` in `ltr_walk`). -/
def leftD (n : Nat) : Nat → Nat → Nat
  | 0, y => y
  | f + 1, y => if 2 * y < n then leftD n f (2 * y) else y

def leftmost (n y : Nat) : Nat := leftD n n y

theorem leftD_congr (n : Nat) :
    ∀ (f g y : Nat), n ≤ y * 2 ^ f → n ≤ y * 2 ^ g →
      leftD n f y = leftD n g y := by
  intro f
  induction f with
  | zero =>
    intro g y hf hg
    simp only [pow_zero, mul_one] at hf
    cases g with
    | zero => rfl
    | succ g =>
      show y = leftD n (g + 1) y
      simp only [leftD]
      rw [if_neg (by omega)]
  | succ f ih =>
    intro g y hf hg
    cases g with
    | zero =>
      simp only [pow_zero, mul_one] at hg
      simp only [leftD]
      rw [if_neg (by omega)]
    | succ g =>
      simp only [leftD]
      rcases Nat.lt_or_ge (2 * y) n with h | h
      · rw [if_pos h, if_pos h]
        exact ih g (2 * y)
          (by calc n ≤ y * 2 ^ (f + 1) := hf
              _ = 2 * y * 2 ^ f := by ring)
          (by calc n ≤ y * 2 ^ (g + 1) := hg
              _ = 2 * y * 2 ^ g := by ring)
      · rw [if_neg (by omega), if_neg (by omega)]

theorem leftmost_step (n y : Nat) (hy : 1 ≤ y) :
    leftmost n y = if 2 * y < n then leftmost n (2 * y) else y := by
  have e : leftmost n y = leftD n (n + 1) y :=
    leftD_congr n n (n + 1) y (le_mul_two_pow_self n y hy)
      (le_mul_two_pow_le (by omega) (le_mul_two_pow_self n y hy))
  rw [e]
  simp only [leftD]
  rcases Nat.lt_or_ge (2 * y) n with h | h
  · rw [if_pos h, if_pos h]
    rfl
  · rw [if_neg (by omega), if_neg (by omega)]

theorem leftD_stop (n : Nat) :
    ∀ (f y : Nat), n ≤ y * 2 ^ f → n ≤ 2 * leftD n f y := by
  intro f
  induction f with
  | zero =>
    intro y h
    simp only [pow_zero, mul_one] at h
    simp only [leftD]
    omega
  | succ f ih =>
    intro y h
    simp only [leftD]
    rcases Nat.lt_or_ge (2 * y) n with hy | hy
    · rw [if_pos hy]
      exact ih (2 * y) (by calc n ≤ y * 2 ^ (f + 1) := h
                           _ = 2 * y * 2 ^ f := by ring)
    · rw [if_neg (by omega)]
      omega

theorem leftmost_stop (n y : Nat) (hy : 1 ≤ y) : n ≤ 2 * leftmost n y :=
  leftD_stop n n y (le_mul_two_pow_self n y hy)

theorem leftD_lt (n : Nat) :
    ∀ (f y : Nat), y < n → leftD n f y < n := by
  intro f
  induction f with
  | zero => intro y h; exact h
  | succ f ih =>
    intro y h
    simp only [leftD]
    rcases Nat.lt_or_ge (2 * y) n with hy | hy
    · rw [if_pos hy]; exact ih _ hy
    · rw [if_neg (by omega)]; exact h

theorem leftD_ge_one (n : Nat) :
    ∀ (f y : Nat), 1 ≤ y → 1 ≤ leftD n f y := by
  intro f
  induction f with
  | zero => intro y h; exact h
  | succ f ih =>
    intro y h
    simp only [leftD]
    rcases Nat.lt_or_ge (2 * y) n with hy | hy
    · rw [if_pos hy]; exact ih _ (by omega)
    · rw [if_neg (by omega)]; exact h

theorem leftD_desc (n : Nat) :
    ∀ (f y : Nat), isDesc y (leftD n f y) := by
  intro f
  induction f with
  | zero => intro y; exact isDesc_refl y
  | succ f ih =>
    intro y
    simp only [leftD]
    rcases Nat.lt_or_ge (2 * y) n with hy | hy
    · rw [if_pos hy]
      exact isDesc_trans ⟨1, by omega⟩ (ih (2 * y))
    · rw [if_neg (by omega)]
      exact isDesc_refl y

/-- Descend to the rightmost node of the subtree at `y`. -/
def rightD (n : Nat) : Nat → Nat → Nat
  | 0, y => y
  | f + 1, y => if 2 * y + 1 < n then rightD n f (2 * y + 1) else y

def rightmost (n y : Nat) : Nat := rightD n n y

theorem rightD_congr (n : Nat) :
    ∀ (f g y : Nat), n ≤ y * 2 ^ f → n ≤ y * 2 ^ g →
      rightD n f y = rightD n g y := by
  intro f
  induction f with
  | zero =>
    intro g y hf hg
    simp only [pow_zero, mul_one] at hf
    cases g with
    | zero => rfl
    | succ g =>
      show y = rightD n (g + 1) y
      simp only [rightD]
      rw [if_neg (by omega)]
  | succ f ih =>
    intro g y hf hg
    cases g with
    | zero =>
      simp only [pow_zero, mul_one] at hg
      simp only [rightD]
      rw [if_neg (by omega)]
    | succ g =>
      simp only [rightD]
      rcases Nat.lt_or_ge (2 * y + 1) n with h | h
      · rw [if_pos h, if_pos h]
        refine ih g (2 * y + 1) ?_ ?_
        · calc n ≤ y * 2 ^ (f + 1) := hf
            _ = 2 * y * 2 ^ f := by ring
            _ ≤ (2 * y + 1) * 2 ^ f := Nat.mul_le_mul_right _ (by omega)
        · calc n ≤ y * 2 ^ (g + 1) := hg
            _ = 2 * y * 2 ^ g := by ring
            _ ≤ (2 * y + 1) * 2 ^ g := Nat.mul_le_mul_right _ (by omega)
      · rw [if_neg (by omega), if_neg (by omega)]

theorem rightmost_step (n y : Nat) (hy : 1 ≤ y) :
    rightmost n y = if 2 * y + 1 < n then rightmost n (2 * y + 1) else y := by
  have e : rightmost n y = rightD n (n + 1) y :=
    rightD_congr n n (n + 1) y (le_mul_two_pow_self n y hy)
      (le_mul_two_pow_le (by omega) (le_mul_two_pow_self n y hy))
  rw [e]
  simp only [rightD]
  rcases Nat.lt_or_ge (2 * y + 1) n with h | h
  · rw [if_pos h, if_pos h]
    rfl
  · rw [if_neg (by omega), if_neg (by omega)]

theorem rightD_stop (n : Nat) :
    ∀ (f y : Nat), n ≤ y * 2 ^ f → n ≤ 2 * rightD n f y + 1 := by
  intro f
  induction f with
  | zero =>
    intro y h
    simp only [pow_zero, mul_one] at h
    simp only [rightD]
    omega
  | succ f ih =>
    intro y h
    simp only [rightD]
    rcases Nat.lt_or_ge (2 * y + 1) n with hy | hy
    · rw [if_pos hy]
      refine ih (2 * y + 1) ?_
      calc n ≤ y * 2 ^ (f + 1) := h
        _ = 2 * y * 2 ^ f := by ring
        _ ≤ (2 * y + 1) * 2 ^ f := Nat.mul_le_mul_right _ (by omega)
    · rw [if_neg (by omega)]
      omega

theorem rightD_lt (n : Nat) :
    ∀ (f y : Nat), y < n → rightD n f y < n := by
  intro f
  induction f with
  | zero => intro y h; exact h
  | succ f ih =>
    intro y h
    simp only [rightD]
    rcases Nat.lt_or_ge (2 * y + 1) n with hy | hy
    · rw [if_pos hy]; exact ih _ hy
    · rw [if_neg (by omega)]; exact h

theorem rightD_ge_one (n : Nat) :
    ∀ (f y : Nat), 1 ≤ y → 1 ≤ rightD n f y := by
  intro f
  induction f with
  | zero => intro y h; exact h
  | succ f ih =>
    intro y h
    simp only [rightD]
    rcases Nat.lt_or_ge (2 * y + 1) n with hy | hy
    · rw [if_pos hy]; exact ih _ (by omega)
    · rw [if_neg (by omega)]; exact h

/-- The rightmost node of the subtree at `y` reaches `y` by repeated halving,
through odd intermediate values. -/
theorem rightD_spine (n : Nat) :
    ∀ (f y : Nat), 1 ≤ y →
      ∃ g, rightD n f y / 2 ^ g = y ∧
        ∀ e, e < g → (rightD n f y / 2 ^ e) % 2 = 1 := by
  intro f
  induction f with
  | zero =>
    intro y hy
    exact ⟨0, by simp [rightD], by omega⟩
  | succ f ih =>
    intro y hy
    simp only [rightD]
    rcases Nat.lt_or_ge (2 * y + 1) n with hcond | hcond
    · rw [if_pos hcond]
      obtain ⟨g, hg, hodd⟩ := ih (2 * y + 1) (by omega)
      refine ⟨g + 1, ?_, ?_⟩
      · rw [pow_succ, ← Nat.div_div_eq_div_mul, hg]
        omega
      · intro e he
        rcases Nat.lt_or_ge e g with he2 | he2
        · exact hodd e he2
        · have : e = g := by omega
          rw [this, hg]
          omega
    · rw [if_neg (by omega)]
      exact ⟨0, by simp, by omega⟩

/-- Two disjoint subtrees share no node. -/
theorem isDesc_sibling {m x : Nat} (hm : 1 ≤ m)
    (h1 : isDesc (2 * m) x) (h2 : isDesc (2 * m + 1) x) : False := by
  obtain ⟨d, hd⟩ := h1
  obtain ⟨e, he⟩ := h2
  rcases Nat.lt_trichotomy d e with h | h | h
  · have hde : d + (e - d) = e := by omega
    have : x / 2 ^ e = x / 2 ^ d / 2 ^ (e - d) := by
      rw [Nat.div_div_eq_div_mul, ← pow_add, hde]
    rw [he, hd] at this
    have h2m : 2 * m / 2 ^ (e - d) ≤ 2 * m / 2 := by
      apply Nat.div_le_div_left
      · exact Nat.le_self_pow (by omega) 2
      · norm_num
    omega
  · rw [h] at hd
    omega
  · have hed : e + (d - e) = d := by omega
    have : x / 2 ^ d = x / 2 ^ e / 2 ^ (d - e) := by
      rw [Nat.div_div_eq_div_mul, ← pow_add, hed]
    rw [hd, he] at this
    have : (2 * m + 1) / 2 ^ (d - e) ≤ (2 * m + 1) / 2 := by
      apply Nat.div_le_div_left
      · exact Nat.le_self_pow (by omega) 2
      · norm_num
    omega

theorem nodup_subInord_aux (n : Nat) :
    ∀ (k m : Nat), n - m = k → 1 ≤ m → (subInord n m).Nodup := by
  intro k
  induction k using Nat.strong_induction_on with
  | _ k ih =>
  intro m hk hm
  rcases Nat.lt_or_ge m n with hmn | hmn
  · rw [subInord_decomp n m hm hmn]
    apply List.Nodup.append
    · exact ih (n - 2 * m) (by omega) (2 * m) rfl (by omega)
    · apply List.Nodup.cons
      · intro hmem
        have := (mem_subInord n (2 * m + 1) m (by omega)).mp hmem
        have := isDesc_ge (by omega) this.2
        omega
      · exact ih (n - (2 * m + 1)) (by omega) (2 * m + 1) rfl (by omega)
    · intro x hx1 hx2
      have d1 := (mem_subInord n (2 * m) x (by omega)).mp hx1
      rcases List.mem_cons.mp hx2 with rfl | hx2
      · have := isDesc_ge (by omega) d1.2
        omega
      · have d2 := (mem_subInord n (2 * m + 1) x (by omega)).mp hx2
        exact isDesc_sibling hm d1.2 d2.2
  · rw [subInord_nil n m hmn]
    exact List.nodup_nil

theorem nodup_subInord (n m : Nat) (hm : 1 ≤ m) : (subInord n m).Nodup :=
  nodup_subInord_aux n (n - m) m rfl hm

/-- The traversal of a non-empty subtree starts at its leftmost node. -/
theorem subInord_eq_leftmost_cons_aux (n : Nat) :
    ∀ (k m : Nat), n - m = k → 1 ≤ m → m < n →
      ∃ T, subInord n m = leftmost n m :: T := by
  intro k
  induction k using Nat.strong_induction_on with
  | _ k ih =>
  intro m hk hm hmn
  rw [subInord_decomp n m hm hmn, leftmost_step n m hm]
  rcases Nat.lt_or_ge (2 * m) n with h | h
  · rw [if_pos h]
    obtain ⟨T, hT⟩ := ih (n - 2 * m) (by omega) (2 * m) rfl (by omega) h
    exact ⟨T ++ m :: subInord n (2 * m + 1), by rw [hT]; rfl⟩
  · rw [if_neg (by omega), subInord_nil n (2 * m) h]
    exact ⟨subInord n (2 * m + 1), rfl⟩

theorem subInord_eq_leftmost_cons (n m : Nat) (hm : 1 ≤ m) (hmn : m < n) :
    ∃ T, subInord n m = leftmost n m :: T :=
  subInord_eq_leftmost_cons_aux n (n - m) m rfl hm hmn

/-- The traversal of a non-empty subtree ends at its rightmost node. -/
theorem subInord_eq_append_rightmost_aux (n : Nat) :
    ∀ (k m : Nat), n - m = k → 1 ≤ m → m < n →
      ∃ T, subInord n m = T ++ [rightmost n m] := by
  intro k
  induction k using Nat.strong_induction_on with
  | _ k ih =>
  intro m hk hm hmn
  rw [subInord_decomp n m hm hmn, rightmost_step n m hm]
  rcases Nat.lt_or_ge (2 * m + 1) n with h | h
  · rw [if_pos h]
    obtain ⟨T, hT⟩ := ih (n - (2 * m + 1)) (by omega) (2 * m + 1) rfl (by omega) h
    exact ⟨subInord n (2 * m) ++ m :: T, by rw [hT, List.append_assoc]; rfl⟩
  · rw [if_neg (by omega), subInord_nil n (2 * m + 1) h]
    exact ⟨subInord n (2 * m), rfl⟩

theorem subInord_eq_append_rightmost (n m : Nat) (hm : 1 ≤ m) (hmn : m < n) :
    ∃ T, subInord n m = T ++ [rightmost n m] :=
  subInord_eq_append_rightmost_aux n (n - m) m rfl hm hmn

/-- Number of halvings needed to move from a node to its in-order successor
when it has no right child: strip the trailing chain of odd ancestors and one
more halving. -/
def upDistAux : Nat → Nat → Nat
  | 0, _ => 0
  | f + 1, x => if x % 2 = 0 then 1 else upDistAux f (x / 2) + 1

def upDist (x : Nat) : Nat := upDistAux (x + 1) x

theorem upDistAux_congr :
    ∀ (f g x : Nat), x < f → x < g → upDistAux f x = upDistAux g x := by
  intro f
  induction f with
  | zero => intro g x h; omega
  | succ f ih =>
    intro g x hf hg
    cases g with
    | zero => omega
    | succ g =>
      simp only [upDistAux]
      rcases Nat.decEq (x % 2) 0 with h | h
      · rw [if_neg h, if_neg h]
        have hx1 : 1 ≤ x := by omega
        rw [ih g (x / 2) (by omega) (by omega)]
      · rw [if_pos h, if_pos h]

theorem upDist_even (x : Nat) (h : x % 2 = 0) : upDist x = 1 := by
  simp [upDist, upDistAux, h]

theorem upDist_odd (x : Nat) (h : x % 2 = 1) :
    upDist x = upDist (x / 2) + 1 := by
  show upDistAux (x + 1) x = upDistAux (x / 2 + 1) (x / 2) + 1
  have hx1 : 1 ≤ x := by omega
  rw [upDistAux_congr (x + 1) (x + 2) x (by omega) (by omega)]
  show (if x % 2 = 0 then 1 else upDistAux (x + 1) (x / 2) + 1) = _
  rw [if_neg (by omega), upDistAux_congr (x + 1) (x / 2 + 1) (x / 2) (by omega) (by omega)]

theorem upDist_pos (x : Nat) : 1 ≤ upDist x := by
  show 1 ≤ upDistAux (x + 1) x
  simp only [upDistAux]
  rcases Nat.decEq (x % 2) 0 with h | h
  · rw [if_neg h]; omega
  · rw [if_pos h]

/-- Characterization of `upDist`: the ancestors below the landing point are
odd, the last one strictly below it is even. -/
theorem upDist_spec (x : Nat) :
    (∀ e, e + 1 < upDist x → (x / 2 ^ e) % 2 = 1) ∧
      (x / 2 ^ (upDist x - 1)) % 2 = 0 := by
  induction x using Nat.strong_induction_on with
  | _ x ih =>
  rcases Nat.lt_or_ge x 1 with hx | hx
  · have : x = 0 := by omega
    subst this
    rw [upDist_even 0 rfl]
    exact ⟨by omega, by simp⟩
  · rcases Nat.decEq (x % 2) 0 with hodd | heven
    · have hodd' : x % 2 = 1 := by omega
      rw [upDist_odd x hodd']
      have hrec := ih (x / 2) (by omega)
      have hu := upDist_pos (x / 2)
      constructor
      · intro e he
        cases e with
        | zero => simpa using hodd'
        | succ e =>
          have : x / 2 ^ (e + 1) = x / 2 / 2 ^ e := by
            rw [Nat.div_div_eq_div_mul, pow_succ]
            ring_nf
          rw [this]
          exact hrec.1 e (by omega)
      · have hexp : upDist (x / 2) + 1 - 1 = (upDist (x / 2) - 1) + 1 := by omega
        have : x / 2 ^ (upDist (x / 2) + 1 - 1) = x / 2 / 2 ^ (upDist (x / 2) - 1) := by
          rw [hexp, pow_succ', ← Nat.div_div_eq_div_mul]
        rw [this]
        exact hrec.2
    · rw [upDist_even x heven]
      exact ⟨by omega, by simpa using heven⟩

/-- `upDist` is determined by the odd/even pattern of the halving chain. -/
theorem upDist_eq_of (g : Nat) :
    ∀ (x : Nat), (∀ e, e < g → (x / 2 ^ e) % 2 = 1) → (x / 2 ^ g) % 2 = 0 →
      upDist x = g + 1 := by
  induction g with
  | zero =>
    intro x hodd heven
    simp only [pow_zero, Nat.div_one] at heven
    exact upDist_even x heven
  | succ g ih =>
    intro x hodd heven
    have hx : x % 2 = 1 := by simpa using hodd 0 (by omega)
    rw [upDist_odd x hx]
    congr 1
    apply ih (x / 2)
    · intro e he
      have : x / 2 / 2 ^ e = x / 2 ^ (e + 1) := by
        rw [Nat.div_div_eq_div_mul, ← pow_succ']
      rw [this]
      exact hodd (e + 1) (by omega)
    · have : x / 2 / 2 ^ g = x / 2 ^ (g + 1) := by
        rw [Nat.div_div_eq_div_mul, ← pow_succ']
      rw [this]
      exact heven

/-- The in-order successor relation realized by one step of the walk: either
descend to the leftmost node of the right subtree, or halve until the first
even ancestor and halve once more. -/
def succR (n x y : Nat) : Prop :=
  if 2 * x + 1 < n then y = leftmost n (2 * x + 1) else y = x / 2 ^ upDist x

/-- Consecutive elements of the in-order traversal are related by `succR`. -/
theorem chain'_subInord (n : Nat) :
    ∀ (k m : Nat), n - m = k → 1 ≤ m → List.Chain' (succR n) (subInord n m) := by
  intro k
  induction k using Nat.strong_induction_on with
  | _ k ih =>
  intro m hk hm
  rcases Nat.lt_or_ge m n with hmn | hmn
  · rw [subInord_decomp n m hm hmn]
    apply List.Chain'.append
    · rcases Nat.lt_or_ge (2 * m) n with h | h
      · exact ih (n - 2 * m) (by omega) (2 * m) rfl (by omega)
      · rw [subInord_nil n (2 * m) h]
        exact List.chain'_nil
    · rw [List.chain'_cons']
      constructor
      · intro y hy
        rcases Nat.lt_or_ge (2 * m + 1) n with h | h
        · obtain ⟨T, hT⟩ := subInord_eq_leftmost_cons n (2 * m + 1) (by omega) h
          rw [hT] at hy
          simp only [List.head?_cons, Option.mem_def, Option.some.injEq] at hy
          show succR n m y
          rw [succR, if_pos h]
          omega
        · rw [subInord_nil n (2 * m + 1) h] at hy
          simp at hy
      · rcases Nat.lt_or_ge (2 * m + 1) n with h | h
        · exact ih (n - (2 * m + 1)) (by omega) (2 * m + 1) rfl (by omega)
        · rw [subInord_nil n (2 * m + 1) h]
          exact List.chain'_nil
    · intro x hx y hy
      rcases Nat.lt_or_ge (2 * m) n with h | h
      · obtain ⟨T, hT⟩ := subInord_eq_append_rightmost n (2 * m) (by omega) h
        rw [hT] at hx
        simp only [List.getLast?_append_cons, List.getLast?_singleton,
          Option.mem_def, Option.some.injEq] at hx
        simp only [List.head?_cons, Option.mem_def, Option.some.injEq] at hy
        subst hx
        subst hy
        show succR n (rightmost n (2 * m)) m
        have hstop : n ≤ 2 * rightmost n (2 * m) + 1 :=
          rightD_stop n n (2 * m) (le_mul_two_pow_self n (2 * m) (by omega))
        rw [succR, if_neg (by omega)]
        obtain ⟨g, hg, hodd⟩ := rightD_spine n n (2 * m) (by omega)
        have hup : upDist (rightmost n (2 * m)) = g + 1 := by
          apply upDist_eq_of g (rightmost n (2 * m)) hodd
          show rightD n n (2 * m) / 2 ^ g % 2 = 0
          rw [hg]
          omega
        rw [hup, pow_succ, ← Nat.div_div_eq_div_mul]
        show m = rightD n n (2 * m) / 2 ^ g / 2
        rw [hg]
        omega
      · rw [subInord_nil n (2 * m) h] at hx
        simp at hx
  · rw [subInord_nil n m hmn]
    exact List.chain'_nil

theorem chain'_inord (n : Nat) : List.Chain' (succR n) (inord n) :=
  chain'_subInord n (n - 1) 1 rfl (by omega)

theorem isDesc_one (x : Nat) (hx : 1 ≤ x) : isDesc 1 x := by
  induction x using Nat.strong_induction_on with
  | _ x ih =>
  rcases Nat.lt_or_ge x 2 with h | h
  · have : x = 1 := by omega
    subst this
    exact isDesc_refl 1
  · have := ih (x / 2) (by omega) (by omega)
    exact isDesc_trans this ⟨1, by omega⟩

theorem mem_inord (n x : Nat) : x ∈ inord n ↔ (1 ≤ x ∧ x < n) := by
  rw [inord, mem_subInord n 1 x (by omega)]
  constructor
  · rintro ⟨h1, d, hd⟩
    refine ⟨?_, h1⟩
    rcases Nat.lt_or_ge x 1 with h | h
    · interval_cases x
      simp at hd
    · exact h
  · rintro ⟨h1, h2⟩
    exact ⟨h2, isDesc_one x h1⟩

theorem nodup_inord (n : Nat) : (inord n).Nodup :=
  nodup_subInord n 1 (by omega)

theorem length_inord (n : Nat) : (inord n).length = n - 1 := by
  have h1 : (inord n).toFinset.card = (inord n).length :=
    List.toFinset_card_of_nodup (nodup_inord n)
  have h2 : (inord n).toFinset = Finset.Ico 1 n := by
    ext x
    rw [List.mem_toFinset, mem_inord, Finset.mem_Ico]
  rw [← h1, h2, Nat.card_Ico]

/-! Positional order in a duplicate-free list, in terms of splits. -/

theorem nodup_split_not_mem {P S : List Nat} {b : Nat}
    (h : (P ++ b :: S).Nodup) : b ∉ P := by
  rw [List.nodup_append] at h
  intro hb
  exact h.2.2 hb (List.mem_cons_self b S)

theorem split_nodup_uniq :
    ∀ (P₁ : List Nat) {S₁ P₂ S₂ : List Nat} {b : Nat},
      (P₁ ++ b :: S₁).Nodup → P₁ ++ b :: S₁ = P₂ ++ b :: S₂ →
      P₁ = P₂ ∧ S₁ = S₂ := by
  intro P₁
  induction P₁ with
  | nil =>
    intro S₁ P₂ S₂ b hnd heq
    cases P₂ with
    | nil =>
      simp only [List.nil_append, List.cons.injEq] at heq
      exact ⟨rfl, heq.2⟩
    | cons p P₂' =>
      simp only [List.nil_append, List.cons_append, List.cons.injEq] at heq
      exfalso
      obtain ⟨rfl, hS⟩ := heq
      have : b ∈ S₁ := by
        rw [hS]
        exact List.mem_append_right _ (List.mem_cons_self b S₂)
      simp only [List.nil_append] at hnd
      exact (List.nodup_cons.mp hnd).1 this
  | cons a P₁' ih =>
    intro S₁ P₂ S₂ b hnd heq
    cases P₂ with
    | nil =>
      simp only [List.cons_append, List.nil_append, List.cons.injEq] at heq
      exfalso
      obtain ⟨rfl, hS⟩ := heq
      simp only [List.cons_append] at hnd
      have : a ∈ P₁' ++ a :: S₁ :=
        List.mem_append_right _ (List.mem_cons_self a S₁)
      exact (List.nodup_cons.mp hnd).1 this
    | cons p P₂' =>
      simp only [List.cons_append, List.cons.injEq] at heq
      obtain ⟨rfl, heq⟩ := heq
      simp only [List.cons_append] at hnd
      obtain ⟨h1, h2⟩ := ih (List.nodup_cons.mp hnd).2 heq
      exact ⟨by rw [h1], h2⟩

/-- `a` occurs strictly before `b` in `l`. -/
def beforeIn (l : List Nat) (a b : Nat) : Prop :=
  ∃ P S, l = P ++ b :: S ∧ a ∈ P

theorem beforeIn_append_right {L Y : List Nat} {a b : Nat}
    (h : beforeIn L a b) : beforeIn (L ++ Y) a b := by
  obtain ⟨P, S, hPS, ha⟩ := h
  exact ⟨P, S ++ Y, by rw [hPS]; simp, ha⟩

theorem beforeIn_append_left {X R : List Nat} {a b : Nat}
    (h : beforeIn R a b) : beforeIn (X ++ R) a b := by
  obtain ⟨P, S, hPS, ha⟩ := h
  exact ⟨X ++ P, S, by rw [hPS]; simp, List.mem_append_right X ha⟩

theorem beforeIn_of_mem_mem {A B : List Nat} {a b : Nat}
    (ha : a ∈ A) (hb : b ∈ B) : beforeIn (A ++ B) a b := by
  obtain ⟨s, t, hst⟩ := List.mem_iff_append.mp hb
  exact ⟨A ++ s, t, by rw [hst]; simp, List.mem_append_left _ ha⟩

/-- The canonical split of a duplicate-free list at position `j`. -/
theorem split_at_get {l : List Nat} {j : Nat} (hj : j < l.length) :
    l = l.take j ++ l.get ⟨j, hj⟩ :: l.drop (j + 1) := by
  conv_lhs => rw [← List.take_append_drop j l]
  rw [List.drop_eq_get_cons hj]

theorem mem_take_of_beforeIn {l : List Nat} (hnd : l.Nodup) {a b : Nat}
    (hab : beforeIn l a b) {j : Nat} (hj : j < l.length)
    (hb : l.get ⟨j, hj⟩ = b) : a ∈ l.take j := by
  obtain ⟨P, S, hPS, ha⟩ := hab
  have hsplit : l = l.take j ++ b :: l.drop (j + 1) := by
    rw [← hb]
    exact split_at_get hj
  have hnd2 : (l.take j ++ b :: l.drop (j + 1)).Nodup := by
    rw [← hsplit]
    exact hnd
  obtain ⟨hP, _⟩ := split_nodup_uniq (l.take j) hnd2 (hsplit.symm.trans hPS)
  rw [hP]
  exact ha

theorem get_not_mem_take {l : List Nat} (hnd : l.Nodup) {j : Nat}
    (hj : j < l.length) : l.get ⟨j, hj⟩ ∉ l.take j := by
  have hsplit := split_at_get hj
  have hnd2 : (l.take j ++ l.get ⟨j, hj⟩ :: l.drop (j + 1)).Nodup := by
    rw [← hsplit]
    exact hnd
  exact nodup_split_not_mem hnd2

/-- An ancestor whose right subtree contains `b` appears before `b` in the
in-order traversal. -/
theorem anc_before (n : Nat) :
    ∀ (k m a b : Nat), n - m = k → 1 ≤ m → isDesc m a → 1 ≤ a →
      isDesc (2 * a + 1) b → b < n → beforeIn (subInord n m) a b := by
  intro k
  induction k using Nat.strong_induction_on with
  | _ k ih =>
  intro m a b hk hm hma ha hab hbn
  have hge1 : m ≤ a := isDesc_ge hm hma
  have hge2 : 2 * a + 1 ≤ b := isDesc_ge (by omega) hab
  have hmn : m < n := by omega
  rw [subInord_decomp n m hm hmn]
  obtain ⟨d, hd⟩ := hma
  cases d with
  | zero =>
    simp only [pow_zero, Nat.div_one] at hd
    subst hd
    have hbR : b ∈ subInord n (2 * a + 1) :=
      (mem_subInord n (2 * a + 1) b (by omega)).mpr ⟨hbn, hab⟩
    exact beforeIn_append_left
      (beforeIn_of_mem_mem (List.mem_singleton.mpr rfl) hbR
        (A := [a]) (B := subInord n (2 * a + 1)))
  | succ d =>
    have h2 : a / 2 ^ d / 2 = m := by
      rw [Nat.div_div_eq_div_mul, ← pow_succ]
      exact hd
    have hdesc_b_a : isDesc a b := isDesc_trans ⟨1, by omega⟩ hab
    have h3 : a / 2 ^ d = 2 * m ∨ a / 2 ^ d = 2 * m + 1 := by omega
    rcases h3 with h3 | h3
    · have hrec := ih (n - 2 * m) (by omega) (2 * m) a b rfl (by omega)
        ⟨d, h3⟩ ha hab hbn
      exact beforeIn_append_right hrec
    · have hrec := ih (n - (2 * m + 1)) (by omega) (2 * m + 1) a b rfl (by omega)
        ⟨d, h3⟩ ha hab hbn
      have := beforeIn_append_left (X := subInord n (2 * m) ++ [m]) hrec
      rw [List.append_assoc] at this
      simpa using this

/-- In the full traversal: an ancestor with `b` in its right subtree comes
before `b`. -/
theorem anc_before_inord (n a b : Nat) (ha : 1 ≤ a)
    (hab : isDesc (2 * a + 1) b) (hbn : b < n) : beforeIn (inord n) a b :=
  anc_before n (n - 1) 1 a b rfl (by omega) (isDesc_one a ha) ha hab hbn

theorem get_mem_take {l : List Nat} {i j : Nat} (hi : i < l.length)
    (hij : i < j) : l.get ⟨i, hi⟩ ∈ l.take j := by
  have hlen : i < (l.take j).length := by
    rw [List.length_take]
    omega
  have : (l.take j).get ⟨i, hlen⟩ = l.get ⟨i, hi⟩ := (List.get_take _ hi hij).symm
  rw [← this]
  exact List.get_mem _ _ _

theorem mem_take_mono {l : List Nat} {x : Nat} {i j : Nat} (hij : i ≤ j)
    (h : x ∈ l.take i) : x ∈ l.take j := by
  have : l.take i = (l.take j).take i := by
    rw [List.take_take, Nat.min_eq_left hij]
  rw [this] at h
  exact List.take_subset _ _ h

/-- More fuel never changes a successful up-walk. -/
theorem exceptOkBind {A B : Type} (b : A) (f : A → Except String B) :
    bind (Except.ok b) f = f b := rfl

theorem exceptPureBind {A B : Type} (b : A) (f : A → Except String B) :
    bind (pure b : Except String A) f = f b := rfl

theorem exceptErrBind {A B : Type} (s : String) (f : A → Except String B) :
    bind (Except.error s : Except String A) f =
      (Except.error s : Except String B) := rfl

theorem upWhileAux_ok_mono :
    ∀ (f g : Nat) (V : List Bool) (c r : Nat),
      upWhileAux f V c = Except.ok r → f ≤ g →
      upWhileAux g V c = Except.ok r := by
  intro f
  induction f with
  | zero => intro g V c r h; simp [upWhileAux] at h
  | succ f ih =>
    intro g V c r h hfg
    cases g with
    | zero => omega
    | succ g =>
      simp only [upWhileAux] at h ⊢
      rcases hvc : vget V c with e | b
      · rw [hvc, exceptErrBind] at h
        exact Except.noConfusion h
      · rw [hvc, exceptOkBind] at h
        rw [exceptOkBind]
        cases b with
        | false => exact h
        | true =>
          simp only [if_true] at h ⊢
          rcases Nat.decEq c 0 with hc | hc
          · rw [if_neg hc] at h ⊢
            exact ih g V (c / 2) r h (by omega)
          · rw [if_pos hc] at h
            simp at h

/-- The up-walk stops at the first unvisited ancestor. -/
theorem upWhile_spec :
    ∀ (D c : Nat) (V : List Bool), c < V.length →
      (∀ e (he : e < D) (hb : c / 2 ^ e < V.length), V.get ⟨c / 2 ^ e, hb⟩ = true) →
      (∀ hb : c / 2 ^ D < V.length, V.get ⟨c / 2 ^ D, hb⟩ = false) →
      upWhileAux (c + 1) V c = Except.ok (c / 2 ^ D) := by
  intro D
  induction D with
  | zero =>
    intro c V hc hvis hstop
    show upWhileAux (c + 1) V c = _
    simp only [upWhileAux, vget, dif_pos hc]
    have : V[c] = false := by
      have := hstop (by simpa using hc)
      simpa using this
    rw [this]
    show pure c = Except.ok (c / 2 ^ 0)
    simp only [pow_zero, Nat.div_one]
    rfl
  | succ D ih =>
    intro c V hc hvis hstop
    show upWhileAux (c + 1) V c = _
    simp only [upWhileAux, vget, dif_pos hc]
    have hcv : V[c] = true := by
      have := hvis 0 (by omega) (by simpa using hc)
      simpa using this
    rw [hcv, exceptPureBind]
    simp only [if_true]
    have hcne : c ≠ 0 := by
      intro h0
      subst h0
      have h1 := hvis 0 (by omega) (by simpa using hc)
      have h2 := hstop (by
        simpa [Nat.zero_div] using hc)
      simp only [pow_zero, Nat.div_one] at h1
      simp only [Nat.zero_div] at h2
      rw [h1] at h2
      exact Bool.noConfusion h2
    rw [if_neg hcne]
    have hstep : ∀ e, c / 2 / 2 ^ e = c / 2 ^ (e + 1) := by
      intro e
      rw [Nat.div_div_eq_div_mul, ← pow_succ']
    have hrec := ih (c / 2) V (by omega)
      (fun e he hb2 => by
        have hb3 : c / 2 ^ (e + 1) < V.length := by rw [← hstep e]; exact hb2
        have hfin : (⟨c / 2 / 2 ^ e, hb2⟩ : Fin V.length) = ⟨c / 2 ^ (e + 1), hb3⟩ :=
          Fin.ext (hstep e)
        rw [hfin]
        exact hvis (e + 1) (by omega) hb3)
      (fun hb2 => by
        have hb3 : c / 2 ^ (D + 1) < V.length := by rw [← hstep D]; exact hb2
        have hfin : (⟨c / 2 / 2 ^ D, hb2⟩ : Fin V.length) = ⟨c / 2 ^ (D + 1), hb3⟩ :=
          Fin.ext (hstep D)
        rw [hfin]
        exact hstop hb3)
    have : c / 2 / 2 ^ D = c / 2 ^ (D + 1) := hstep D
    rw [this] at hrec
    exact upWhileAux_ok_mono (c / 2 + 1) c V (c / 2) (c / 2 ^ (D + 1)) hrec (by omega)

/-- The down-walk computes `leftD`. -/
theorem downWhile_eq_leftD (n : Nat) :
    ∀ (f c : Nat), 1 ≤ c → n ≤ c * 2 ^ f →
      downWhileAux (f + 1) n c = Except.ok (leftD n f c) := by
  intro f
  induction f with
  | zero =>
    intro c hc h
    simp only [pow_zero, mul_one] at h
    show downWhileAux 1 n c = _
    simp only [downWhileAux, leftD]
    rw [if_neg (by omega)]
    rfl
  | succ f ih =>
    intro c hc h
    show downWhileAux (f + 1 + 1) n c = _
    simp only [downWhileAux, leftD]
    rcases Nat.lt_or_ge (2 * c) n with hcn | hcn
    · rw [if_pos (by omega), if_neg (by omega), if_pos hcn]
      have : c * 2 = 2 * c := by ring
      rw [this]
      exact ih (2 * c) (by omega)
        (by calc n ≤ c * 2 ^ (f + 1) := h
            _ = 2 * c * 2 ^ f := by ring)
    · rw [if_neg (by omega), if_neg (by omega)]
      rfl

theorem le_two_pow_pred : ∀ (n : Nat), 1 ≤ n → n ≤ 2 ^ (n - 1) := by
  intro n
  induction n with
  | zero => omega
  | succ n ih =>
    intro _
    rcases Nat.lt_or_ge n 1 with h | h
    · interval_cases n
      simp
    · have h1 := ih h
      have h2 : n + 1 - 1 = (n - 1) + 1 := by omega
      rw [h2, pow_succ]
      omega

theorem leftD_pow2 (n : Nat) :
    ∀ (f s : Nat), ∃ t, s ≤ t ∧ leftD n f (2 ^ s) = 2 ^ t := by
  intro f
  induction f with
  | zero => intro s; exact ⟨s, le_rfl, rfl⟩
  | succ f ih =>
    intro s
    simp only [leftD]
    rcases Nat.lt_or_ge (2 * 2 ^ s) n with h | h
    · rw [if_pos h]
      have : (2 : Nat) * 2 ^ s = 2 ^ (s + 1) := by rw [pow_succ]; ring
      rw [this]
      obtain ⟨t, ht1, ht2⟩ := ih (s + 1)
      exact ⟨t, by omega, ht2⟩
    · rw [if_neg (by omega)]
      exact ⟨s, le_rfl, rfl⟩

/-- The walk's starting node `2 ^ (n_layers - 1)` is the leftmost node of
the whole tree. -/
theorem leftmost_one_eq (n : Nat) (hn : 2 ≤ n) :
    leftmost n 1 = 2 ^ (clog2 n - 1) := by
  obtain ⟨t, _, ht⟩ := leftD_pow2 n n 0
  have hz : leftmost n 1 = 2 ^ t := by
    have : (2 : Nat) ^ 0 = 1 := rfl
    rw [leftmost, ← this, ht]
  have hlt : 2 ^ t < n := by
    rw [← hz]
    exact leftD_lt n n 1 (by omega)
  have hstop : n ≤ 2 ^ (t + 1) := by
    have := leftmost_stop n 1 (by omega)
    rw [hz] at this
    rw [pow_succ]
    omega
  have hclog : Nat.clog 2 n = t + 1 := by
    have h1 : Nat.clog 2 n ≤ t + 1 :=
      (Nat.le_pow_iff_clog_le (by norm_num)).mp hstop
    have h2 : t < Nat.clog 2 n :=
      (Nat.pow_lt_iff_lt_clog (by norm_num)).mp hlt
    omega
  rw [hz, clog2_eq, hclog]
  simp

/-! ### Simulation of the `ltr_walk` loop against the in-order traversal -/

/-- The full sequence of indices the walk pushes: the in-order traversal,
followed by the sentinel `0` (pushed only when every node is emitted with
an iteration to spare). -/
def inordZ (n : Nat) : List Nat := inord n ++ [0]

theorem length_inordZ (n : Nat) (hn : 1 ≤ n) : (inordZ n).length = n := by
  rw [inordZ, List.length_append, length_inord]
  simp
  omega

theorem nodup_inordZ (n : Nat) : (inordZ n).Nodup := by
  rw [inordZ]
  refine List.Nodup.append (nodup_inord n) (List.nodup_singleton 0) ?_
  intro x hx hx0
  rw [List.mem_singleton] at hx0
  subst hx0
  have := (mem_inord n 0).mp hx
  omega

theorem mem_inordZ (n x : Nat) : x ∈ inordZ n ↔ (x < n ∨ x = 0) := by
  rw [inordZ, List.mem_append, mem_inord, List.mem_singleton]
  omega

theorem take_inordZ_of_le (n j : Nat) (h : j ≤ n - 1) :
    (inordZ n).take j = (inord n).take j := by
  rw [inordZ]
  exact List.take_append_of_le_length (by rw [length_inord]; exact h)

theorem take_inordZ_pred (n : Nat) : (inordZ n).take (n - 1) = inord n := by
  rw [take_inordZ_of_le n (n - 1) le_rfl, ← length_inord n, List.take_length]

theorem take_inordZ_all (n : Nat) (hn : 1 ≤ n) : (inordZ n).take n = inordZ n :=
  List.take_of_length_le (le_of_eq (length_inordZ n hn))

theorem get_inordZ_left (n i : Nat) (hi : i < n - 1)
    (h : i < (inordZ n).length) (h2 : i < (inord n).length) :
    (inordZ n).get ⟨i, h⟩ = (inord n).get ⟨i, h2⟩ := by
  rw [List.get_eq_getElem, List.get_eq_getElem,
    List.getElem_of_eq (show inordZ n = inord n ++ [0] from rfl) h]
  exact List.getElem_append_left h2

theorem get_inordZ_last (n : Nat) (hn : 1 ≤ n) (h : n - 1 < (inordZ n).length) :
    (inordZ n).get ⟨n - 1, h⟩ = 0 := by
  rw [List.get_eq_getElem,
    List.getElem_of_eq (show inordZ n = inord n ++ [0] from rfl) h]
  rw [List.getElem_append_right (le_of_eq (length_inord n))]
  simp

/-- The last node of the in-order traversal has no existing right child. -/
theorem inord_last (n : Nat) (hn : 2 ≤ n) (h : n - 2 < (inord n).length) :
    n ≤ 2 * (inord n).get ⟨n - 2, h⟩ + 1 := by
  obtain ⟨T, hT⟩ := subInord_eq_append_rightmost n 1 (by omega) (by omega)
  have hI : inord n = T ++ [rightmost n 1] := hT
  have hlenT : T.length = n - 2 := by
    have hl := length_inord n
    rw [hI, List.length_append] at hl
    simp at hl
    omega
  have hget : (inord n).get ⟨n - 2, h⟩ = rightmost n 1 := by
    rw [List.get_eq_getElem, List.getElem_of_eq hI h,
      List.getElem_append_right (by omega)]
    simp [hlenT]
  rw [hget]
  exact rightD_stop n n 1 (le_mul_two_pow_self n 1 (by omega))

/-- Repeated halving reaches `0` through positive intermediate values. -/
theorem zero_chain : ∀ (x : Nat), ∃ E, x / 2 ^ E = 0 ∧ ∀ e, e < E → 1 ≤ x / 2 ^ e := by
  intro x
  induction x using Nat.strong_induction_on with
  | _ x ih =>
  rcases Nat.lt_or_ge x 1 with hx | hx
  · exact ⟨0, by omega, by omega⟩
  · obtain ⟨E', h1, h2⟩ := ih (x / 2) (by omega)
    refine ⟨E' + 1, ?_, ?_⟩
    · rw [pow_succ', ← Nat.div_div_eq_div_mul]
      exact h1
    · intro e he
      cases e with
      | zero => simpa using hx
      | succ e =>
        rw [pow_succ', ← Nat.div_div_eq_div_mul]
        exact h2 e (by omega)

/-- After a push the visited array is the indicator of the new prefix. -/
theorem visited_update (n j : Nat) (V : List Bool) (y : Nat)
    (hlen : V.length = n + 1) (hn : 1 ≤ n)
    (hv : ∀ v (h : v < V.length), V.get ⟨v, h⟩ = decide (v ∈ (inordZ n).take j))
    (hjlen : j < (inordZ n).length)
    (hy : (inordZ n).get ⟨j, hjlen⟩ = y) :
    ∀ v (h : v < (V.set y true).length),
      (V.set y true).get ⟨v, h⟩ = decide (v ∈ (inordZ n).take (j + 1)) := by
  intro v h
  have hvlen : v < V.length := by rw [List.length_set] at h; exact h
  have hyy : (inordZ n)[j] = y := hy
  have htake : (inordZ n).take (j + 1) = (inordZ n).take j ++ [y] := by
    rw [← List.take_concat_get (inordZ n) j hjlen, List.concat_eq_append, hyy]
  rw [htake, List.get_eq_getElem]
  by_cases hvy : v = y
  · subst hvy
    rw [List.getElem_set_eq (by rw [List.length_set]; exact hvlen)]
    have hmem : v ∈ (inordZ n).take j ++ [v] :=
      List.mem_append_right _ (by simp)
    simp [hmem]
  · rw [List.getElem_set_ne (fun hh => hvy hh.symm)]
    have hv2 := hv v hvlen
    rw [List.get_eq_getElem] at hv2
    rw [hv2]
    have hiff : (v ∈ (inordZ n).take j ++ [y]) ↔ v ∈ (inordZ n).take j := by
      rw [List.mem_append, List.mem_singleton]
      constructor
      · rintro (hh | rfl)
        · exact hh
        · exact absurd rfl hvy
      · exact Or.inl
    simp only [hiff]

/-- Loop invariant of the `ltr_walk` simulation: after `j` pushes the state
records exactly the length-`j` prefix of `inordZ n`. -/
def walkInv (n j : Nat) (st : WalkSt) : Prop :=
  1 ≤ j ∧ j ≤ n ∧
  st.visited.length = n + 1 ∧
  (∃ h : j - 1 < (inordZ n).length, st.cur = (inordZ n).get ⟨j - 1, h⟩) ∧
  st.indices = ((inordZ n).take j).reverse ∧
  (∀ v (h : v < st.visited.length),
      st.visited.get ⟨v, h⟩ = decide (v ∈ (inordZ n).take j)) ∧
  (st.goingUp = true → n ≤ 2 * st.cur + 1) ∧
  (st.goingUp = false → 2 * st.cur < n)

/-- Bookkeeping for the unique skipped iteration (`continue`), which occurs
exactly once when `n` is odd. -/
def walkCInv (n j c : Nat) (st : WalkSt) : Prop :=
  c ≤ 1 ∧
  (c = 1 → n % 2 = 1 ∧
    (n / 2 ∈ (inordZ n).take (j - 1) ∨ (st.cur = n / 2 ∧ st.goingUp = true)))

/-- One loop iteration of `ltr_walk` advances the invariant: either one more
push, or the unique skipped iteration. -/
theorem walk_step (n : Nat) (hn : 2 ≤ n) (j c : Nat) (st : WalkSt)
    (hW : walkInv n j st) (hC : walkCInv n j c st) (hlt : j - 1 + c < n - 1) :
    ∃ st' j' c', ltrIter n st = Except.ok st' ∧ walkInv n j' st' ∧
      walkCInv n j' c' st' ∧ j' - 1 + c' = j - 1 + c + 1 := by
  obtain ⟨hj1, hjn, hVlen, ⟨hcb, hcur⟩, hind, hvis, hFT, hFF⟩ := hW
  obtain ⟨hc1, hcC⟩ := hC
  have hIlen : (inordZ n).length = n := length_inordZ n (by omega)
  have hIlen2 : (inord n).length = n - 1 := length_inord n
  have hjn2 : j ≤ n - 1 := by omega
  have hj2 : j - 1 < n - 1 := by omega
  have hxb : j - 1 < (inord n).length := by omega
  have hxI : st.cur = (inord n).get ⟨j - 1, hxb⟩ := by
    rw [hcur]
    exact get_inordZ_left n (j - 1) hj2 hcb hxb
  have hxmem : st.cur ∈ inord n := by rw [hxI]; exact List.get_mem _ _ _
  have hx1 : 1 ≤ st.cur := ((mem_inord n st.cur).mp hxmem).1
  have hxn : st.cur < n := ((mem_inord n st.cur).mp hxmem).2
  have hxtake : st.cur ∈ (inordZ n).take j := by
    rw [hcur]
    exact get_mem_take hcb (by omega)
  cases hflag : st.goingUp with
  | true =>
    have hstall := hFT hflag
    by_cases hlast : j = n - 1
    · -- every real node is already pushed: the walk climbs to 0 and pushes it
      obtain ⟨E, hE0, hEpos⟩ := zero_chain st.cur
      have htk : (inordZ n).take j = inord n := by rw [hlast]; exact take_inordZ_pred n
      have hok : upWhileAux (st.cur + 1) st.visited st.cur = Except.ok (st.cur / 2 ^ E) := by
        refine upWhile_spec _ _ _ (by omega) ?_ ?_
        · intro e he hb
          have hz1 : 1 ≤ st.cur / 2 ^ e := hEpos e he
          have hzn : st.cur / 2 ^ e < n := lt_of_le_of_lt (Nat.div_le_self _ _) hxn
          have hzm : st.cur / 2 ^ e ∈ (inordZ n).take j := by
            rw [htk, mem_inord]
            exact ⟨hz1, hzn⟩
          rw [hvis _ hb]
          simpa using hzm
        · intro hb
          rw [hvis _ hb]
          have : (0 : Nat) ∉ (inordZ n).take j := by
            rw [htk]
            intro hmem
            have := (mem_inord n 0).mp hmem
            omega
          rw [hE0] at hb ⊢
          simpa using this
      refine ⟨{ visited := st.visited.set 0 true, cur := 0, goingUp := false,
                indices := 0 :: st.indices }, n, c, ?_, ?_, ?_, ?_⟩
      · simp only [ltrIter, hflag]
        rw [if_pos trivial, hok, exceptOkBind, hE0]
        simp only [vset]
        rw [if_pos (by omega), exceptPureBind]
        rfl
      · refine ⟨by omega, le_rfl, by simpa using hVlen, ?_, ?_, ?_, ?_, ?_⟩
        · refine ⟨by omega, ?_⟩
          show (0 : Nat) = (inordZ n).get ⟨n - 1, by omega⟩
          rw [get_inordZ_last n (by omega)]
        · show (0 : Nat) :: st.indices = ((inordZ n).take n).reverse
          rw [take_inordZ_all n (by omega), hind, hlast, take_inordZ_pred n]
          show (0 : Nat) :: (inord n).reverse = (inord n ++ [0]).reverse
          rw [List.reverse_concat]
        · intro v h
          have hupd := visited_update n (n - 1) st.visited 0 hVlen (by omega) ?_ (by omega) ?_
          · have h2 : n - 1 + 1 = n := by omega
            rw [h2] at hupd
            exact hupd v h
          · intro v2 h2
            rw [hvis v2 h2, hlast]
          · exact get_inordZ_last n (by omega) _
        · intro hcontra
          exact absurd hcontra (by simp)
        · intro _
          show 2 * 0 < n
          omega
      · refine ⟨hc1, fun hcc => ?_⟩
        obtain ⟨hodd, hdisj⟩ := hcC hcc
        refine ⟨hodd, Or.inl ?_⟩
        rcases hdisj with hd | ⟨hd, _⟩
        · exact mem_take_mono (by omega) hd
        · rw [← hd, hcur]
          exact get_mem_take hcb (by omega)
      · omega
    · -- a real in-order successor exists and is reached going up
      have hjb : j < (inord n).length := by omega
      have hchain := List.chain'_iff_get.mp (chain'_inord n) (j - 1) (by omega)
      have hfin : (⟨j - 1 + 1, by omega⟩ : Fin (inord n).length) = ⟨j, hjb⟩ :=
        Fin.ext (by show j - 1 + 1 = j; omega)
      rw [hfin] at hchain
      rw [← hxI] at hchain
      simp only [succR] at hchain
      rw [if_neg (by omega)] at hchain
      set y := (inord n).get ⟨j, hjb⟩ with hy
      have hymem : y ∈ inord n := List.get_mem _ _ _
      have hy1 : 1 ≤ y := ((mem_inord n y).mp hymem).1
      have hyn : y < n := ((mem_inord n y).mp hymem).2
      have hD := upDist_pos st.cur
      have hok : upWhileAux (st.cur + 1) st.visited st.cur = Except.ok (st.cur / 2 ^ upDist st.cur) := by
        refine upWhile_spec _ _ _ (by omega) ?_ ?_
        · intro e he hb
          rw [hvis _ hb]
          cases e with
          | zero =>
            simpa using hxtake
          | succ e =>
            have hodd := (upDist_spec st.cur).1 (e + 1 - 1) (by omega)
            have hzdef : st.cur / 2 ^ e / 2 = st.cur / 2 ^ (e + 1) := by
              rw [Nat.div_div_eq_div_mul, ← pow_succ]
            have hrel : st.cur / 2 ^ e = 2 * (st.cur / 2 ^ (e + 1)) + 1 := by
              have he1 : e + 1 - 1 = e := by omega
              rw [he1] at hodd
              omega
            have hzy : y ≤ st.cur / 2 ^ (e + 1) := by
              rw [hchain]
              apply Nat.div_le_div_left
              · exact Nat.pow_le_pow_right (by norm_num) (by omega)
              · exact Nat.pos_pow_of_pos _ (by norm_num)
            have hdesc : isDesc (2 * (st.cur / 2 ^ (e + 1)) + 1) st.cur :=
              ⟨e, by omega⟩
            have hbef := anc_before_inord n (st.cur / 2 ^ (e + 1)) st.cur
              (by omega) hdesc hxn
            have hmem := mem_take_of_beforeIn (nodup_inord n) hbef hxb hxI.symm
            have hmem2 : st.cur / 2 ^ (e + 1) ∈ (inordZ n).take j := by
              rw [take_inordZ_of_le n j hjn2]
              exact mem_take_mono (by omega) hmem
            simpa using hmem2
        · intro hb
          rw [hvis _ hb]
          have hnot : y ∉ (inordZ n).take j := by
            rw [take_inordZ_of_le n j hjn2]
            rw [hy]
            exact get_not_mem_take (nodup_inord n) hjb
          rw [← hchain]
          simpa using hnot
      refine ⟨{ visited := st.visited.set y true, cur := y, goingUp := false,
                indices := y :: st.indices }, j + 1, c, ?_, ?_, ?_, ?_⟩
      · simp only [ltrIter, hflag]
        rw [if_pos trivial, hok, exceptOkBind, ← hchain]
        simp only [vset]
        rw [if_pos (by omega), exceptPureBind]
        rfl
      · have hyZ : (inordZ n).get ⟨j, by omega⟩ = y := by
          rw [get_inordZ_left n j (by omega) (by omega) hjb]
        refine ⟨by omega, by omega, by simpa using hVlen, ?_, ?_, ?_, ?_, ?_⟩
        · exact ⟨by omega, hyZ.symm⟩
        · show y :: st.indices = ((inordZ n).take (j + 1)).reverse
          rw [hind, ← List.take_concat_get (inordZ n) j (by omega)]
          show y :: ((inordZ n).take j).reverse =
            (((inordZ n).take j).concat ((inordZ n).get ⟨j, by omega⟩)).reverse
          rw [hyZ, List.concat_eq_append, List.reverse_concat]
        · intro v h
          exact visited_update n j st.visited y hVlen (by omega) hvis (by omega) hyZ v h
        · intro hcontra
          exact absurd hcontra (by simp)
        · intro _
          show 2 * y < n
          have heven := (upDist_spec st.cur).2
          have hD1 : upDist st.cur - 1 + 1 = upDist st.cur := by omega
          have hw : st.cur / 2 ^ (upDist st.cur - 1) / 2 = st.cur / 2 ^ upDist st.cur := by
            rw [Nat.div_div_eq_div_mul, ← pow_succ, hD1]
          have hwle : st.cur / 2 ^ (upDist st.cur - 1) ≤ st.cur := Nat.div_le_self _ _
          have h2y : 2 * y = st.cur / 2 ^ (upDist st.cur - 1) := by
            rw [hchain, ← hw]
            omega
          omega
      · refine ⟨hc1, fun hcc => ?_⟩
        obtain ⟨hodd, hdisj⟩ := hcC hcc
        refine ⟨hodd, Or.inl ?_⟩
        rcases hdisj with hd | ⟨hd, _⟩
        · exact mem_take_mono (by omega) hd
        · rw [← hd]
          simpa using hxtake
      · omega
  | false =>
    have hdown := hFF hflag
    by_cases hstall : n ≤ st.cur * 2 + 1
    · -- no existing right child: `continue`
      have hxeq : n = 2 * st.cur + 1 := by omega
      have hc0 : c = 0 := by
        by_contra hcne
        have hcc : c = 1 := by omega
        obtain ⟨hodd, hdisj⟩ := hcC hcc
        rcases hdisj with hd | ⟨_, hd2⟩
        · have hhalf : n / 2 = st.cur := by omega
          rw [hhalf, hcur] at hd
          exact get_not_mem_take (nodup_inordZ n) hcb hd
        · rw [hflag] at hd2
          exact Bool.noConfusion hd2
      refine ⟨{ st with goingUp := true }, j, c + 1, ?_, ?_, ?_, ?_⟩
      · simp only [ltrIter, hflag]
        rw [if_neg (by simp), if_pos hstall]
        rfl
      · exact ⟨hj1, hjn, hVlen, ⟨hcb, hcur⟩, hind, hvis,
          fun _ => by show n ≤ 2 * st.cur + 1; omega,
          fun hcontra => absurd hcontra (by simp)⟩
      · refine ⟨by omega, fun _ => ⟨by omega,
          Or.inr ⟨by show st.cur = n / 2; omega, rfl⟩⟩⟩
      · omega
    · -- descend to the leftmost node of the right subtree
      have hjlast : j ≤ n - 2 := by
        by_contra hcon
        have hj3 : j = n - 1 := by omega
        have : n ≤ 2 * st.cur + 1 := by
          have := inord_last n hn (by omega)
          have hfin : (⟨n - 2, by omega⟩ : Fin (inord n).length) = ⟨j - 1, hxb⟩ :=
            Fin.ext (by show n - 2 = j - 1; omega)
          rw [hfin, ← hxI] at this
          exact this
        omega
      have hjb : j < (inord n).length := by omega
      have hchain := List.chain'_iff_get.mp (chain'_inord n) (j - 1) (by omega)
      have hfin : (⟨j - 1 + 1, by omega⟩ : Fin (inord n).length) = ⟨j, hjb⟩ :=
        Fin.ext (by show j - 1 + 1 = j; omega)
      rw [hfin] at hchain
      rw [← hxI] at hchain
      simp only [succR] at hchain
      rw [if_pos (by omega)] at hchain
      set y := (inord n).get ⟨j, hjb⟩ with hy
      have hymem : y ∈ inord n := List.get_mem _ _ _
      have hy1 : 1 ≤ y := ((mem_inord n y).mp hymem).1
      have hyn : y < n := ((mem_inord n y).mp hymem).2
      have hbase1 : n ≤ (st.cur * 2 + 1) * 2 ^ (n - 1) := by
        calc n ≤ 2 ^ (n - 1) := le_two_pow_pred n (by omega)
        _ ≤ (st.cur * 2 + 1) * 2 ^ (n - 1) := Nat.le_mul_of_pos_left _ (by omega)
      have hbase2 : n ≤ (2 * st.cur + 1) * 2 ^ (n - 1) := by
        calc n ≤ 2 ^ (n - 1) := le_two_pow_pred n (by omega)
        _ ≤ (2 * st.cur + 1) * 2 ^ (n - 1) := Nat.le_mul_of_pos_left _ (by omega)
      have hdw : downWhileAux n n (st.cur * 2 + 1) = Except.ok y := by
        have hfuel : n = n - 1 + 1 := by omega
        nth_rewrite 1 [hfuel]
        rw [downWhile_eq_leftD n (n - 1) (st.cur * 2 + 1) (by omega) hbase1]
        congr 1
        rw [hchain]
        have hcomm : st.cur * 2 + 1 = 2 * st.cur + 1 := by ring
        rw [hcomm]
        exact leftD_congr n (n - 1) n (2 * st.cur + 1) hbase2
          (le_mul_two_pow_self n (2 * st.cur + 1) (by omega))
      refine ⟨{ visited := st.visited.set y true, cur := y, goingUp := true,
                indices := y :: st.indices }, j + 1, c, ?_, ?_, ?_, ?_⟩
      · simp only [ltrIter, hflag]
        rw [if_neg (by simp), if_neg hstall, hdw, exceptOkBind]
        simp only [vset]
        rw [if_pos (by omega), exceptPureBind]
        rfl
      · have hyZ : (inordZ n).get ⟨j, by omega⟩ = y := by
          rw [get_inordZ_left n j (by omega) (by omega) hjb]
        refine ⟨by omega, by omega, by simpa using hVlen, ?_, ?_, ?_, ?_, ?_⟩
        · exact ⟨by omega, hyZ.symm⟩
        · show y :: st.indices = ((inordZ n).take (j + 1)).reverse
          rw [hind, ← List.take_concat_get (inordZ n) j (by omega)]
          show y :: ((inordZ n).take j).reverse =
            (((inordZ n).take j).concat ((inordZ n).get ⟨j, by omega⟩)).reverse
          rw [hyZ, List.concat_eq_append, List.reverse_concat]
        · intro v h
          exact visited_update n j st.visited y hVlen (by omega) hvis (by omega) hyZ v h
        · intro _
          show n ≤ 2 * y + 1
          have := leftmost_stop n (2 * st.cur + 1) (by omega)
          rw [hchain]
          omega
        · intro hcontra
          exact absurd hcontra (by simp)
      · refine ⟨hc1, fun hcc => ?_⟩
        obtain ⟨hodd, hdisj⟩ := hcC hcc
        refine ⟨hodd, Or.inl ?_⟩
        rcases hdisj with hd | ⟨_, hd2⟩
        · exact mem_take_mono (by omega) hd
        · rw [hflag] at hd2
          exact absurd hd2 (by simp)
      · omega

/-- Running all remaining iterations from an invariant state preserves the
invariant and lands exactly at the end of the traversal. -/
theorem walk_loop (n : Nat) (hn : 2 ≤ n) :
    ∀ (rem j c : Nat) (st : WalkSt), walkInv n j st → walkCInv n j c st →
      rem + (j - 1 + c) = n - 1 →
      ∃ stF jF cF, iterM (ltrIter n) rem st = Except.ok stF ∧
        walkInv n jF stF ∧ jF - 1 + cF = n - 1 ∧ cF ≤ 1 := by
  intro rem
  induction rem with
  | zero =>
    intro j c st hW hC hcount
    exact ⟨st, j, c, rfl, hW, by omega, hC.1⟩
  | succ rem ih =>
    intro j c st hW hC hcount
    obtain ⟨st2, j2, c2, hstep, hW2, hC2, hcnt⟩ :=
      walk_step n hn j c st hW hC (by omega)
    obtain ⟨stF, jF, cF, hrun, hWF, hcF, hc1F⟩ :=
      ih j2 c2 st2 hW2 hC2 (by omega)
    refine ⟨stF, jF, cF, ?_, hWF, hcF, hc1F⟩
    show iterM (ltrIter n) (rem + 1) st = Except.ok stF
    simp only [iterM]
    rw [hstep]
    exact hrun

/-- `ltr_walk` succeeds on every tree with at least two queues and computes
exactly the in-order traversal of the truncated binary tree on
`1, ..., n - 1`. -/
theorem ltr_walk_eq (n : Nat) (hn : 2 ≤ n) :
    ltr_walk n = Except.ok (inord n) := by
  have hclog : 0 < Nat.clog 2 n := Nat.clog_pos (by norm_num) (by omega)
  have hlay : clog2 n ≠ 0 := by rw [clog2_eq]; omega
  have hcurval : 2 ^ (clog2 n - 1) = leftmost n 1 := (leftmost_one_eq n hn).symm
  have hcurlt : 2 ^ (clog2 n - 1) < n := by
    rw [clog2_eq]
    exact Nat.pow_pred_clog_lt_self (by norm_num) (by omega)
  have hcur2 : n ≤ 2 * 2 ^ (clog2 n - 1) := by
    have h1 : n ≤ 2 ^ Nat.clog 2 n := Nat.le_pow_clog (by norm_num) n
    have h2 : Nat.clog 2 n = (Nat.clog 2 n - 1) + 1 := by omega
    rw [h2, pow_succ] at h1
    rw [clog2_eq]
    omega
  have hIlen : (inordZ n).length = n := length_inordZ n (by omega)
  have hIcons : ∃ T, inord n = leftmost n 1 :: T :=
    subInord_eq_leftmost_cons n 1 (by omega) (by omega)
  obtain ⟨T, hT⟩ := hIcons
  -- the initial state satisfies the invariant with one push done
  have hW0 : walkInv n 1 (WalkSt.mk
      ((List.replicate (n + 1) false).set (2 ^ (clog2 n - 1)) true)
      (2 ^ (clog2 n - 1)) true [2 ^ (clog2 n - 1)]) := by
    have hget0 : ∀ h : 0 < (inordZ n).length,
        (inordZ n).get ⟨0, h⟩ = leftmost n 1 := by
      intro h
      rw [get_inordZ_left n 0 (by omega) h (by rw [length_inord]; omega)]
      show (inord n).get ⟨0, _⟩ = leftmost n 1
      rw [List.get_eq_getElem, List.getElem_of_eq hT]
      rfl
    have htake1 : (inordZ n).take 1 = [leftmost n 1] := by
      have : (inordZ n).take 1 = (inordZ n).take 0 ++ [(inordZ n).get ⟨0, by omega⟩] := by
        rw [← List.take_concat_get (inordZ n) 0 (by omega), List.concat_eq_append]
        rfl
      rw [this, hget0]
      rfl
    refine ⟨le_rfl, by omega, by simp, ⟨by omega, ?_⟩, ?_, ?_, ?_, ?_⟩
    · show 2 ^ (clog2 n - 1) = (inordZ n).get ⟨0, by omega⟩
      rw [hget0, hcurval]
    · show [2 ^ (clog2 n - 1)] = ((inordZ n).take 1).reverse
      rw [htake1, hcurval]
      rfl
    · intro v h
      rw [htake1]
      have hvlen : v < n + 1 := by simpa using h
      have hvlen2 : v < ((List.replicate (n + 1) false).set (2 ^ (clog2 n - 1)) true).length := by
        rw [List.length_set, List.length_replicate]
        omega
      have hgoal : ((List.replicate (n + 1) false).set (2 ^ (clog2 n - 1)) true)[v] =
          decide (v ∈ [leftmost n 1]) := by
        by_cases hveq : v = 2 ^ (clog2 n - 1)
        · subst hveq
          rw [List.getElem_set_eq (by rw [List.length_set, List.length_replicate]; omega)]
          simp [hcurval]
        · rw [List.getElem_set_ne (fun hh => hveq hh.symm), List.getElem_replicate]
          have hm2 : v ≠ leftmost n 1 := by
            rw [← hcurval]
            exact hveq
          simp [hm2]
      exact hgoal
    · intro _
      show n ≤ 2 * 2 ^ (clog2 n - 1) + 1
      omega
    · intro hcontra
      exact absurd hcontra (by simp)
  have hC0 : walkCInv n 1 0 (WalkSt.mk
      ((List.replicate (n + 1) false).set (2 ^ (clog2 n - 1)) true)
      (2 ^ (clog2 n - 1)) true [2 ^ (clog2 n - 1)]) :=
    ⟨by omega, by omega⟩
  obtain ⟨stF, jF, cF, hrun, hWF, hcF, hc1F⟩ :=
    walk_loop n hn (n - 1) 1 0 _ hW0 hC0 (by omega)
  obtain ⟨hj1F, hjnF, hVlenF, _, hindF, hvisF, _, _⟩ := hWF
  -- reduce the definition of ltr_walk
  show ltr_walk n = Except.ok (inord n)
  simp only [ltr_walk]
  rw [if_neg hlay]
  simp only [vset, List.length_replicate]
  rw [if_pos (by omega), exceptPureBind, hrun, exceptOkBind]
  simp only [vget]
  rw [dif_pos (by omega : (0 : Nat) < stF.visited.length), exceptPureBind]
  have hv0 : stF.visited[0] = decide ((0 : Nat) ∈ (inordZ n).take jF) := by
    have := hvisF 0 (by omega)
    rw [List.get_eq_getElem] at this
    exact this
  have hjF : jF = n - cF := by omega
  rcases Nat.lt_or_ge cF 1 with hcf | hcf
  · -- no skipped iteration: the sentinel 0 was pushed and is popped at the end
    have hcf0 : cF = 0 := by omega
    have hjFn : jF = n := by omega
    have h0mem : (0 : Nat) ∈ (inordZ n).take jF := by
      rw [hjFn, take_inordZ_all n (by omega), mem_inordZ]
      omega
    rw [hv0]
    simp only [h0mem, decide_eq_true_eq, if_pos]
    have hindval : stF.indices = (0 : Nat) :: (inord n).reverse := by
      rw [hindF, hjFn, take_inordZ_all n (by omega)]
      show ((inord n ++ [0]).reverse) = _
      rw [List.reverse_concat]
    rw [hindval]
    show Except.ok ((inord n).reverse).reverse = Except.ok (inord n)
    rw [List.reverse_reverse]
  · -- the skipped iteration happened: exactly the real nodes were pushed
    have hcf1 : cF = 1 := by omega
    have hjFn : jF = n - 1 := by omega
    have h0mem : (0 : Nat) ∉ (inordZ n).take jF := by
      rw [hjFn, take_inordZ_pred n]
      intro hmem
      have := (mem_inord n 0).mp hmem
      omega
    rw [hv0]
    simp only [h0mem, decide_eq_false_iff_not, if_neg]
    have hindval : stF.indices = (inord n).reverse := by
      rw [hindF, hjFn, take_inordZ_pred n]
    simp only [decide_eq_true_eq, if_neg h0mem]
    rw [hindval]
    show Except.ok ((inord n).reverse).reverse = Except.ok (inord n)
    rw [List.reverse_reverse]

/-! ### Termination of the `Merger::next` loop -/

/-- Total number of events in the first `k` input queues. -/
def queueTotal {U : Type} (k : Nat) (qs : Nat → List (Event U)) : Nat :=
  ∑ i ∈ Finset.range k, (qs i).length

/-- Number of `Null` placeholders stored at the tree positions `1..k-1`. -/
def nullCount {U : Type} (k : Nat) (lose : Nat → Event U) : Nat :=
  ∑ j ∈ Finset.Ico 1 k, (if (lose j).isNull = true then 1 else 0)

/-- Termination measure for the `loop` in `Merger::next`: every iteration
that does not yield an event strictly decreases it. -/
def mergerMeasure {U : Type} (k : Nat) (s : Merger U) : Nat :=
  4 * queueTotal k s.in_queues + 2 * nullCount k s.loser_e +
    (if (s.in_queues s.winner_q).length = 0 then 1 else 0)

/-- Structural bounds maintained by a `Merger` over `k` input queues: all
indices the loop manipulates stay below `k`. -/
def mergerSB {U : Type} (k : Nat) (s : Merger U) : Prop :=
  s.winner_q < k ∧
  (∀ u, u < k → 1 ≤ s.paths u ∧ s.paths u < k) ∧
  (∀ j, 1 ≤ j → j < k → (s.loser_e j).src < k) ∧
  (∀ i, k ≤ i → s.in_queues i = [])

/-- A producer delivering one event to input `i` (an SPSC push). -/
def mergerPush {U : Type} (s : Merger U) (i : Nat) (e : Event U) : Merger U :=
  { s with in_queues := Function.update s.in_queues i (s.in_queues i ++ [e]) }

/-- Each tournament comparison either keeps or swaps the pair. -/
theorem tourneyStep_cases {U : Type} (cand loser : Event U) :
    tourneyStep cand loser = (cand, loser) ∨
      tourneyStep cand loser = (loser, cand) := by
  unfold tourneyStep
  rcases Nat.lt_or_ge loser.time cand.time with h | h
  · rw [if_pos h]
    exact Or.inr rfl
  · rw [if_neg (by omega)]
    rcases Nat.decEq loser.time cand.time with hne | heq
    · rw [if_neg hne]
      exact Or.inl rfl
    · rw [if_pos heq]
      cases hst : cand.isStalled
      · rw [if_neg (by simp)]
        exact Or.inl rfl
      · rw [if_pos rfl]
        exact Or.inr rfl

theorem sum_ite_update {U : Type} (k i : Nat) (lose : Nat → Event U)
    (e : Event U) (h1 : 1 ≤ i) (h2 : i < k) :
    nullCount k (Function.update lose i e) +
        (if (lose i).isNull = true then 1 else 0) =
      nullCount k lose + (if e.isNull = true then 1 else 0) := by
  have hmem : i ∈ Finset.Ico 1 k := Finset.mem_Ico.mpr ⟨h1, h2⟩
  unfold nullCount
  rw [Finset.sum_eq_sum_diff_singleton_add hmem
      (fun j => if (Function.update lose i e j).isNull = true then 1 else 0),
    Finset.sum_eq_sum_diff_singleton_add hmem
      (fun j => if (lose j).isNull = true then 1 else 0)]
  have hdiff : ∀ j ∈ Finset.Ico 1 k \ {i},
      (if (Function.update lose i e j).isNull = true then 1 else 0) =
        (if (lose j).isNull = true then 1 else 0) := by
    intro j hj
    have hji : j ≠ i := by
      rcases Finset.mem_sdiff.mp hj with ⟨_, hj2⟩
      simpa using hj2
    rw [Function.update_noteq hji]
  rw [Finset.sum_congr rfl hdiff, Function.update_same]
  omega

theorem queueTotal_update {U : Type} (k wq : Nat) (qs : Nat → List (Event U))
    (l : List (Event U)) (hwq : wq < k) :
    queueTotal k (Function.update qs wq l) + (qs wq).length =
      queueTotal k qs + l.length := by
  have hmem : wq ∈ Finset.range k := Finset.mem_range.mpr hwq
  unfold queueTotal
  rw [Finset.sum_eq_sum_diff_singleton_add hmem
      (fun i => (Function.update qs wq l i).length),
    Finset.sum_eq_sum_diff_singleton_add hmem (fun i => (qs i).length)]
  have hdiff : ∀ i ∈ Finset.range k \ {wq},
      (Function.update qs wq l i).length = (qs i).length := by
    intro i hi
    have hiw : i ≠ wq := by
      rcases Finset.mem_sdiff.mp hi with ⟨_, hi2⟩
      simpa using hi2
    rw [Function.update_noteq hiw]
  rw [Finset.sum_congr rfl hdiff, Function.update_same]
  omega

/-- The tournament walk preserves the combined `Null` count of the moving
candidate and the stored losers. -/
theorem walkUpAux_nullCount {U : Type} (k : Nat) :
    ∀ (fuel : Nat) (lose : Nat → Event U) (cand : Event U) (index : Nat),
      index < k →
      nullCount k (walkUpAux fuel lose cand index).2 +
          (if (walkUpAux fuel lose cand index).1.isNull = true then 1 else 0) =
        nullCount k lose + (if cand.isNull = true then 1 else 0) := by
  intro fuel
  induction fuel with
  | zero => intro lose cand index h; rfl
  | succ fuel ih =>
    intro lose cand index hik
    rcases Nat.decEq index 0 with hiz | hiz
    · simp only [walkUpAux]
      rw [if_neg hiz]
      rcases tourneyStep_cases cand (lose index) with hs | hs
      · rw [hs]
        show nullCount k (walkUpAux fuel (Function.update lose index (lose index)) cand (index / 2)).2 +
            (if (walkUpAux fuel (Function.update lose index (lose index)) cand (index / 2)).1.isNull = true
              then 1 else 0) =
          nullCount k lose + (if cand.isNull = true then 1 else 0)
        rw [Function.update_eq_self]
        exact ih lose cand (index / 2) (by omega)
      · rw [hs]
        show nullCount k (walkUpAux fuel (Function.update lose index cand) (lose index) (index / 2)).2 +
            (if (walkUpAux fuel (Function.update lose index cand) (lose index) (index / 2)).1.isNull = true
              then 1 else 0) =
          nullCount k lose + (if cand.isNull = true then 1 else 0)
        have h1 := ih (Function.update lose index cand) (lose index) (index / 2) (by omega)
        have h2 := sum_ite_update k index lose cand (by omega) hik
        omega
    · simp only [walkUpAux]
      rw [if_pos hiz]

/-- The tournament walk keeps every `src` below `k`. -/
theorem walkUpAux_src {U : Type} (k : Nat) :
    ∀ (fuel : Nat) (lose : Nat → Event U) (cand : Event U) (index : Nat),
      index < k → cand.src < k →
      (∀ j, 1 ≤ j → j < k → (lose j).src < k) →
      (walkUpAux fuel lose cand index).1.src < k ∧
      (∀ j, 1 ≤ j → j < k →
        ((walkUpAux fuel lose cand index).2 j).src < k) := by
  intro fuel
  induction fuel with
  | zero =>
    intro lose cand index _ hc hl
    exact ⟨hc, hl⟩
  | succ fuel ih =>
    intro lose cand index hik hc hl
    rcases Nat.decEq index 0 with hiz | hiz
    · simp only [walkUpAux]
      rw [if_neg hiz]
      have hupd : ∀ (v : Event U), v.src < k →
          ∀ j, 1 ≤ j → j < k → ((Function.update lose index v) j).src < k := by
        intro v hv j hj1 hj2
        by_cases hji : j = index
        · subst hji
          rw [Function.update_same]
          exact hv
        · rw [Function.update_noteq hji]
          exact hl j hj1 hj2
      rcases tourneyStep_cases cand (lose index) with hs | hs
      · rw [hs]
        exact ih (Function.update lose index (lose index)) cand (index / 2)
          (by omega) hc (hupd (lose index) (hl index (by omega) hik))
      · rw [hs]
        exact ih (Function.update lose index cand) (lose index) (index / 2)
          (by omega) (hl index (by omega) hik) (hupd cand hc)
    · simp only [walkUpAux]
      rw [if_pos hiz]
      exact ⟨hc, hl⟩

theorem Merger.iterCore_pop {U : Type} (s : Merger U) (e : Event U)
    (rest : List (Event U)) (hq : s.in_queues s.winner_q = e :: rest) :
    s.iterCore =
      ((walkUp s.loser_e { e with src := s.winner_q } (s.paths s.winner_q)).1,
       { s with
         loser_e :=
           (walkUp s.loser_e { e with src := s.winner_q } (s.paths s.winner_q)).2,
         in_queues := Function.update s.in_queues s.winner_q rest,
         winner_q :=
           (walkUp s.loser_e { e with src := s.winner_q } (s.paths s.winner_q)).1.src,
         safe_time :=
           (walkUp s.loser_e { e with src := s.winner_q } (s.paths s.winner_q)).1.time }) := by
  unfold Merger.iterCore
  rw [hq]

theorem Merger.iterCore_stall {U : Type} (s : Merger U)
    (hq : s.in_queues s.winner_q = []) :
    s.iterCore =
      ((walkUp s.loser_e
          { time := s.safe_time, src := s.winner_q, event_type := EventType.Stalled }
          (s.paths s.winner_q)).1,
       { s with
         loser_e :=
           (walkUp s.loser_e
             { time := s.safe_time, src := s.winner_q, event_type := EventType.Stalled }
             (s.paths s.winner_q)).2,
         in_queues := s.in_queues,
         winner_q :=
           (walkUp s.loser_e
             { time := s.safe_time, src := s.winner_q, event_type := EventType.Stalled }
             (s.paths s.winner_q)).1.src,
         safe_time :=
           (walkUp s.loser_e
             { time := s.safe_time, src := s.winner_q, event_type := EventType.Stalled }
             (s.paths s.winner_q)).1.time }) := by
  unfold Merger.iterCore
  rw [hq]

/-- The result state of one loop iteration, and the reasons a loop
iteration can fail to yield: a `Null` winner, or a stale `Stalled` winner
whose source queue has new input. -/
theorem Merger.nextIter_cases {U : Type} (s : Merger U) (r : Option (Event U))
    (s' : Merger U) (h : s.nextIter = (r, s')) :
    s' = (s.iterCore).2 ∧
      (r = none →
        ((s.iterCore).1.isNull = true ∨
          ((s.iterCore).1.isStalled = true ∧
            0 < ((s.iterCore).2.in_queues (s.iterCore).1.src).length))) := by
  unfold Merger.nextIter at h
  rcases hty : (s.iterCore).1.event_type with u | _ | _ | _ <;>
      simp only [hty] at h
  · simp only [Prod.mk.injEq] at h
    refine ⟨h.2.symm, fun hr => ?_⟩
    rw [← h.1] at hr
    exact Option.noConfusion hr
  · split at h
    · simp only [Prod.mk.injEq] at h
      refine ⟨h.2.symm, fun _ => Or.inr ⟨?_, ?_⟩⟩
      · show (s.iterCore).1.isStalled = true
        unfold Event.isStalled
        rw [hty]
      · assumption
    · simp only [Prod.mk.injEq] at h
      refine ⟨h.2.symm, fun hr => ?_⟩
      rw [← h.1] at hr
      exact Option.noConfusion hr
  · simp only [Prod.mk.injEq] at h
    refine ⟨h.2.symm, fun _ => Or.inl ?_⟩
    unfold Event.isNull
    rw [hty]
  · simp only [Prod.mk.injEq] at h
    refine ⟨h.2.symm, fun hr => ?_⟩
    rw [← h.1] at hr
    exact Option.noConfusion hr

theorem isStalled_not_isNull {U : Type} (e : Event U)
    (h : e.isStalled = true) : e.isNull = false := by
  unfold Event.isStalled at h
  unfold Event.isNull
  rcases he : e.event_type with u | _ | _ | _ <;> rw [he] at h <;>
    first | rfl | exact Bool.noConfusion h

/-- One loop iteration preserves the structural bounds, and every
iteration that does not yield an event strictly decreases the measure. -/
theorem nextIter_progress {U : Type} (k : Nat) (s : Merger U)
    (hSB : mergerSB k s) (r : Option (Event U)) (s' : Merger U)
    (h : s.nextIter = (r, s')) :
    mergerSB k s' ∧ (r = none → mergerMeasure k s' < mergerMeasure k s) := by
  obtain ⟨hwq, hpaths, hsrc, hq0⟩ := hSB
  obtain ⟨hs', hnone⟩ := Merger.nextIter_cases s r s' h
  obtain ⟨hp1, hp2⟩ := hpaths s.winner_q hwq
  rcases hq : s.in_queues s.winner_q with _ | ⟨e, rest⟩
  · -- winner queue empty: fabricated Stalled candidate, queues unchanged
    rcases hwres : walkUp s.loser_e
        { time := s.safe_time, src := s.winner_q, event_type := EventType.Stalled }
        (s.paths s.winner_q) with ⟨win, L2⟩
    have hcore : s.iterCore = (win,
        { s with
            loser_e := L2
            in_queues := s.in_queues
            winner_q := win.src
            safe_time := win.time }) := by
      rw [Merger.iterCore_stall s hq, hwres]
    rw [hcore] at hs' hnone
    dsimp only at hs' hnone
    have hwaux : walkUpAux (s.paths s.winner_q + 1) s.loser_e
        { time := s.safe_time, src := s.winner_q, event_type := EventType.Stalled }
        (s.paths s.winner_q) = (win, L2) := hwres
    have hWU1 := walkUpAux_nullCount k (s.paths s.winner_q + 1) s.loser_e
      { time := s.safe_time, src := s.winner_q, event_type := EventType.Stalled }
      (s.paths s.winner_q) hp2
    rw [hwaux] at hWU1
    dsimp only at hWU1
    have hWU2 := walkUpAux_src k (s.paths s.winner_q + 1) s.loser_e
      { time := s.safe_time, src := s.winner_q, event_type := EventType.Stalled }
      (s.paths s.winner_q) hp2 hwq hsrc
    rw [hwaux] at hWU2
    dsimp only at hWU2
    have hcn : (Event.mk s.safe_time s.winner_q
        (EventType.Stalled : EventType U)).isNull = false := rfl
    rw [hcn] at hWU1
    simp only [Bool.false_eq_true, if_false, Nat.add_zero] at hWU1
    subst hs'
    refine ⟨⟨hWU2.1, hpaths, hWU2.2, hq0⟩, ?_⟩
    intro hr
    have hM : mergerMeasure k s =
        4 * queueTotal k s.in_queues + 2 * nullCount k s.loser_e + 1 := by
      unfold mergerMeasure
      rw [hq]
      simp
    have hM2 : mergerMeasure k
        { s with
            loser_e := L2
            in_queues := s.in_queues
            winner_q := win.src
            safe_time := win.time } =
        4 * queueTotal k s.in_queues + 2 * nullCount k L2 +
          (if (s.in_queues win.src).length = 0 then 1 else 0) := rfl
    rw [hM, hM2]
    have hbit : (if (s.in_queues win.src).length = 0 then 1 else 0) ≤ 1 := by
      split
      · omega
      · omega
    rcases hnone hr with hwin | ⟨hwin, hbitc⟩
    · rw [hwin] at hWU1
      simp only [if_true] at hWU1
      omega
    · have hwn := isStalled_not_isNull win hwin
      rw [hwn] at hWU1
      simp only [Bool.false_eq_true, if_false, Nat.add_zero] at hWU1
      have hbit0 : (if (s.in_queues win.src).length = 0 then 1 else 0) = 0 := by
        rw [if_neg (by omega)]
      omega
  · -- pop one event from the winner queue
    rcases hwres : walkUp s.loser_e { e with src := s.winner_q }
        (s.paths s.winner_q) with ⟨win, L2⟩
    have hcore : s.iterCore = (win,
        { s with
            loser_e := L2
            in_queues := Function.update s.in_queues s.winner_q rest
            winner_q := win.src
            safe_time := win.time }) := by
      rw [Merger.iterCore_pop s e rest hq, hwres]
    rw [hcore] at hs' hnone
    dsimp only at hs' hnone
    have hwaux : walkUpAux (s.paths s.winner_q + 1) s.loser_e
        { e with src := s.winner_q } (s.paths s.winner_q) = (win, L2) := hwres
    have hWU1 := walkUpAux_nullCount k (s.paths s.winner_q + 1) s.loser_e
      { e with src := s.winner_q } (s.paths s.winner_q) hp2
    rw [hwaux] at hWU1
    dsimp only at hWU1
    have hWU2 := walkUpAux_src k (s.paths s.winner_q + 1) s.loser_e
      { e with src := s.winner_q } (s.paths s.winner_q) hp2 hwq hsrc
    rw [hwaux] at hWU2
    dsimp only at hWU2
    subst hs'
    have hq0' : ∀ i, k ≤ i →
        Function.update s.in_queues s.winner_q rest i = [] := by
      intro i hi
      rw [Function.update_noteq (by omega)]
      exact hq0 i hi
    refine ⟨⟨hWU2.1, hpaths, hWU2.2, hq0'⟩, ?_⟩
    intro hr
    have hQT := queueTotal_update k s.winner_q s.in_queues rest hwq
    rw [hq] at hQT
    have hM : mergerMeasure k s =
        4 * queueTotal k s.in_queues + 2 * nullCount k s.loser_e + 0 := by
      unfold mergerMeasure
      rw [hq]
      simp
    have hM2 : mergerMeasure k
        { s with
            loser_e := L2
            in_queues := Function.update s.in_queues s.winner_q rest
            winner_q := win.src
            safe_time := win.time } =
        4 * queueTotal k (Function.update s.in_queues s.winner_q rest) +
          2 * nullCount k L2 +
          (if (Function.update s.in_queues s.winner_q rest win.src).length = 0
            then 1 else 0) := rfl
    rw [hM, hM2]
    have hcb : (if ({ e with src := s.winner_q } : Event U).isNull = true
        then 1 else 0) ≤ 1 := by
      split
      · omega
      · omega
    have hbit : (if (Function.update s.in_queues s.winner_q rest win.src).length = 0
        then 1 else 0) ≤ 1 := by
      split
      · omega
      · omega
    rcases hnone hr with hwin | ⟨hwin, hbitc⟩
    · rw [hwin] at hWU1
      simp only [if_true] at hWU1
      simp only [List.length_cons] at hQT
      omega
    · have hwn := isStalled_not_isNull win hwin
      rw [hwn] at hWU1
      simp only [Bool.false_eq_true, if_false, Nat.add_zero] at hWU1
      have hbit0 : (if (Function.update s.in_queues s.winner_q rest win.src).length = 0
          then 1 else 0) = 0 := by
        rw [if_neg (by omega)]
      simp only [List.length_cons] at hQT
      omega

/-- With fuel exceeding the measure, the `next` loop always yields. -/
theorem nextFuel_total {U : Type} (k : Nat) :
    ∀ (M : Nat) (s : Merger U), mergerSB k s → mergerMeasure k s ≤ M →
      ∃ e s', Merger.nextFuel (M + 1) s = some (e, s') := by
  intro M
  induction M using Nat.strong_induction_on with
  | _ M ih =>
  intro s hSB hM
  rcases hit : s.nextIter with ⟨r, s2⟩
  obtain ⟨hSB2, hdec⟩ := nextIter_progress k s hSB r s2 hit
  cases r with
  | some e =>
    refine ⟨e, s2, ?_⟩
    show Merger.nextFuel (M + 1) s = some (e, s2)
    simp only [Merger.nextFuel]
    rw [hit]
  | none =>
    have hlt := hdec rfl
    have hM1 : 1 ≤ M := by omega
    obtain ⟨e, s3, hrun⟩ := ih (M - 1) (by omega) s2 hSB2 (by omega)
    refine ⟨e, s3, ?_⟩
    show Merger.nextFuel (M + 1) s = some (e, s3)
    simp only [Merger.nextFuel]
    rw [hit]
    have hMM : M - 1 + 1 = M := by omega
    rw [← hMM]
    exact hrun

/-- The `src`-assignment loop of `Merger::new` succeeds whenever every walk
index is in bounds, and stamps sources in `1..len`. -/
theorem assignSrcs_spec {U : Type} (n : Nat) :
    ∀ (l : List Nat) (lose : Nat → Event U) (j : Nat), (∀ x ∈ l, x < n) →
      ∃ lose2, assignSrcs n lose l j = Except.ok lose2 ∧
        (∀ i, i ∈ l → 1 ≤ (lose2 i).src ∧ (lose2 i).src ≤ j + l.length) ∧
        (∀ i, ¬ i ∈ l → lose2 i = lose i) := by
  intro l
  induction l with
  | nil =>
    intro lose j hbound
    exact ⟨lose, rfl, fun i hi => absurd hi (List.not_mem_nil i), fun i _ => rfl⟩
  | cons ix rest ih =>
    intro lose j hbound
    obtain ⟨lose2, hok, hmem, hout⟩ := ih
      (Function.update lose ix
        { time := 0, src := j + 1, event_type := EventType.Null })
      (j + 1) (fun x hx => hbound x (List.mem_cons_of_mem ix hx))
    refine ⟨lose2, ?_, ?_, ?_⟩
    · show assignSrcs n lose (ix :: rest) j = Except.ok lose2
      simp only [assignSrcs]
      rw [if_pos (hbound ix (List.mem_cons_self ix rest))]
      exact hok
    · intro i hi
      by_cases hrest : i ∈ rest
      · have := hmem i hrest
        simp only [List.length_cons]
        omega
      · have hieq : i = ix := by
          rcases List.mem_cons.mp hi with h1 | h1
          · exact h1
          · exact absurd h1 hrest
        subst hieq
        rw [hout i hrest, Function.update_same]
        simp only [List.length_cons]
        omega
    · intro i hi
      have hi1 : ¬ i ∈ rest := fun hh => hi (List.mem_cons_of_mem ix hh)
      have hi2 : i ≠ ix := fun hh => hi (hh ▸ List.mem_cons_self ix rest)
      rw [hout i hi1, Function.update_noteq hi2]

theorem entryAux_ge_one (len L v : Nat) :
    ∀ level, 1 ≤ entryAux len L v level := by
  intro level
  induction level with
  | zero =>
    show 1 ≤ 2 ^ 0 + v / 2 ^ L
    simp
  | succ level ih =>
    show 1 ≤ (if 2 ^ (level + 1) + v / 2 ^ (L - (level + 1)) < len
        then 2 ^ (level + 1) + v / 2 ^ (L - (level + 1))
        else entryAux len L v level)
    split
    · have h9 : 0 < 2 ^ (level + 1) := Nat.pos_pow_of_pos _ (by norm_num)
      exact le_trans h9 (Nat.le_add_right _ _)
    · exact ih

theorem entryAux_lt (len L v : Nat) (hlen : 2 ≤ len) (hv : v < 2 ^ L) :
    ∀ level, entryAux len L v level < len := by
  intro level
  induction level with
  | zero =>
    show 2 ^ 0 + v / 2 ^ L < len
    rw [Nat.div_eq_of_lt hv]
    simpa using hlen
  | succ level ih =>
    show (if 2 ^ (level + 1) + v / 2 ^ (L - (level + 1)) < len
        then 2 ^ (level + 1) + v / 2 ^ (L - (level + 1))
        else entryAux len L v level) < len
    split
    · assumption
    · exact ih

/-- The path-head formula of `Merger::new` always lands on a tree node:
`1 ≤ paths[ix] < n_queues`. -/
theorem pathOf_bound (k ix : Nat) (hk : 2 ≤ k) (hix : ix < k) :
    1 ≤ pathOf k (clog2 k) (((k + 2 ^ log2 k - 1) % 2 ^ log2 k + 1) * 2)
        ((((k + 2 ^ log2 k - 1) % 2 ^ log2 k + 1) * 2 + 1) / 2) ix ∧
    pathOf k (clog2 k) (((k + 2 ^ log2 k - 1) % 2 ^ log2 k + 1) * 2)
        ((((k + 2 ^ log2 k - 1) % 2 ^ log2 k + 1) * 2 + 1) / 2) ix < k := by
  have hm : log2 k = Nat.log 2 k := log2_eq k
  have hL : clog2 k = Nat.clog 2 k := clog2_eq k
  have hkle : k ≤ 2 ^ clog2 k := by
    rw [hL]
    exact Nat.le_pow_clog (by norm_num) k
  unfold pathOf
  by_cases hbr : ((k + 2 ^ log2 k - 1) % 2 ^ log2 k + 1) * 2 < ix
  · -- the shifted branch: only reachable when `k` is not a power of two
    by_cases hpow : 2 ^ Nat.log 2 k = k
    · exfalso
      have hmod : (k + 2 ^ log2 k - 1) % 2 ^ log2 k = k - 1 := by
        rw [hm, hpow]
        have h5 : k + k - 1 = (k - 1) + k := by omega
        rw [h5, Nat.add_mod_right]
        exact Nat.mod_eq_of_lt (by omega)
      rw [hmod] at hbr
      omega
    · have h1 : 2 ^ Nat.log 2 k ≤ k := Nat.pow_log_le_self 2 (by omega)
      have h2 : 2 ^ Nat.log 2 k < k := lt_of_le_of_ne h1 hpow
      have h3 : k < 2 ^ (Nat.log 2 k + 1) := Nat.lt_pow_succ_log_self (by norm_num) k
      have hps : (2 : Nat) ^ (Nat.log 2 k + 1) = 2 * 2 ^ Nat.log 2 k := by
        rw [pow_succ]
        ring
      have hclog : Nat.clog 2 k = Nat.log 2 k + 1 := by
        have hc1 : Nat.clog 2 k ≤ Nat.log 2 k + 1 :=
          (Nat.le_pow_iff_clog_le (by norm_num)).mp (le_of_lt h3)
        have hc2 : Nat.log 2 k < Nat.clog 2 k :=
          (Nat.pow_lt_iff_lt_clog (by norm_num)).mp h2
        omega
      have hmod : (k + 2 ^ log2 k - 1) % 2 ^ log2 k = k - 2 ^ Nat.log 2 k - 1 := by
        rw [hm]
        have h5 : k + 2 ^ Nat.log 2 k - 1 =
            (k - 2 ^ Nat.log 2 k - 1) + 2 ^ Nat.log 2 k * 2 := by omega
        rw [h5, Nat.add_mul_mod_self_left]
        exact Nat.mod_eq_of_lt (by omega)
      rw [if_pos hbr, hmod]
      have hvlt : (ix - ((k - 2 ^ Nat.log 2 k - 1 + 1) * 2 + 1) / 2) * 2 <
          2 ^ clog2 k := by
        rw [hL, hclog, hps]
        omega
      rw [hmod] at hbr
      exact ⟨entryAux_ge_one _ _ _ _, entryAux_lt _ _ _ hk hvlt _⟩
  · rw [if_neg hbr]
    have hvlt : ix < 2 ^ clog2 k := by omega
    exact ⟨entryAux_ge_one _ _ _ _, entryAux_lt _ _ _ hk hvlt _⟩

/-- With at least two input queues, `Merger::new` succeeds and the built
merger satisfies the structural bounds. -/
theorem Merger.new_ok {U : Type} (qs : List (List (Event U))) (id : Nat)
    (ids : List Nat) (hk : 2 ≤ qs.length) :
    ∃ s, Merger.new qs id ids = Except.ok s ∧ mergerSB qs.length s := by
  obtain ⟨lose2, hok, hmem, hout⟩ := assignSrcs_spec qs.length (inord qs.length)
    (fun i => { time := 0, src := i, event_type := EventType.Null }) 0
    (fun x hx => ((mem_inord qs.length x).mp hx).2)
  have hlay : ¬ clog2 qs.length = 0 := by
    rw [clog2_eq]
    have := Nat.clog_pos (b := 2) (by norm_num) (n := qs.length) (by omega)
    omega
  refine ⟨{ id := id
            in_queues := fun i => qs.getD i []
            n_layers := clog2 qs.length
            paths := fun ix => pathOf qs.length (clog2 qs.length)
              (((qs.length + 2 ^ log2 qs.length - 1) % 2 ^ log2 qs.length + 1) * 2)
              ((((qs.length + 2 ^ log2 qs.length - 1) % 2 ^ log2 qs.length + 1) * 2 + 1) / 2)
              ix
            winner_q := 0
            safe_time := 0
            loser_e := lose2
            ix_to_id := ids }, ?_, ?_⟩
  · show Merger.new qs id ids = _
    simp only [Merger.new]
    rw [ltr_walk_eq qs.length hk, exceptOkBind, hok, exceptOkBind, if_neg hlay]
    rfl
  · refine ⟨by show (0 : Nat) < qs.length; omega, ?_, ?_, ?_⟩
    · intro u hu
      exact pathOf_bound qs.length u hk hu
    · intro j hj1 hj2
      have hjm : j ∈ inord qs.length := (mem_inord _ j).mpr ⟨hj1, hj2⟩
      have hsm := hmem j hjm
      have hlen := length_inord qs.length
      show (lose2 j).src < qs.length
      omega
    · intro i hi
      show qs.getD i [] = []
      exact List.getD_eq_default qs [] hi

/-- A producer push to a real input queue preserves the structural bounds. -/
theorem mergerPush_SB {U : Type} (k : Nat) (s : Merger U) (i : Nat)
    (e : Event U) (hi : i < k) (h : mergerSB k s) :
    mergerSB k (mergerPush s i e) := by
  obtain ⟨h1, h2, h3, h4⟩ := h
  refine ⟨h1, h2, h3, ?_⟩
  intro i2 hi2
  show Function.update s.in_queues i (s.in_queues i ++ [e]) i2 = []
  rw [Function.update_noteq (by omega)]
  exact h4 i2 hi2

/-- C9: for every Merger over at least two input queues, `next` never
returns `None`: the freshly built merger satisfies the structural bounds,
the bounds are preserved by producer pushes and by every loop iteration,
and from any state satisfying them the loop yields `Some` event within
fuel `mergerMeasure + 1` — in particular it discards only finitely many
`Null`s (and stale `Stalled`s) before returning, even when every input
queue is empty, so the merged stream never terminates on its own. -/
theorem claim_C9_next_total {U : Type} :
    (∀ (qs : List (List (Event U))) (id : Nat) (ids : List Nat) (s0 : Merger U),
        2 ≤ qs.length → Merger.new qs id ids = Except.ok s0 →
        mergerSB qs.length s0) ∧
    (∀ (k i : Nat) (s : Merger U) (e : Event U), i < k → mergerSB k s →
        mergerSB k (mergerPush s i e)) ∧
    (∀ (k : Nat) (s s' : Merger U) (r : Option (Event U)), mergerSB k s →
        s.nextIter = (r, s') → mergerSB k s') ∧
    (∀ (k : Nat) (s : Merger U), mergerSB k s →
        ∃ e s', Merger.nextFuel (mergerMeasure k s + 1) s = some (e, s')) := by
  refine ⟨?_, ?_, ?_, ?_⟩
  · intro qs id ids s0 hk hnew
    obtain ⟨s1, hok1, hSB1⟩ := Merger.new_ok qs id ids hk
    rw [hok1] at hnew
    have : s1 = s0 := by
      injection hnew
    rw [← this]
    exact hSB1
  · intro k i s e hi hSB
    exact mergerPush_SB k s i e hi hSB
  · intro k s s' r hSB hit
    exact (nextIter_progress k s hSB r s' hit).1
  · intro k s hSB
    exact nextFuel_total k (mergerMeasure k s) s hSB le_rfl

/-- A tiny concrete merger state over two inputs satisfying the
structural bounds. -/
def c9w : Merger Unit :=
  { id := 0
    in_queues := fun i => []
    n_layers := 1
    paths := fun u => 1
    winner_q := 0
    safe_time := 0
    loser_e := fun j => { time := 0, src := 0, event_type := EventType.Null }
    ix_to_id := [] }

theorem claim_C9_next_total_witness :
    ∃ e s', Merger.nextFuel (mergerMeasure 2 c9w + 1) c9w = some (e, s') :=
  claim_C9_next_total.2.2.2 2 c9w
    ⟨by show (0 : Nat) < 2; omega,
     fun u hu => ⟨show (1 : Nat) ≤ 1 from le_rfl, show (1 : Nat) < 2 by omega⟩,
     fun j h1 h2 => show (0 : Nat) < 2 by omega,
     fun i hi => rfl⟩

/-- C10: `Merger::new` requires at least two input queues: with zero or
one queue, `ltr_walk`'s `2^(n_layers - 1)` underflows and construction
fails; with two or more queues construction succeeds with no assertion
failure or out-of-bounds index. -/
theorem claim_C10_new_arity {U : Type} (qs : List (List (Event U)))
    (id : Nat) (ids : List Nat) :
    (qs.length ≤ 1 → ∃ msg, Merger.new qs id ids = Except.error msg) ∧
    (2 ≤ qs.length → ∃ s, Merger.new qs id ids = Except.ok s) := by
  constructor
  · intro hk
    have hlay : clog2 qs.length = 0 := by
      rcases Nat.le_one_iff_eq_zero_or_eq_one.mp hk with h | h <;> rw [h] <;> rfl
    refine ⟨"underflow computing first index", ?_⟩
    have hwalk : ltr_walk qs.length =
        Except.error "underflow computing first index" := by
      simp only [ltr_walk]
      rw [if_pos hlay]
    simp only [Merger.new]
    rw [hwalk, exceptErrBind]
  · intro hk
    obtain ⟨s, hok, _⟩ := Merger.new_ok qs id ids hk
    exact ⟨s, hok⟩

theorem claim_C10_new_arity_witness :
    (∃ msg, Merger.new (U := Unit) [[]] 0 [] = Except.error msg) ∧
    (∃ s, Merger.new (U := Unit) [[], []] 0 [] = Except.ok s) :=
  ⟨(claim_C10_new_arity [[]] 0 []).1 (by norm_num),
   (claim_C10_new_arity [[], []] 0 []).2 (by norm_num)⟩

/-! ### Monotonicity of the merged stream (claim C1)

The loser-tree invariant: every tree slot holds the current representative
of exactly one input, stored on that input's path; within any subtree at
most one entering input lacks an inside representative (its event escaped
upward, or it is the current champion), and an escaped representative is
no later than every representative inside.  Together with per-queue
sortedness these give that each tournament winner is a global minimum, so
`safe_time` never decreases. -/

/-- Two ancestors of the same node are comparable. -/
theorem isDesc_comparable {a b x : Nat} (ha : isDesc a x) (hb : isDesc b x) :
    isDesc a b ∨ isDesc b a := by
  obtain ⟨d, hd⟩ := ha
  obtain ⟨e, he⟩ := hb
  rcases le_or_lt d e with h | h
  · right
    refine ⟨e - d, ?_⟩
    rw [← hd, Nat.div_div_eq_div_mul, ← pow_add]
    rw [← he]
    congr 2
    omega
  · left
    refine ⟨d - e, ?_⟩
    rw [← he, Nat.div_div_eq_div_mul, ← pow_add]
    rw [← hd]
    congr 2
    omega

/-- A strict ancestor of `a` is an ancestor of `a`'s parent. -/
theorem isDesc_parent {d a : Nat} (h : isDesc d a) (hne : d ≠ a) :
    isDesc d (a / 2) := by
  obtain ⟨e, he⟩ := h
  match e with
  | 0 => exact absurd he.symm (by simpa using hne)
  | e + 1 =>
    refine ⟨e, ?_⟩
    rw [← he, pow_succ, Nat.mul_comm, ← Nat.div_div_eq_div_mul]

/-- An ancestor of `a`'s parent is an ancestor of `a`. -/
theorem isDesc_of_parent {d a : Nat} (h : isDesc d (a / 2)) : isDesc d a := by
  obtain ⟨e, he⟩ := h
  exact ⟨e + 1, by rw [← he, pow_succ, Nat.mul_comm, ← Nat.div_div_eq_div_mul]⟩

/-- 0 is (vacuously) an ancestor of everything. -/
theorem isDesc_zero (x : Nat) : isDesc 0 x :=
  ⟨x, Nat.div_eq_of_lt (Nat.lt_two_pow x)⟩

theorem lca_exists_aux :
    ∀ (n a b : Nat), a + b ≤ n → 1 ≤ a → 1 ≤ b →
      ∃ c, 1 ≤ c ∧ isDesc c a ∧ isDesc c b ∧
        (∀ d, isDesc d a → isDesc d b → isDesc d c) := by
  intro n
  induction n with
  | zero => intro a b h ha hb; omega
  | succ n ih =>
    intro a b h ha hb
    rcases Nat.lt_trichotomy a b with hab | hab | hab
    · -- b is strictly deeper: replace b by its parent
      have hb2 : 1 ≤ b / 2 := Nat.one_le_div_iff (by norm_num) |>.mpr (by omega)
      obtain ⟨c, hc1, hca, hcb, hlow⟩ := ih a (b / 2) (by omega) ha hb2
      refine ⟨c, hc1, hca, isDesc_of_parent hcb, ?_⟩
      intro d hda hdb
      rcases Nat.eq_zero_or_pos d with h0 | hd1
      · exact h0 ▸ isDesc_zero c
      have hdb' : isDesc d (b / 2) := by
        refine isDesc_parent hdb ?_
        intro hdeq
        have := isDesc_ge hd1 hda
        omega
      exact hlow d hda hdb'
    · exact ⟨a, ha, isDesc_refl a, hab ▸ isDesc_refl a, fun d hda _ => hda⟩
    · -- a is strictly deeper: replace a by its parent
      have ha2 : 1 ≤ a / 2 := Nat.one_le_div_iff (by norm_num) |>.mpr (by omega)
      obtain ⟨c, hc1, hca, hcb, hlow⟩ := ih (a / 2) b (by omega) ha2 hb
      refine ⟨c, hc1, isDesc_of_parent hca, hcb, ?_⟩
      intro d hda hdb
      rcases Nat.eq_zero_or_pos d with h0 | hd1
      · exact h0 ▸ isDesc_zero c
      have hda' : isDesc d (a / 2) := by
        refine isDesc_parent hda ?_
        intro hdeq
        have := isDesc_ge hd1 hdb
        omega
      exact hlow d hda' hdb

/-- Lowest common ancestor: a common ancestor below every other common
ancestor. -/
theorem lca_exists (a b : Nat) (ha : 1 ≤ a) (hb : 1 ≤ b) :
    ∃ c, 1 ≤ c ∧ isDesc c a ∧ isDesc c b ∧
      (∀ d, isDesc d a → isDesc d b → isDesc d c) :=
  lca_exists_aux (a + b) a b le_rfl ha hb

/-- A nonzero node has a unique height above each of its ancestors. -/
theorem div_pow_eq_inj {x z e f : Nat} (hz : 1 ≤ z) (he : x / 2 ^ e = z)
    (hf : x / 2 ^ f = z) : e = f := by
  have key : ∀ e f : Nat, e < f → x / 2 ^ e = z → x / 2 ^ f = z → False := by
    intro e f h he hf
    have hself : z / 2 ^ (f - e) = z := by
      conv_lhs => rw [← he]
      rw [Nat.div_div_eq_div_mul, ← pow_add, show e + (f - e) = f by omega, hf]
    have h2 : (2 : Nat) ≤ 2 ^ (f - e) := by
      calc (2 : Nat) = 2 ^ 1 := by norm_num
      _ ≤ 2 ^ (f - e) := Nat.pow_le_pow_right (by norm_num) (by omega)
    have h3 : z / 2 ^ (f - e) ≤ z / 2 := Nat.div_le_div_left h2 (by norm_num)
    have h4 : z / 2 < z := Nat.div_lt_self (by omega) (by norm_num)
    omega
  rcases Nat.lt_trichotomy e f with h | h | h
  · exact absurd (key e f h he hf) (by simp)
  · exact h
  · exact absurd (key f e h hf he) (by simp)

/-- The chain of tree nodes processed by `walkUpAux` with `t` units of
fuel starting at `index` (halving toward the root, stopping before 0). -/
def procList : Nat → Nat → List Nat
  | 0, _ => []
  | t + 1, index => if index = 0 then [] else index :: procList t (index / 2)

theorem procList_succ (t index : Nat) :
    procList (t + 1) index =
      if index = 0 then [] else index :: procList t (index / 2) := rfl

theorem procList_mem (t : Nat) :
    ∀ index z : Nat,
      z ∈ procList t index ↔ 1 ≤ z ∧ ∃ e, e < t ∧ index / 2 ^ e = z := by
  induction t with
  | zero =>
    intro index z
    constructor
    · intro h
      exact absurd h (List.not_mem_nil z)
    · rintro ⟨_, e, he, _⟩
      omega
  | succ t ih =>
    intro index z
    by_cases h0 : index = 0
    · subst h0
      rw [procList_succ, if_pos rfl]
      constructor
      · intro h
        exact absurd h (List.not_mem_nil z)
      · rintro ⟨hz, e, _, hval⟩
        rw [Nat.zero_div] at hval
        omega
    · rw [procList_succ, if_neg h0]
      rw [List.mem_cons, ih]
      constructor
      · rintro (rfl | ⟨hz, e, he, hval⟩)
        · exact ⟨by omega, 0, by omega, by simp⟩
        · refine ⟨hz, e + 1, by omega, ?_⟩
          rw [pow_succ, Nat.mul_comm, ← Nat.div_div_eq_div_mul]
          exact hval
      · rintro ⟨hz, e, he, hval⟩
        match e with
        | 0 =>
          left
          simpa using hval.symm
        | e + 1 =>
          right
          refine ⟨hz, e, by omega, ?_⟩
          rw [← hval, pow_succ, Nat.mul_comm, ← Nat.div_div_eq_div_mul]

theorem procList_le {t index z : Nat} (hz : z ∈ procList t index) : z ≤ index := by
  obtain ⟨_, e, _, hval⟩ := (procList_mem t index z).mp hz
  rw [← hval]
  exact Nat.div_le_self _ _

theorem procList_pos {t index z : Nat} (hz : z ∈ procList t index) : 1 ≤ z :=
  ((procList_mem t index z).mp hz).1

theorem procList_isDesc {t index z : Nat} (hz : z ∈ procList t index) :
    isDesc z index := by
  obtain ⟨_, e, _, hval⟩ := (procList_mem t index z).mp hz
  exact ⟨e, hval⟩

theorem procList_tail_lt {t index z : Nat} (h0 : index ≠ 0)
    (hz : z ∈ procList t (index / 2)) : z < index := by
  have h1 : z ≤ index / 2 := procList_le hz
  have h2 : index / 2 < index := Nat.div_lt_self (by omega) (by norm_num)
  omega

theorem procList_not_mem_tail {t index : Nat} (h0 : index ≠ 0) :
    index ∉ procList t (index / 2) := by
  intro h
  exact absurd (procList_tail_lt h0 h) (by omega)

/-- The full-fuel chain is exactly the set of nonzero ancestors. -/
theorem procList_full {index z : Nat} :
    z ∈ procList (index + 1) index ↔ 1 ≤ z ∧ isDesc z index := by
  rw [procList_mem]
  constructor
  · rintro ⟨hz, e, _, hval⟩
    exact ⟨hz, e, hval⟩
  · rintro ⟨hz, e, hval⟩
    refine ⟨hz, e, ?_, hval⟩
    have h1 : 2 ^ e ≤ index := by
      by_contra hlt
      rw [Nat.div_eq_of_lt (by omega)] at hval
      omega
    have h2 : e < 2 ^ e := Nat.lt_two_pow e
    omega

theorem procList_nodup (t : Nat) : ∀ index : Nat, (procList t index).Nodup := by
  induction t with
  | zero => intro index; exact List.nodup_nil
  | succ t ih =>
    intro index
    by_cases h0 : index = 0
    · rw [procList_succ, if_pos h0]
      exact List.nodup_nil
    · rw [procList_succ, if_neg h0]
      exact List.nodup_cons.mpr ⟨procList_not_mem_tail h0, ih (index / 2)⟩

/-- The winner of a tournament comparison is no later than either input
and no later than the stored loser. -/
theorem tourneyStep_min {U : Type} (cand loser : Event U) :
    (tourneyStep cand loser).1.time ≤ cand.time ∧
      (tourneyStep cand loser).1.time ≤ loser.time ∧
      (tourneyStep cand loser).1.time ≤ (tourneyStep cand loser).2.time := by
  unfold tourneyStep
  rcases Nat.lt_or_ge loser.time cand.time with h | h
  · rw [if_pos h]
    refine ⟨?_, ?_, ?_⟩ <;> dsimp only <;> omega
  · rw [if_neg (by omega)]
    by_cases heq : loser.time = cand.time
    · rw [if_pos heq]
      cases hst : cand.isStalled
      · rw [if_neg (by simp)]
        refine ⟨?_, ?_, ?_⟩ <;> dsimp only <;> omega
      · rw [if_pos rfl]
        refine ⟨?_, ?_, ?_⟩ <;> dsimp only <;> omega
    · rw [if_neg heq]
      refine ⟨?_, ?_, ?_⟩ <;> dsimp only <;> omega

theorem walkUpAux_succ {U : Type} (t : Nat) (lose : Nat → Event U)
    (cand : Event U) (index : Nat) :
    walkUpAux (t + 1) lose cand index =
      if index = 0 then (cand, lose)
      else
        walkUpAux t (Function.update lose index (tourneyStep cand (lose index)).2)
          (tourneyStep cand (lose index)).1 (index / 2) := rfl

theorem walkUpAux_zero_index {U : Type} (f : Nat) (lose : Nat → Event U)
    (cand : Event U) : walkUpAux f lose cand 0 = (cand, lose) := by
  cases f with
  | zero => rfl
  | succ f => rw [walkUpAux_succ, if_pos rfl]

/-- Composition: a walk splits into a prefix of `t` matches and the walk
continuing from the intermediate moving event `t` levels up. -/
theorem walkUpAux_comp {U : Type} (t : Nat) :
    ∀ (f : Nat) (lose : Nat → Event U) (cand : Event U) (index : Nat),
      walkUpAux (t + f) lose cand index =
        walkUpAux f (walkUpAux t lose cand index).2
          (walkUpAux t lose cand index).1 (index / 2 ^ t) := by
  induction t with
  | zero =>
    intro f lose cand index
    rw [Nat.zero_add, pow_zero, Nat.div_one]
    rfl
  | succ t ih =>
    intro f lose cand index
    have harith : t + 1 + f = t + f + 1 := by omega
    rw [harith]
    by_cases h0 : index = 0
    · subst h0
      rw [walkUpAux_succ, if_pos rfl, walkUpAux_succ, if_pos rfl,
        Nat.zero_div, walkUpAux_zero_index]
    · rw [walkUpAux_succ, if_neg h0, walkUpAux_succ, if_neg h0, ih]
      have hdiv : index / 2 / 2 ^ t = index / 2 ^ (t + 1) := by
        rw [Nat.div_div_eq_div_mul, pow_succ, Nat.mul_comm]
      rw [hdiv]

/-- Slots off the processed chain are untouched by the walk. -/
theorem walkUpAux_untouched {U : Type} (t : Nat) :
    ∀ (lose : Nat → Event U) (cand : Event U) (index u : Nat),
      u ∉ procList t index → (walkUpAux t lose cand index).2 u = lose u := by
  induction t with
  | zero => intro lose cand index u _; rfl
  | succ t ih =>
    intro lose cand index u hu
    by_cases h0 : index = 0
    · rw [walkUpAux_succ, if_pos h0]
    · rw [walkUpAux_succ, if_neg h0]
      have hu2 : u ∉ procList t (index / 2) := by
        intro hmem
        exact hu (by rw [procList_succ, if_neg h0]; exact List.mem_cons_of_mem _ hmem)
      have hne : u ≠ index := by
        intro heq
        exact hu (by rw [procList_succ, if_neg h0, heq]; exact List.mem_cons_self _ _)
      rw [ih _ _ _ u hu2, Function.update_noteq hne]

/-- The walk's result is a minimum of the candidate and the stored losers
along the processed chain. -/
theorem walkUpAux_min {U : Type} (t : Nat) :
    ∀ (lose : Nat → Event U) (cand : Event U) (index : Nat),
      (walkUpAux t lose cand index).1.time ≤ cand.time ∧
        ∀ z ∈ procList t index,
          (walkUpAux t lose cand index).1.time ≤ (lose z).time := by
  induction t with
  | zero =>
    intro lose cand index
    exact ⟨le_rfl, fun z hz => absurd hz (List.not_mem_nil z)⟩
  | succ t ih =>
    intro lose cand index
    by_cases h0 : index = 0
    · rw [walkUpAux_succ, if_pos h0, procList_succ, if_pos h0]
      exact ⟨le_rfl, fun z hz => absurd hz (List.not_mem_nil z)⟩
    · rw [walkUpAux_succ, if_neg h0, procList_succ, if_neg h0]
      obtain ⟨hm1, hm2⟩ := ih (Function.update lose index (tourneyStep cand (lose index)).2)
        (tourneyStep cand (lose index)).1 (index / 2)
      obtain ⟨ht1, ht2, _⟩ := tourneyStep_min cand (lose index)
      refine ⟨le_trans hm1 ht1, ?_⟩
      intro z hz
      rcases List.mem_cons.mp hz with rfl | hz2
      · exact le_trans hm1 ht2
      · have := hm2 z hz2
        rwa [Function.update_noteq (by
          have := procList_tail_lt h0 hz2
          omega)] at this

/-- The walk's result is the candidate or one of the old stored losers
along the chain. -/
theorem walkUpAux_mem {U : Type} (t : Nat) :
    ∀ (lose : Nat → Event U) (cand : Event U) (index : Nat),
      (walkUpAux t lose cand index).1 = cand ∨
        ∃ z ∈ procList t index, (walkUpAux t lose cand index).1 = lose z := by
  induction t with
  | zero => intro lose cand index; exact Or.inl rfl
  | succ t ih =>
    intro lose cand index
    by_cases h0 : index = 0
    · rw [walkUpAux_succ, if_pos h0]
      exact Or.inl rfl
    · rw [walkUpAux_succ, if_neg h0, procList_succ, if_neg h0]
      rcases tourneyStep_cases cand (lose index) with hcase | hcase
      · rw [hcase]
        rcases ih (Function.update lose index (lose index)) cand (index / 2) with h | ⟨z, hz, h⟩
        · exact Or.inl h
        · refine Or.inr ⟨z, List.mem_cons_of_mem _ hz, ?_⟩
          rwa [Function.update_noteq (by
            have := procList_tail_lt h0 hz
            omega)] at h
      · rw [hcase]
        rcases ih (Function.update lose index cand) (lose index) (index / 2) with h | ⟨z, hz, h⟩
        · exact Or.inr ⟨index, List.mem_cons_self _ _, h⟩
        · refine Or.inr ⟨z, List.mem_cons_of_mem _ hz, ?_⟩
          rwa [Function.update_noteq (by
            have := procList_tail_lt h0 hz
            omega)] at h

/-- After the walk every stored loser along the chain is no earlier than
the walk's winner. -/
theorem walkUpAux_ge {U : Type} (t : Nat) :
    ∀ (lose : Nat → Event U) (cand : Event U) (index z : Nat),
      z ∈ procList t index →
      (walkUpAux t lose cand index).1.time ≤ ((walkUpAux t lose cand index).2 z).time := by
  induction t with
  | zero =>
    intro lose cand index z hz
    exact absurd hz (List.not_mem_nil z)
  | succ t ih =>
    intro lose cand index z hz
    by_cases h0 : index = 0
    · rw [procList_succ, if_pos h0] at hz
      exact absurd hz (List.not_mem_nil z)
    · rw [procList_succ, if_neg h0] at hz
      rw [walkUpAux_succ, if_neg h0]
      rcases List.mem_cons.mp hz with rfl | hz2
      · have huntouched := walkUpAux_untouched t
          (Function.update lose z (tourneyStep cand (lose z)).2)
          (tourneyStep cand (lose z)).1 (z / 2) z (procList_not_mem_tail h0)
        rw [huntouched, Function.update_same]
        obtain ⟨hm1, _⟩ := walkUpAux_min t
          (Function.update lose z (tourneyStep cand (lose z)).2)
          (tourneyStep cand (lose z)).1 (z / 2)
        obtain ⟨_, _, ht3⟩ := tourneyStep_min cand (lose z)
        exact le_trans hm1 ht3
      · exact ih _ _ _ z hz2

/-- The walk permutes the chain's stored events together with the moving
event: nothing is created or destroyed. -/
theorem walkUpAux_perm {U : Type} (t : Nat) :
    ∀ (lose : Nat → Event U) (cand : Event U) (index : Nat),
      ((procList t index).map (walkUpAux t lose cand index).2 ++
          [(walkUpAux t lose cand index).1]).Perm
        ((procList t index).map lose ++ [cand]) := by
  induction t with
  | zero => intro lose cand index; exact List.Perm.refl _
  | succ t ih =>
    intro lose cand index
    by_cases h0 : index = 0
    · rw [walkUpAux_succ, if_pos h0, procList_succ, if_pos h0]
    · rw [walkUpAux_succ, if_neg h0, procList_succ, if_neg h0]
      rw [List.map_cons, List.map_cons, List.cons_append, List.cons_append]
      rw [walkUpAux_untouched t _ _ (index / 2) index (procList_not_mem_tail h0),
        Function.update_same]
      have htail : (procList t (index / 2)).map
          (Function.update lose index (tourneyStep cand (lose index)).2) =
          (procList t (index / 2)).map lose := by
        refine List.map_congr_left ?_
        intro z hz
        rw [Function.update_noteq (by
          have := procList_tail_lt h0 hz
          omega)]
      have hih := ih (Function.update lose index (tourneyStep cand (lose index)).2)
        (tourneyStep cand (lose index)).1 (index / 2)
      rw [htail] at hih
      refine List.Perm.trans (List.Perm.cons _ hih) ?_
      rcases tourneyStep_cases cand (lose index) with hcase | hcase
      · rw [hcase]
      · rw [hcase]
        dsimp only
        refine List.Perm.trans
          (List.Perm.cons _ (List.perm_append_singleton _ _)) ?_
        refine List.Perm.trans (List.Perm.swap (lose index) cand _) ?_
        exact List.Perm.cons _ (List.perm_append_singleton _ _).symm

/-- The original candidate either emerges as the walk's winner or is
parked at some chain slot. -/
theorem walkUpAux_park {U : Type} (t : Nat) :
    ∀ (lose : Nat → Event U) (cand : Event U) (index : Nat),
      (walkUpAux t lose cand index).1 = cand ∨
        ∃ z ∈ procList t index, (walkUpAux t lose cand index).2 z = cand := by
  induction t with
  | zero => intro lose cand index; exact Or.inl rfl
  | succ t ih =>
    intro lose cand index
    by_cases h0 : index = 0
    · rw [walkUpAux_succ, if_pos h0]
      exact Or.inl rfl
    · rw [walkUpAux_succ, if_neg h0, procList_succ, if_neg h0]
      rcases tourneyStep_cases cand (lose index) with hcase | hcase
      · rw [hcase]
        rcases ih (Function.update lose index (lose index)) cand (index / 2) with h | ⟨z, hz, h⟩
        · exact Or.inl h
        · exact Or.inr ⟨z, List.mem_cons_of_mem _ hz, h⟩
      · rw [hcase]
        refine Or.inr ⟨index, List.mem_cons_self _ _, ?_⟩
        rw [walkUpAux_untouched t _ _ (index / 2) index (procList_not_mem_tail h0),
          Function.update_same]

/-- Every stored event after the walk is the candidate or came from a
chain slot inside the subtree of where it now sits. -/
theorem walkUpAux_below {U : Type} (t : Nat) :
    ∀ (lose : Nat → Event U) (cand : Event U) (index z : Nat),
      z ∈ procList t index →
      (walkUpAux t lose cand index).2 z = cand ∨
        ∃ z', z' ∈ procList t index ∧ isDesc z z' ∧
          (walkUpAux t lose cand index).2 z = lose z' := by
  induction t with
  | zero =>
    intro lose cand index z hz
    exact absurd hz (List.not_mem_nil z)
  | succ t ih =>
    intro lose cand index z hz
    by_cases h0 : index = 0
    · rw [procList_succ, if_pos h0] at hz
      exact absurd hz (List.not_mem_nil z)
    · rw [procList_succ, if_neg h0] at hz
      rw [walkUpAux_succ, if_neg h0, procList_succ, if_neg h0]
      have hdesc_tail : ∀ w ∈ procList t (index / 2), isDesc w index := by
        intro w hw
        obtain ⟨_, e, _, hval⟩ := (procList_mem t (index / 2) w).mp hw
        refine ⟨e + 1, ?_⟩
        rw [pow_succ, Nat.mul_comm, ← Nat.div_div_eq_div_mul]
        exact hval
      rcases List.mem_cons.mp hz with rfl | hz2
      · -- the examined slot itself
        rw [walkUpAux_untouched t _ _ (z / 2) z (procList_not_mem_tail h0),
          Function.update_same]
        rcases tourneyStep_cases cand (lose z) with hcase | hcase
        · rw [hcase]
          exact Or.inr ⟨z, List.mem_cons_self _ _, isDesc_refl z, rfl⟩
        · rw [hcase]
          exact Or.inl rfl
      · rcases ih (Function.update lose index (tourneyStep cand (lose index)).2)
            (tourneyStep cand (lose index)).1 (index / 2) z hz2 with h | ⟨z', hz', hdz, h⟩
        · -- became the intermediate candidate
          rcases tourneyStep_cases cand (lose index) with hcase | hcase
          · rw [hcase] at h ⊢
            exact Or.inl h
          · rw [hcase] at h ⊢
            refine Or.inr ⟨index, List.mem_cons_self _ _, ?_, h⟩
            exact hdesc_tail z hz2
        · rw [Function.update_noteq (by
            have := procList_tail_lt h0 hz'
            omega)] at h
          exact Or.inr ⟨z', List.mem_cons_of_mem _ hz', hdz, h⟩

/-- `isDesc` is decidable: a witnessing height is at most `u`. -/
instance isDescDecidable (v u : Nat) : Decidable (isDesc v u) :=
  decidable_of_iff ((List.range (u + 1)).any (fun e => u / 2 ^ e == v) = true) (by
    rw [List.any_eq_true]
    constructor
    · rintro ⟨e, _, he⟩
      exact ⟨e, by simpa using he⟩
    · rintro ⟨e, he⟩
      rcases Nat.eq_zero_or_pos v with rfl | hv
      · refine ⟨u, List.mem_range.mpr (by omega), ?_⟩
        simp [Nat.div_eq_of_lt (Nat.lt_two_pow u)]
      · refine ⟨e, List.mem_range.mpr ?_, by simp [he]⟩
        have h1 : 2 ^ e ≤ u := by
          by_contra hlt
          rw [Nat.div_eq_of_lt (by omega)] at he
          omega
        have h2 : e < 2 ^ e := Nat.lt_two_pow e
        omega)

/-- Input `ix`'s stored representative sits inside the subtree of `v`. -/
def storedIn {U : Type} (k : Nat) (s : Merger U) (v ix : Nat) : Prop :=
  ∃ u, 1 ≤ u ∧ u < k ∧ isDesc v u ∧ (s.loser_e u).src = ix

/-- Ghost per-queue pop watermark after one loop iteration: popping a
real head raises the winner queue's watermark to the popped time. -/
def pmAfter {U : Type} (s : Merger U) (pm : Nat → Nat) : Nat → Nat :=
  match s.in_queues s.winner_q with
  | [] => pm
  | e :: _ => Function.update pm s.winner_q e.time

/-- The loser-tree invariant of `Merger` relative to ghost per-queue
watermarks: `lp i` bounds every time the producer of queue `i` has pushed,
`pm i` is the time of the last event popped from queue `i`.

* `srcs`: the stored losers' sources together with the champion queue are
  a permutation of all queue indices;
* `a3`: each stored loser sits on the path of its source queue;
* `cnt`: each subtree has one more entering queue than internal slots
  (a property of the fixed `paths` layout);
* `uniq`: at most one queue entering a subtree is without a stored
  representative inside it (counting the champion queue as without);
* `esc`: a representative that escaped its subtree is no later than every
  loser stored inside;
* `g1`: `safe_time` bounds every stored loser;
* the queue clauses: queues are sorted, between `pm` and `lp`, stored
  representatives are no later than their queue's watermark, and the
  champion's watermark bounds `safe_time`. -/
structure MInv {U : Type} (k : Nat) (lp pm : Nat → Nat) (s : Merger U) : Prop where
  sb : mergerSB k s
  srcs : (((List.range k).drop 1).map (fun v => (s.loser_e v).src) ++
    [s.winner_q]).Perm (List.range k)
  a3 : ∀ v, 1 ≤ v → v < k → isDesc v (s.paths ((s.loser_e v).src))
  cnt : ∀ v, 1 ≤ v → v < k →
    ((Finset.range k).filter (fun ix => isDesc v (s.paths ix))).card =
      ((Finset.range k).filter (fun u => 1 ≤ u ∧ isDesc v u)).card + 1
  uniq : ∀ v ix iy, 1 ≤ v → v < k → ix < k → iy < k →
    isDesc v (s.paths ix) → isDesc v (s.paths iy) →
    (ix = s.winner_q ∨ ¬ storedIn k s v ix) →
    (iy = s.winner_q ∨ ¬ storedIn k s v iy) → ix = iy
  esc : ∀ v ix, 1 ≤ v → v < k → ix < k → ix ≠ s.winner_q →
    isDesc v (s.paths ix) → ¬ storedIn k s v ix →
    ∀ u2, 1 ≤ u2 → u2 < k → (s.loser_e u2).src = ix →
      ∀ u, 1 ≤ u → u < k → isDesc v u →
        (s.loser_e u2).time ≤ (s.loser_e u).time
  g1 : ∀ v, 1 ≤ v → v < k → s.safe_time ≤ (s.loser_e v).time
  qsorted : ∀ i, i < k → List.Chain' (fun a b => a.time ≤ b.time) (s.in_queues i)
  qlo : ∀ i, i < k → ∀ e ∈ s.in_queues i, pm i ≤ e.time
  qhi : ∀ i, i < k → ∀ e ∈ s.in_queues i, e.time ≤ lp i
  rep : ∀ v, 1 ≤ v → v < k → (s.loser_e v).time ≤ pm ((s.loser_e v).src)
  champ : s.safe_time ≤ pm s.winner_q
  pmlp : ∀ i, i < k → pm i ≤ lp i

theorem mem_drop_one_range {k v : Nat} :
    v ∈ (List.range k).drop 1 ↔ 1 ≤ v ∧ v < k := by
  cases k with
  | zero => simp
  | succ k =>
    rw [List.range_succ_eq_map]
    constructor
    · intro h
      simp only [List.drop_succ_cons, List.drop_zero, List.mem_map,
        List.mem_range] at h
      obtain ⟨w, hw, rfl⟩ := h
      omega
    · intro ⟨h1, h2⟩
      simp only [List.drop_succ_cons, List.drop_zero, List.mem_map,
        List.mem_range]
      exact ⟨v - 1, by omega, by omega⟩

/-- Consequences of the `srcs` permutation clause: stored sources are
in range, distinct from the champion queue, injective, and jointly with
the champion cover all queues. -/
theorem srcs_facts {U : Type} {k : Nat} {f : Nat → Event U} {w0 : Nat}
    (h : (((List.range k).drop 1).map (fun v => (f v).src) ++
      [w0]).Perm (List.range k)) :
    (∀ v, 1 ≤ v → v < k → (f v).src < k) ∧
      (∀ v, 1 ≤ v → v < k → (f v).src ≠ w0) ∧
      (∀ v w, 1 ≤ v → v < k → 1 ≤ w → w < k →
        (f v).src = (f w).src → v = w) ∧
      (∀ ix, ix < k → ix ≠ w0 →
        ∃ v, 1 ≤ v ∧ v < k ∧ (f v).src = ix) := by
  have hnodup : (((List.range k).drop 1).map (fun v => (f v).src) ++
      [w0]).Nodup := h.nodup_iff.mpr (List.nodup_range k)
  have hnd := List.nodup_append.mp hnodup
  refine ⟨?_, ?_, ?_, ?_⟩
  · intro v hv1 hvk
    have hmem : (f v).src ∈
        ((List.range k).drop 1).map (fun v => (f v).src) ++ [w0] := by
      refine List.mem_append_left _ ?_
      exact List.mem_map_of_mem _ (mem_drop_one_range.mpr ⟨hv1, hvk⟩)
    have := h.mem_iff.mp hmem
    exact List.mem_range.mp this
  · intro v hv1 hvk heq
    have hmem : (f v).src ∈
        ((List.range k).drop 1).map (fun v => (f v).src) :=
      List.mem_map_of_mem _ (mem_drop_one_range.mpr ⟨hv1, hvk⟩)
    have hdisj := hnd.2.2
    exact hdisj hmem (by rw [heq]; exact List.mem_singleton_self _)
  · intro v w hv1 hvk hw1 hwk heq
    exact List.inj_on_of_nodup_map hnd.1
      (mem_drop_one_range.mpr ⟨hv1, hvk⟩)
      (mem_drop_one_range.mpr ⟨hw1, hwk⟩) heq
  · intro ix hix hne
    have hmem : ix ∈ ((List.range k).drop 1).map (fun v => (f v).src) ++
        [w0] := h.mem_iff.mpr (List.mem_range.mpr hix)
    rcases List.mem_append.mp hmem with hmem | hmem
    · obtain ⟨v, hv, hsrc⟩ := List.mem_map.mp hmem
      obtain ⟨hv1, hvk⟩ := mem_drop_one_range.mp hv
      exact ⟨v, hv1, hvk, hsrc⟩
    · exact absurd (List.mem_singleton.mp hmem) hne

/-- Pigeonhole on the `cnt` clause: every real subtree has a queue
entering it whose representative is not stored inside (possibly the
champion queue). -/
theorem minv_outside_exists {U : Type} {k : Nat} {lp pm : Nat → Nat}
    {s : Merger U} (hI : MInv k lp pm s) (v : Nat) (hv1 : 1 ≤ v) (hvk : v < k) :
    ∃ iz, iz < k ∧ isDesc v (s.paths iz) ∧
      (iz = s.winner_q ∨ ¬ storedIn k s v iz) := by
  by_contra hno
  push_neg at hno
  have hsur : Set.SurjOn (fun u => (s.loser_e u).src)
      ((Finset.range k).filter (fun u => 1 ≤ u ∧ isDesc v u) : Finset Nat)
      ((Finset.range k).filter (fun ix => isDesc v (s.paths ix)) : Finset Nat) := by
    intro iz hiz
    simp only [Finset.coe_filter, Set.mem_setOf_eq, Finset.mem_range] at hiz
    obtain ⟨hizk, hizent⟩ := hiz
    obtain ⟨hne, hstored⟩ := hno iz hizk hizent
    obtain ⟨u, hu1, huk, hdu, hsrc⟩ := hstored
    refine ⟨u, ?_, hsrc⟩
    simp only [Finset.coe_filter, Set.mem_setOf_eq, Finset.mem_range]
    exact ⟨huk, hu1, hdu⟩
  have hcard := Finset.card_le_card_of_surjOn _ hsur
  have := hI.cnt v hv1 hvk
  omega

/-- Every loser stored inside a real subtree `v` of the champion's path
but off the path itself is dominated by some loser stored inside `v` on
the path: the escapee of the off-path portion. -/
theorem minv_dom_cover {U : Type} {k : Nat} {lp pm : Nat → Nat}
    {s : Merger U} (hI : MInv k lp pm s) (v : Nat) (hv1 : 1 ≤ v) (hvk : v < k)
    (hvchain : isDesc v (s.paths s.winner_q))
    (ur : Nat) (hur1 : 1 ≤ ur) (hurk : ur < k) (hin : isDesc v ur)
    (hoff : ¬ isDesc ur (s.paths s.winner_q)) :
    ∃ z, 1 ≤ z ∧ z < k ∧ isDesc z (s.paths s.winner_q) ∧ isDesc v z ∧
      (s.loser_e z).time ≤ (s.loser_e ur).time := by
  obtain ⟨hsrc_lt, hsrc_ne, hsrc_inj, hsrc_sur⟩ := srcs_facts hI.srcs
  have hP1 : 1 ≤ s.paths s.winner_q := (hI.sb.2.1 s.winner_q hI.sb.1).1
  obtain ⟨c, hc1, hcur, hcP, hlow⟩ := lca_exists ur (s.paths s.winner_q) hur1 hP1
  have hvc : isDesc v c := hlow v hin hvchain
  have hcne : c ≠ ur := by
    intro heq
    exact hoff (heq ▸ hcP)
  obtain ⟨e, he⟩ := hcur
  match e, he with
  | 0, he => exact absurd (by simpa using he.symm) hcne
  | e + 1, he =>
  -- the child of the lca toward `ur`
  have hccc : (ur / 2 ^ e) / 2 = c := by
    rw [Nat.div_div_eq_div_mul, ← pow_succ]
    exact he
  have hcc_ur : isDesc (ur / 2 ^ e) ur := ⟨e, rfl⟩
  have hcc1 : 1 ≤ ur / 2 ^ e := by omega
  have hcck : ur / 2 ^ e < k := by
    have := Nat.div_le_self ur (2 ^ e)
    omega
  have hcc2c : 2 * c ≤ ur / 2 ^ e := by omega
  have hccP : ¬ isDesc (ur / 2 ^ e) (s.paths s.winner_q) := by
    intro hd
    have := isDesc_ge hcc1 (hlow _ hcc_ur hd)
    omega
  have hcdesc : isDesc c (ur / 2 ^ e) := ⟨1, by simpa using hccc⟩
  -- the escapee of the off-path child subtree
  obtain ⟨iz, hizk, hiz_ent, hiz_out⟩ := minv_outside_exists hI (ur / 2 ^ e) hcc1 hcck
  have hiz_ne_j : iz ≠ s.winner_q := by
    intro heq
    exact hccP (heq ▸ hiz_ent)
  have hiz_nstored : ¬ storedIn k s (ur / 2 ^ e) iz := hiz_out.resolve_left hiz_ne_j
  obtain ⟨ue, hue1, huek, hue_src⟩ := hsrc_sur iz hizk hiz_ne_j
  have hue_nin : ¬ isDesc (ur / 2 ^ e) ue := by
    intro hd
    exact hiz_nstored ⟨ue, hue1, huek, hd, hue_src⟩
  have hue_pa : isDesc ue (s.paths iz) := hue_src ▸ hI.a3 ue hue1 huek
  have hcomp := isDesc_comparable hue_pa hiz_ent
  have hue_cc : isDesc ue (ur / 2 ^ e) := hcomp.resolve_right hue_nin
  have hue_ne : ue ≠ ur / 2 ^ e := by
    intro heq
    exact hue_nin (heq ▸ isDesc_refl ue)
  have hue_c : isDesc ue c := hccc ▸ isDesc_parent hue_cc hue_ne
  have hue_chain : isDesc ue (s.paths s.winner_q) := isDesc_trans hue_c hcP
  have hesc := hI.esc (ur / 2 ^ e) iz hcc1 hcck hizk hiz_ne_j hiz_ent hiz_nstored
    ue hue1 huek hue_src ur hur1 hurk hcc_ur
  by_cases hvue : isDesc v ue
  · exact ⟨ue, hue1, huek, hue_chain, hvue, hesc⟩
  · exfalso
    have hizv_ent : isDesc v (s.paths iz) :=
      isDesc_trans (isDesc_trans hvc hcdesc) hiz_ent
    have hstored_v : ¬ storedIn k s v iz := by
      rintro ⟨u', hu'1, hu'k, hdu', hsrc'⟩
      have : u' = ue := hsrc_inj u' ue hu'1 hu'k hue1 huek (by rw [hsrc', hue_src])
      exact hvue (this ▸ hdu')
    have := hI.uniq v iz s.winner_q hv1 hvk hizk hI.sb.1 hizv_ent hvchain
      (Or.inr hstored_v) (Or.inl rfl)
    exact hiz_ne_j this

theorem walkUp_eq {U : Type} (lose : Nat → Event U) (cand : Event U)
    (index : Nat) : walkUp lose cand index = walkUpAux (index + 1) lose cand index := rfl

/-- A nonzero node of the path that lies inside the subtree of the path
node `v` is processed within the first `t + 1` matches. -/
theorem chain_int {P v u t : Nat} (ht : P / 2 ^ t = v) (hv1 : 1 ≤ v)
    (hu1 : 1 ≤ u) (hup : isDesc u P) (hvu : isDesc v u) :
    u ∈ procList (t + 1) P := by
  obtain ⟨e, he⟩ := hup
  obtain ⟨f, hf⟩ := hvu
  have hef : P / 2 ^ (e + f) = v := by
    rw [pow_add, ← Nat.div_div_eq_div_mul, he, hf]
  have : e + f = t := div_pow_eq_inj hv1 hef ht
  rw [procList_mem]
  exact ⟨hu1, e, by omega, he⟩

/-- All nodes processed in the first `t + 1` matches lie inside the
subtree of the path node `v` at height `t`. -/
theorem pproc_sub {P v t z : Nat} (ht : P / 2 ^ t = v)
    (hz : z ∈ procList (t + 1) P) : isDesc v z := by
  obtain ⟨hz1, e, he, hval⟩ := (procList_mem (t + 1) P z).mp hz
  refine ⟨t - e, ?_⟩
  rw [← hval, Nat.div_div_eq_div_mul, ← pow_add, show e + (t - e) = t by omega, ht]

/-- For a subtree node `v` of the champion's path, every queue entering
`v`'s subtree that ends the walk with no representative stored inside it
(or ends it as the new champion) is the source of the moving event that
emerges from `v`'s subtree during the walk. -/
theorem minv_out_char {U : Type} {k : Nat} {lp pm : Nat → Nat} {s : Merger U}
    (hI : MInv k lp pm s) (cand : Event U) (hcand_src : cand.src = s.winner_q)
    (v t : Nat) (hv1 : 1 ≤ v) (hvk : v < k)
    (ht : s.paths s.winner_q / 2 ^ t = v)
    (ix : Nat) (hixk : ix < k) (hent : isDesc v (s.paths ix))
    (hout : ix = (walkUp s.loser_e cand (s.paths s.winner_q)).1.src ∨
      ¬ ∃ u, 1 ≤ u ∧ u < k ∧ isDesc v u ∧
        ((walkUp s.loser_e cand (s.paths s.winner_q)).2 u).src = ix) :
    ix = (walkUpAux (t + 1) s.loser_e cand (s.paths s.winner_q)).1.src := by
  obtain ⟨hsrc_lt, hsrc_ne, hsrc_inj, hsrc_sur⟩ := srcs_facts hI.srcs
  have hj : s.winner_q < k := hI.sb.1
  have hP1 : 1 ≤ s.paths s.winner_q := (hI.sb.2.1 s.winner_q hj).1
  have hPk : s.paths s.winner_q < k := (hI.sb.2.1 s.winner_q hj).2
  have hvP : isDesc v (s.paths s.winner_q) := ⟨t, ht⟩
  have htP : t ≤ s.paths s.winner_q := by
    have h1 : 2 ^ t ≤ s.paths s.winner_q := by
      by_contra hlt
      rw [Nat.div_eq_of_lt (by omega)] at ht
      omega
    have h2 : t < 2 ^ t := Nat.lt_two_pow t
    omega
  have hcomp : walkUpAux (s.paths s.winner_q + 1) s.loser_e cand (s.paths s.winner_q) =
      walkUpAux (s.paths s.winner_q - t)
        (walkUpAux (t + 1) s.loser_e cand (s.paths s.winner_q)).2
        (walkUpAux (t + 1) s.loser_e cand (s.paths s.winner_q)).1
        (s.paths s.winner_q / 2 ^ (t + 1)) := by
    rw [show s.paths s.winner_q + 1 = (t + 1) + (s.paths s.winner_q - t) by omega]
    exact walkUpAux_comp (t + 1) (s.paths s.winner_q - t) s.loser_e cand
      (s.paths s.winner_q)
  have hv2 : s.paths s.winner_q / 2 ^ (t + 1) = v / 2 := by
    rw [pow_succ, ← Nat.div_div_eq_div_mul, ht]
  -- suffix processed nodes are strictly above the subtree of v
  have hsuffix_small : ∀ z ∈ procList (s.paths s.winner_q - t)
      (s.paths s.winner_q / 2 ^ (t + 1)), z < v := by
    intro z hz
    have h1 : z ≤ s.paths s.winner_q / 2 ^ (t + 1) := procList_le hz
    rw [hv2] at h1
    have h2 : v / 2 < v := Nat.div_lt_self (by omega) (by norm_num)
    omega
  -- prefix-processed nodes keep their prefix values to the end of the walk
  have hkeep : ∀ z ∈ procList (t + 1) (s.paths s.winner_q),
      (walkUp s.loser_e cand (s.paths s.winner_q)).2 z =
        (walkUpAux (t + 1) s.loser_e cand (s.paths s.winner_q)).2 z := by
    intro z hz
    have hge : v ≤ z := isDesc_ge hv1 (pproc_sub ht hz)
    rw [walkUp_eq, hcomp]
    refine walkUpAux_untouched _ _ _ _ _ ?_
    intro hmem
    have := hsuffix_small z hmem
    omega
  -- where the full winner can come from
  have hfull_mem := walkUpAux_mem (s.paths s.winner_q - t)
    (walkUpAux (t + 1) s.loser_e cand (s.paths s.winner_q)).2
    (walkUpAux (t + 1) s.loser_e cand (s.paths s.winner_q)).1
    (s.paths s.winner_q / 2 ^ (t + 1))
  -- suffix slots hold old values at the start of the suffix walk
  have hsuffix_old : ∀ z ∈ procList (s.paths s.winner_q - t)
      (s.paths s.winner_q / 2 ^ (t + 1)),
      (walkUpAux (t + 1) s.loser_e cand (s.paths s.winner_q)).2 z = s.loser_e z := by
    intro z hz
    refine walkUpAux_untouched _ _ _ _ _ ?_
    intro hmem
    have h1 := hsuffix_small z hz
    have h2 : v ≤ z := isDesc_ge hv1 (pproc_sub ht hmem)
    omega
  -- suffix processed nodes are real slots
  have hsuffix_k : ∀ z ∈ procList (s.paths s.winner_q - t)
      (s.paths s.winner_q / 2 ^ (t + 1)), 1 ≤ z ∧ z < k := by
    intro z hz
    have := hsuffix_small z hz
    exact ⟨procList_pos hz, by omega⟩
  -- the full winner's source: the prefix winner's source, or a stored
  -- loser from strictly above the subtree of v
  have hwin_src : (walkUp s.loser_e cand (s.paths s.winner_q)).1 =
        (walkUpAux (t + 1) s.loser_e cand (s.paths s.winner_q)).1 ∨
      ∃ z, 1 ≤ z ∧ z < k ∧ ¬ isDesc v z ∧ isDesc z (s.paths s.winner_q) ∧
        (walkUp s.loser_e cand (s.paths s.winner_q)).1 = s.loser_e z := by
    rw [walkUp_eq, hcomp]
    rcases hfull_mem with h | ⟨z, hz, h⟩
    · exact Or.inl h
    · obtain ⟨hz1, hzk⟩ := hsuffix_k z hz
      refine Or.inr ⟨z, hz1, hzk, ?_, ?_, by rw [h, hsuffix_old z hz]⟩
      · intro hd
        have := isDesc_ge hv1 hd
        have := hsuffix_small z hz
        omega
      · obtain ⟨e, he⟩ := procList_isDesc hz
        refine ⟨(t + 1) + e, ?_⟩
        rw [pow_add, ← Nat.div_div_eq_div_mul]
        exact he
  by_cases hix_j : ix = s.winner_q
  · -- the previous champion: if the candidate was parked inside v's
    -- subtree it is stored there, contradicting `hout`
    subst hix_j
    by_contra hne
    have hmv_ne : (walkUpAux (t + 1) s.loser_e cand (s.paths s.winner_q)).1 ≠ cand := by
      intro heq
      exact hne (by rw [heq, hcand_src])
    have hpark := walkUpAux_park (t + 1) s.loser_e cand (s.paths s.winner_q)
    rcases hpark with h | ⟨z, hz, h⟩
    · exact hmv_ne h
    have hzv : isDesc v z := pproc_sub ht hz
    have hz1 : 1 ≤ z := procList_pos hz
    have hzk : z < k := by
      have := procList_le hz
      omega
    have hstored : ∃ u, 1 ≤ u ∧ u < k ∧ isDesc v u ∧
        ((walkUp s.loser_e cand (s.paths s.winner_q)).2 u).src = s.winner_q := by
      refine ⟨z, hz1, hzk, hzv, ?_⟩
      rw [hkeep z hz, h, hcand_src]
    rcases hout with hout | hout
    · -- the full winner's source cannot be the old champion here
      rcases hwin_src with hw | ⟨z', hz'1, hz'k, hz'nv, hz'chain, hw⟩
      · exact hne (hout.trans (congrArg Event.src hw))
      · exact hsrc_ne z' hz'1 hz'k (by rw [← hw, ← hout])
    · exact hout hstored
  · -- a queue other than the previous champion
    have hnstored_old : ¬ ¬ storedIn k s v ix := by
      intro hnst
      exact hix_j (hI.uniq v ix s.winner_q hv1 hvk hixk hj hent hvP
        (Or.inr hnst) (Or.inl rfl))
    rw [not_not] at hnstored_old
    obtain ⟨uix, hu1, huk, hdu, hsrcu⟩ := hnstored_old
    by_cases huix_chain : isDesc uix (s.paths s.winner_q)
    · -- the old representative sits on the processed prefix
      have huix_proc : uix ∈ procList (t + 1) (s.paths s.winner_q) :=
        chain_int ht hv1 hu1 huix_chain hdu
      by_contra hne
      -- filter the chain permutation to sources equal to ix: the old
      -- representative survives somewhere on the prefix
      have hperm := walkUpAux_perm (t + 1) s.loser_e cand (s.paths s.winner_q)
      have hfil := hperm.filter (fun ev => ev.src == ix)
      have hmem_old : s.loser_e uix ∈
          (((procList (t + 1) (s.paths s.winner_q)).map s.loser_e) ++
            [cand]).filter (fun ev => ev.src == ix) := by
        rw [List.mem_filter]
        exact ⟨List.mem_append_left _ (List.mem_map_of_mem _ huix_proc),
          by simp [hsrcu]⟩
      have hmem_new := hfil.mem_iff.mpr hmem_old
      rw [List.filter_append, List.mem_append] at hmem_new
      rcases hmem_new with hmem_new | hmem_new
      · rw [List.mem_filter] at hmem_new
        obtain ⟨hmem_new, hsrc_new⟩ := hmem_new
        obtain ⟨z, hzproc, hzev⟩ := List.mem_map.mp hmem_new
        have hz1 : 1 ≤ z := procList_pos hzproc
        have hzk : z < k := by
          have h1 := procList_le hzproc
          omega
        have hstored : ∃ u, 1 ≤ u ∧ u < k ∧ isDesc v u ∧
            ((walkUp s.loser_e cand (s.paths s.winner_q)).2 u).src = ix := by
          refine ⟨z, hz1, hzk, pproc_sub ht hzproc, ?_⟩
          rw [hkeep z hzproc, hzev, hsrcu]
        rcases hout with hout | hout
        · rcases hwin_src with hw | ⟨z', hz'1, hz'k, hz'nv, hz'chain, hw⟩
          · exact hne (hout.trans (congrArg Event.src hw))
          · have : z' = uix := hsrc_inj z' uix hz'1 hz'k hu1 huk
              (by rw [← hw, ← hout, hsrcu])
            subst this
            exact hz'nv hdu
        · exact hout hstored
      · rw [List.mem_filter] at hmem_new
        obtain ⟨hmem_new, hsrc_new⟩ := hmem_new
        rw [List.mem_singleton] at hmem_new
        rw [hmem_new] at hsrc_new
        simp only [beq_iff_eq] at hsrc_new
        exact hne hsrc_new.symm
    · -- the old representative is off the champion's path: it is untouched
      have huix_nproc : uix ∉ procList (s.paths s.winner_q + 1) (s.paths s.winner_q) := by
        intro hmem
        exact huix_chain (procList_isDesc hmem)
      have hsame : (walkUp s.loser_e cand (s.paths s.winner_q)).2 uix = s.loser_e uix := by
        rw [walkUp_eq]
        exact walkUpAux_untouched _ _ _ _ _ huix_nproc
      have hstored : ∃ u, 1 ≤ u ∧ u < k ∧ isDesc v u ∧
          ((walkUp s.loser_e cand (s.paths s.winner_q)).2 u).src = ix :=
        ⟨uix, hu1, huk, hdu, by rw [hsame, hsrcu]⟩
      rcases hout with hout | hout
      · rcases hwin_src with hw | ⟨z', hz'1, hz'k, hz'nv, hz'chain, hw⟩
        · rw [hout, hw]
        · exfalso
          have : z' = uix := hsrc_inj z' uix hz'1 hz'k hu1 huk
            (by rw [← hw, ← hout, hsrcu])
          subst this
          exact huix_chain hz'chain
      · exact (hout hstored).elim

/-- Two duplicate-free lists with the same members are permutations. -/
theorem perm_of_nodup_mem_iff :
    ∀ (L M : List Nat), L.Nodup → M.Nodup → (∀ z, z ∈ L ↔ z ∈ M) → L.Perm M := by
  intro L
  induction L with
  | nil =>
    intro M _ _ h
    cases M with
    | nil => exact List.Perm.refl _
    | cons m M => exact absurd ((h m).mpr (List.mem_cons_self m M)) (List.not_mem_nil m)
  | cons a L ih =>
    intro M hL hM h
    have haM : a ∈ M := (h a).mp (List.mem_cons_self a L)
    have hperm2 : M.Perm (a :: M.erase a) := List.perm_cons_erase haM
    refine List.Perm.trans ?_ hperm2.symm
    refine List.Perm.cons a (ih (M.erase a) hL.of_cons (hM.erase a) ?_)
    intro z
    constructor
    · intro hz
      have hza : z ≠ a := fun e => (List.nodup_cons.mp hL).1 (e ▸ hz)
      exact hM.mem_erase_iff.mpr ⟨hza, (h z).mp (List.mem_cons_of_mem a hz)⟩
    · intro hz
      obtain ⟨hza, hzM⟩ := hM.mem_erase_iff.mp hz
      rcases List.mem_cons.mp ((h z).mpr hzM) with e | hzL
      · exact absurd e hza
      · exact hzL

/-- A duplicate-free list splits, up to permutation, into a duplicate-free
subset and the rest. -/
theorem split_perm (L M : List Nat) (hL : L.Nodup) (hM : M.Nodup)
    (hsub : ∀ z ∈ M, z ∈ L) :
    L.Perm (M ++ L.filter (fun z => decide (z ∉ M))) := by
  refine perm_of_nodup_mem_iff L _ hL ?_ ?_
  · rw [List.nodup_append]
    refine ⟨hM, List.Nodup.filter _ hL, ?_⟩
    intro z hzM hzf
    rw [List.mem_filter, decide_eq_true_eq] at hzf
    exact hzf.2 hzM
  · intro z
    rw [List.mem_append, List.mem_filter, decide_eq_true_eq]
    constructor
    · intro hz
      by_cases hzM : z ∈ M
      · exact Or.inl hzM
      · exact Or.inr ⟨hz, hzM⟩
    · rintro (hz | ⟨hz, _⟩)
      · exact hsub z hz
      · exact hz

/-- Splitting the full walk at a path node `v`: slots inside `v`'s subtree
keep their prefix values, and the moving event that emerges from `v`'s
subtree either wins the walk or is parked strictly above the subtree. -/
theorem walk_prefix_facts {U : Type} (lose : Nat → Event U) (cand : Event U)
    (P t v : Nat) (hv1 : 1 ≤ v) (ht : P / 2 ^ t = v) :
    (∀ z ∈ procList (t + 1) P,
      (walkUpAux (P + 1) lose cand P).2 z = (walkUpAux (t + 1) lose cand P).2 z) ∧
    ((walkUpAux (P + 1) lose cand P).1 = (walkUpAux (t + 1) lose cand P).1 ∨
      ∃ z', 1 ≤ z' ∧ z' < v ∧
        (walkUpAux (P + 1) lose cand P).2 z' = (walkUpAux (t + 1) lose cand P).1) := by
  have htP : t ≤ P := by
    have h1 : 2 ^ t ≤ P := by
      by_contra hlt
      rw [Nat.div_eq_of_lt (by omega)] at ht
      omega
    have h2 : t < 2 ^ t := Nat.lt_two_pow t
    omega
  have hcomp : walkUpAux (P + 1) lose cand P =
      walkUpAux (P - t) (walkUpAux (t + 1) lose cand P).2
        (walkUpAux (t + 1) lose cand P).1 (P / 2 ^ (t + 1)) := by
    rw [show P + 1 = (t + 1) + (P - t) by omega]
    exact walkUpAux_comp (t + 1) (P - t) lose cand P
  have hv2 : P / 2 ^ (t + 1) = v / 2 := by
    rw [pow_succ, ← Nat.div_div_eq_div_mul, ht]
  have hsuffix_small : ∀ z ∈ procList (P - t) (P / 2 ^ (t + 1)), z < v := by
    intro z hz
    have h1 := procList_le hz
    rw [hv2] at h1
    have h2 : v / 2 < v := Nat.div_lt_self (by omega) (by norm_num)
    omega
  constructor
  · intro z hz
    have hge : v ≤ z := isDesc_ge hv1 (pproc_sub ht hz)
    rw [hcomp]
    refine walkUpAux_untouched _ _ _ _ _ ?_
    intro hmem
    have := hsuffix_small z hmem
    omega
  · rcases walkUpAux_park (P - t) (walkUpAux (t + 1) lose cand P).2
        (walkUpAux (t + 1) lose cand P).1 (P / 2 ^ (t + 1)) with h | ⟨z', hz', h⟩
    · exact Or.inl (by rw [hcomp, h])
    · refine Or.inr ⟨z', procList_pos hz', hsuffix_small z' hz', ?_⟩
      rw [hcomp]
      exact h

/-- One tournament walk preserves the loser-tree invariant: popping (or
fabricating) a candidate for the previous champion's queue and replaying
its path yields a new champion and loser table satisfying `MInv` for any
watermarks consistent with the candidate, and `safe_time` cannot
decrease. -/
theorem minv_walk {U : Type} {k : Nat} {lp pm pm' : Nat → Nat} {s : Merger U}
    (hI : MInv k lp pm s) (cand : Event U) (q' : Nat → List (Event U))
    (hcand_src : cand.src = s.winner_q)
    (hcand_lo : s.safe_time ≤ cand.time)
    (hcand_pm : cand.time ≤ pm' s.winner_q)
    (hpm_mono : ∀ i, pm i ≤ pm' i)
    (hpm_lp : ∀ i, i < k → pm' i ≤ lp i)
    (hq_sorted : ∀ i, i < k → List.Chain' (fun a b => a.time ≤ b.time) (q' i))
    (hq_lo : ∀ i, i < k → ∀ e ∈ q' i, pm' i ≤ e.time)
    (hq_hi : ∀ i, i < k → ∀ e ∈ q' i, e.time ≤ lp i)
    (hq_zero : ∀ i, k ≤ i → q' i = []) :
    MInv k lp pm'
      { s with
        loser_e := (walkUp s.loser_e cand (s.paths s.winner_q)).2
        in_queues := q'
        winner_q := (walkUp s.loser_e cand (s.paths s.winner_q)).1.src
        safe_time := (walkUp s.loser_e cand (s.paths s.winner_q)).1.time } ∧
      s.safe_time ≤ (walkUp s.loser_e cand (s.paths s.winner_q)).1.time := by
  obtain ⟨hsrc_lt, hsrc_ne, hsrc_inj, hsrc_sur⟩ := srcs_facts hI.srcs
  have hj : s.winner_q < k := hI.sb.1
  have hP1 : 1 ≤ s.paths s.winner_q := (hI.sb.2.1 s.winner_q hj).1
  have hPk : s.paths s.winner_q < k := (hI.sb.2.1 s.winner_q hj).2
  have hk2 : 2 ≤ k := by omega
  have hfp_k : ∀ z ∈ procList (s.paths s.winner_q + 1) (s.paths s.winner_q),
      1 ≤ z ∧ z < k := by
    intro z hz
    have := procList_le hz
    exact ⟨procList_pos hz, by omega⟩
  have hwin := walkUpAux_mem (s.paths s.winner_q + 1) s.loser_e cand
    (s.paths s.winner_q)
  -- safe_time cannot decrease
  have hmono : s.safe_time ≤
      (walkUpAux (s.paths s.winner_q + 1) s.loser_e cand (s.paths s.winner_q)).1.time := by
    rcases hwin with h | ⟨z, hz, h⟩
    · rw [h]
      exact hcand_lo
    · rw [h]
      obtain ⟨hz1, hzk⟩ := hfp_k z hz
      exact hI.g1 z hz1 hzk
  -- the new champion queue index is in range
  have hwin_lt :
      (walkUpAux (s.paths s.winner_q + 1) s.loser_e cand (s.paths s.winner_q)).1.src < k := by
    rcases hwin with h | ⟨z, hz, h⟩
    · rw [h, hcand_src]
      exact hj
    · rw [h]
      obtain ⟨hz1, hzk⟩ := hfp_k z hz
      exact hsrc_lt z hz1 hzk
  -- structural bounds
  have hsb' : (s.winner_q < k → True) → mergerSB k
      { s with
        loser_e := (walkUp s.loser_e cand (s.paths s.winner_q)).2
        in_queues := q'
        winner_q := (walkUp s.loser_e cand (s.paths s.winner_q)).1.src
        safe_time := (walkUp s.loser_e cand (s.paths s.winner_q)).1.time } := by
    intro _
    refine ⟨hwin_lt, hI.sb.2.1, ?_, hq_zero⟩
    intro u hu1 huk
    show ((walkUpAux (s.paths s.winner_q + 1) s.loser_e cand (s.paths s.winner_q)).2 u).src < k
    by_cases hu : u ∈ procList (s.paths s.winner_q + 1) (s.paths s.winner_q)
    · rcases walkUpAux_below _ _ _ _ u hu with h | ⟨z', hz', _, h⟩
      · rw [h, hcand_src]
        exact hj
      · rw [h]
        obtain ⟨hz1, hzk⟩ := hfp_k z' hz'
        exact hsrc_lt z' hz1 hzk
    · rw [walkUpAux_untouched _ _ _ _ _ hu]
      exact hsrc_lt u hu1 huk
  -- the source permutation
  have hLnd : ((List.range k).drop 1).Nodup :=
    List.Nodup.sublist (List.drop_sublist 1 (List.range k)) (List.nodup_range k)
  have hfpsub : ∀ z ∈ procList (s.paths s.winner_q + 1) (s.paths s.winner_q),
      z ∈ (List.range k).drop 1 := by
    intro z hz
    obtain ⟨h1, h2⟩ := hfp_k z hz
    exact mem_drop_one_range.mpr ⟨h1, h2⟩
  have hsplit := split_perm ((List.range k).drop 1)
    (procList (s.paths s.winner_q + 1) (s.paths s.winner_q)) hLnd
    (procList_nodup _ _) hfpsub
  have hsrcs' : (((List.range k).drop 1).map
        (fun u => ((walkUpAux (s.paths s.winner_q + 1) s.loser_e cand
          (s.paths s.winner_q)).2 u).src) ++
      [(walkUpAux (s.paths s.winner_q + 1) s.loser_e cand
        (s.paths s.winner_q)).1.src]).Perm (List.range k) := by
    have hwp := (walkUpAux_perm (s.paths s.winner_q + 1) s.loser_e cand
      (s.paths s.winner_q)).map Event.src
    rw [List.map_append, List.map_append, List.map_map, List.map_map,
      List.map_cons, List.map_nil, List.map_cons, List.map_nil] at hwp
    rw [show Event.src ∘ (walkUpAux (s.paths s.winner_q + 1) s.loser_e cand
        (s.paths s.winner_q)).2 =
      (fun u => ((walkUpAux (s.paths s.winner_q + 1) s.loser_e cand
        (s.paths s.winner_q)).2 u).src) from rfl] at hwp
    rw [show Event.src ∘ s.loser_e = (fun u => (s.loser_e u).src) from rfl] at hwp
    have hA := hsplit.map (fun u => ((walkUpAux (s.paths s.winner_q + 1)
      s.loser_e cand (s.paths s.winner_q)).2 u).src)
    rw [List.map_append] at hA
    have hfil_eq : (((List.range k).drop 1).filter
          (fun z => decide (z ∉ procList (s.paths s.winner_q + 1)
            (s.paths s.winner_q)))).map
          (fun u => ((walkUpAux (s.paths s.winner_q + 1) s.loser_e cand
            (s.paths s.winner_q)).2 u).src) =
        (((List.range k).drop 1).filter
          (fun z => decide (z ∉ procList (s.paths s.winner_q + 1)
            (s.paths s.winner_q)))).map (fun u => (s.loser_e u).src) := by
      refine List.map_congr_left ?_
      intro z hz
      rw [List.mem_filter, decide_eq_true_eq] at hz
      exact congrArg Event.src (walkUpAux_untouched _ _ _ _ _ hz.2)
    rw [hfil_eq] at hA
    refine List.Perm.trans (List.Perm.append_right _ hA) ?_
    rw [List.append_assoc]
    refine List.Perm.trans (List.Perm.append_left _ List.perm_append_comm) ?_
    rw [← List.append_assoc]
    refine List.Perm.trans (List.Perm.append_right _ hwp) ?_
    rw [hcand_src, List.append_assoc]
    refine List.Perm.trans (List.Perm.append_left _ List.perm_append_comm) ?_
    rw [← List.append_assoc]
    refine List.Perm.trans (List.Perm.append_right _ ?_) hI.srcs
    have hB := hsplit.map (fun u => (s.loser_e u).src)
    rw [List.map_append] at hB
    exact hB.symm
  obtain ⟨hsrc_lt', hsrc_ne', hsrc_inj', hsrc_sur'⟩ := srcs_facts hsrcs'
  -- every stored loser sits on its source's path
  have ha3' : ∀ u, 1 ≤ u → u < k →
      isDesc u (s.paths
        ((walkUpAux (s.paths s.winner_q + 1) s.loser_e cand
          (s.paths s.winner_q)).2 u).src) := by
    intro u hu1 huk
    by_cases hu : u ∈ procList (s.paths s.winner_q + 1) (s.paths s.winner_q)
    · rcases walkUpAux_below _ _ _ _ u hu with h | ⟨z', hz', hdz, h⟩
      · rw [h, hcand_src]
        exact procList_isDesc hu
      · rw [h]
        obtain ⟨hz1, hzk⟩ := hfp_k z' hz'
        exact isDesc_trans hdz (hI.a3 z' hz1 hzk)
    · rw [walkUpAux_untouched _ _ _ _ _ hu]
      exact hI.a3 u hu1 huk
  -- safe_time bounds every stored loser
  have hg1' : ∀ u, 1 ≤ u → u < k →
      (walkUpAux (s.paths s.winner_q + 1) s.loser_e cand (s.paths s.winner_q)).1.time ≤
        ((walkUpAux (s.paths s.winner_q + 1) s.loser_e cand
          (s.paths s.winner_q)).2 u).time := by
    intro u hu1 huk
    by_cases hu : u ∈ procList (s.paths s.winner_q + 1) (s.paths s.winner_q)
    · exact walkUpAux_ge _ _ _ _ u hu
    · rw [walkUpAux_untouched _ _ _ _ _ hu]
      have hoff : ¬ isDesc u (s.paths s.winner_q) := by
        intro hd
        exact hu (procList_full.mpr ⟨hu1, hd⟩)
      obtain ⟨z, hz1, hzk, hzchain, _, hzle⟩ := minv_dom_cover hI 1 le_rfl
        (by omega) (isDesc_one _ hP1) u hu1 huk (isDesc_one u hu1) hoff
      have hzfp : z ∈ procList (s.paths s.winner_q + 1) (s.paths s.winner_q) :=
        procList_full.mpr ⟨hz1, hzchain⟩
      exact le_trans ((walkUpAux_min _ _ _ _).2 z hzfp) hzle
  -- representatives are bounded by their queue's watermark
  have hrep' : ∀ u, 1 ≤ u → u < k →
      ((walkUpAux (s.paths s.winner_q + 1) s.loser_e cand
          (s.paths s.winner_q)).2 u).time ≤
        pm' ((walkUpAux (s.paths s.winner_q + 1) s.loser_e cand
          (s.paths s.winner_q)).2 u).src := by
    intro u hu1 huk
    by_cases hu : u ∈ procList (s.paths s.winner_q + 1) (s.paths s.winner_q)
    · rcases walkUpAux_below _ _ _ _ u hu with h | ⟨z', hz', _, h⟩
      · rw [h, hcand_src]
        exact hcand_pm
      · rw [h]
        obtain ⟨hz1, hzk⟩ := hfp_k z' hz'
        exact le_trans (hI.rep z' hz1 hzk) (hpm_mono _)
    · rw [walkUpAux_untouched _ _ _ _ _ hu]
      exact le_trans (hI.rep u hu1 huk) (hpm_mono _)
  -- the new champion's time is bounded by its queue's watermark
  have hchamp' :
      (walkUpAux (s.paths s.winner_q + 1) s.loser_e cand (s.paths s.winner_q)).1.time ≤
        pm' (walkUpAux (s.paths s.winner_q + 1) s.loser_e cand
          (s.paths s.winner_q)).1.src := by
    rcases hwin with h | ⟨z, hz, h⟩
    · rw [h, hcand_src]
      exact hcand_pm
    · rw [h]
      obtain ⟨hz1, hzk⟩ := hfp_k z hz
      exact le_trans (hI.rep z hz1 hzk) (hpm_mono _)
  -- uniqueness of the outside entrant
  have huniq' : ∀ v ix iy, 1 ≤ v → v < k → ix < k → iy < k →
      isDesc v (s.paths ix) → isDesc v (s.paths iy) →
      (ix = (walkUpAux (s.paths s.winner_q + 1) s.loser_e cand
          (s.paths s.winner_q)).1.src ∨
        ¬ ∃ u, 1 ≤ u ∧ u < k ∧ isDesc v u ∧
          ((walkUpAux (s.paths s.winner_q + 1) s.loser_e cand
            (s.paths s.winner_q)).2 u).src = ix) →
      (iy = (walkUpAux (s.paths s.winner_q + 1) s.loser_e cand
          (s.paths s.winner_q)).1.src ∨
        ¬ ∃ u, 1 ≤ u ∧ u < k ∧ isDesc v u ∧
          ((walkUpAux (s.paths s.winner_q + 1) s.loser_e cand
            (s.paths s.winner_q)).2 u).src = iy) → ix = iy := by
    intro v ix iy hv1 hvk hixk hiyk hentx henty houtx houty
    by_cases hvchain : isDesc v (s.paths s.winner_q)
    · obtain ⟨t, ht⟩ := hvchain
      have hx := minv_out_char hI cand hcand_src v t hv1 hvk ht ix hixk hentx houtx
      have hy := minv_out_char hI cand hcand_src v t hv1 hvk ht iy hiyk henty houty
      rw [hx, hy]
    · -- off the champion's path: nothing inside the subtree moved
      have hsi : ∀ ix', (∃ u, 1 ≤ u ∧ u < k ∧ isDesc v u ∧
          ((walkUpAux (s.paths s.winner_q + 1) s.loser_e cand
            (s.paths s.winner_q)).2 u).src = ix') ↔ storedIn k s v ix' := by
        intro ix'
        constructor
        · rintro ⟨u, h1, h2, h3, h4⟩
          have hun : u ∉ procList (s.paths s.winner_q + 1) (s.paths s.winner_q) :=
            fun hm => hvchain (isDesc_trans h3 (procList_isDesc hm))
          rw [walkUpAux_untouched _ _ _ _ _ hun] at h4
          exact ⟨u, h1, h2, h3, h4⟩
        · rintro ⟨u, h1, h2, h3, h4⟩
          have hun : u ∉ procList (s.paths s.winner_q + 1) (s.paths s.winner_q) :=
            fun hm => hvchain (isDesc_trans h3 (procList_isDesc hm))
          refine ⟨u, h1, h2, h3, ?_⟩
          rw [walkUpAux_untouched _ _ _ _ _ hun]
          exact h4
      have hchampmap : ∀ ix', ix' < k → isDesc v (s.paths ix') →
          ix' = (walkUpAux (s.paths s.winner_q + 1) s.loser_e cand
            (s.paths s.winner_q)).1.src → ¬ storedIn k s v ix' := by
        intro ix' hix'k hent' heq
        rcases hwin with hc | ⟨z, hzfp, hzeq⟩
        · have : ix' = s.winner_q := by rw [heq, hc, hcand_src]
          exact absurd (this ▸ hent') hvchain
        · rintro ⟨u, h1, h2, h3, h4⟩
          obtain ⟨hz1, hzk⟩ := hfp_k z hzfp
          have : u = z := hsrc_inj u z h1 h2 hz1 hzk (by rw [h4, heq, hzeq])
          subst this
          exact hvchain (isDesc_trans h3 (procList_isDesc hzfp))
      have houtx' : ix = s.winner_q ∨ ¬ storedIn k s v ix := by
        rcases houtx with h | h
        · exact Or.inr (hchampmap ix hixk hentx h)
        · exact Or.inr (fun hst => h ((hsi ix).mpr hst))
      have houty' : iy = s.winner_q ∨ ¬ storedIn k s v iy := by
        rcases houty with h | h
        · exact Or.inr (hchampmap iy hiyk henty h)
        · exact Or.inr (fun hst => h ((hsi iy).mpr hst))
      exact hI.uniq v ix iy hv1 hvk hixk hiyk hentx henty houtx' houty'
  -- escapee minimality
  have hesc' : ∀ v ix, 1 ≤ v → v < k → ix < k →
      ix ≠ (walkUpAux (s.paths s.winner_q + 1) s.loser_e cand
        (s.paths s.winner_q)).1.src →
      isDesc v (s.paths ix) →
      ¬ (∃ u, 1 ≤ u ∧ u < k ∧ isDesc v u ∧
        ((walkUpAux (s.paths s.winner_q + 1) s.loser_e cand
          (s.paths s.winner_q)).2 u).src = ix) →
      ∀ u2, 1 ≤ u2 → u2 < k →
        ((walkUpAux (s.paths s.winner_q + 1) s.loser_e cand
          (s.paths s.winner_q)).2 u2).src = ix →
      ∀ u, 1 ≤ u → u < k → isDesc v u →
        ((walkUpAux (s.paths s.winner_q + 1) s.loser_e cand
          (s.paths s.winner_q)).2 u2).time ≤
        ((walkUpAux (s.paths s.winner_q + 1) s.loser_e cand
          (s.paths s.winner_q)).2 u).time := by
    intro v ix hv1 hvk hixk hix_ne hent hnst u2 hu21 hu2k hu2src u hu1 huk hdu
    by_cases hvchain : isDesc v (s.paths s.winner_q)
    · obtain ⟨t, ht⟩ := hvchain
      have hixchar := minv_out_char hI cand hcand_src v t hv1 hvk ht ix hixk hent
        (Or.inr hnst)
      obtain ⟨hkeep, hpark⟩ := walk_prefix_facts s.loser_e cand
        (s.paths s.winner_q) t v hv1 ht
      rcases hpark with hfullmv | ⟨z', hz'1, hz'v, hz'eq⟩
      · exact absurd (hixchar.trans (congrArg Event.src hfullmv).symm) hix_ne
      · have hz'k : z' < k := by omega
        have hu2z : u2 = z' := hsrc_inj' u2 z' hu21 hu2k hz'1 hz'k
          (by rw [hu2src, hz'eq, ← hixchar])
        subst hu2z
        rw [hz'eq]
        by_cases hufp : u ∈ procList (t + 1) (s.paths s.winner_q)
        · rw [hkeep u hufp]
          exact walkUpAux_ge _ _ _ _ u hufp
        · have hoffu : ¬ isDesc u (s.paths s.winner_q) := by
            intro hd
            exact hufp (chain_int ht hv1 hu1 hd hdu)
          have hunfull : u ∉ procList (s.paths s.winner_q + 1) (s.paths s.winner_q) :=
            fun hm => hoffu (procList_isDesc hm)
          rw [walkUpAux_untouched _ _ _ _ _ hunfull]
          obtain ⟨z, hz1, hzk, hzchain, hzv, hzle⟩ := minv_dom_cover hI v hv1 hvk
            ⟨t, ht⟩ u hu1 huk hdu hoffu
          have hzfp : z ∈ procList (t + 1) (s.paths s.winner_q) :=
            chain_int ht hv1 hz1 hzchain hzv
          exact le_trans ((walkUpAux_min _ _ _ _).2 z hzfp) hzle
    · -- off the champion's path
      have hix_ne_j : ix ≠ s.winner_q := by
        intro heq
        exact hvchain (heq ▸ hent)
      have hnst_old : ¬ storedIn k s v ix := by
        rintro ⟨u', h1, h2, h3, h4⟩
        have hun : u' ∉ procList (s.paths s.winner_q + 1) (s.paths s.winner_q) :=
          fun hm => hvchain (isDesc_trans h3 (procList_isDesc hm))
        refine hnst ⟨u', h1, h2, h3, ?_⟩
        rw [walkUpAux_untouched _ _ _ _ _ hun]
        exact h4
      have hu_untouched : (walkUpAux (s.paths s.winner_q + 1) s.loser_e cand
          (s.paths s.winner_q)).2 u = s.loser_e u := by
        refine walkUpAux_untouched _ _ _ _ _ ?_
        intro hm
        exact hvchain (isDesc_trans hdu (procList_isDesc hm))
      rw [hu_untouched]
      by_cases hu2fp : u2 ∈ procList (s.paths s.winner_q + 1) (s.paths s.winner_q)
      · rcases walkUpAux_below _ _ _ _ u2 hu2fp with h | ⟨z', hz', hdz, h⟩
        · rw [h] at hu2src ⊢
          rw [hcand_src] at hu2src
          exact absurd hu2src.symm hix_ne_j
        · rw [h] at hu2src ⊢
          obtain ⟨hz1, hzk⟩ := hfp_k z' hz'
          exact hI.esc v ix hv1 hvk hixk hix_ne_j hent hnst_old z' hz1 hzk hu2src
            u hu1 huk hdu
      · rw [walkUpAux_untouched _ _ _ _ _ hu2fp] at hu2src ⊢
        exact hI.esc v ix hv1 hvk hixk hix_ne_j hent hnst_old u2 hu21 hu2k hu2src
          u hu1 huk hdu
  refine ⟨⟨hsb' (fun _ => trivial), hsrcs', ha3', hI.cnt, huniq', hesc', hg1',
    hq_sorted, hq_lo, hq_hi, hrep', hchamp', hpm_lp⟩, hmono⟩

/-- In a sorted queue the head is no later than every later element. -/
theorem chain_head_le {U : Type} :
    ∀ (rest : List (Event U)) (e0 : Event U),
      List.Chain' (fun a b => a.time ≤ b.time) (e0 :: rest) →
      ∀ e ∈ rest, e0.time ≤ e.time := by
  intro rest
  induction rest with
  | nil =>
    intro e0 _ e he
    exact absurd he (List.not_mem_nil e)
  | cons r rs ih =>
    intro e0 hchain e he
    have h1 : e0.time ≤ r.time := (List.chain'_cons.mp hchain).1
    rcases List.mem_cons.mp he with rfl | he2
    · exact h1
    · exact le_trans h1 (ih r (List.chain'_cons.mp hchain).2 e he2)

/-- One iteration of the merge loop preserves the invariant (with the
watermark updated by the pop) and cannot decrease `safe_time`; the
iteration's winner carries the new `safe_time`. -/
theorem minv_iterCore {U : Type} {k : Nat} {lp pm : Nat → Nat} {s : Merger U}
    (hI : MInv k lp pm s) :
    MInv k lp (pmAfter s pm) (s.iterCore).2 ∧
      s.safe_time ≤ (s.iterCore).2.safe_time ∧
      (s.iterCore).1.time = (s.iterCore).2.safe_time := by
  have hj : s.winner_q < k := hI.sb.1
  rcases hq : s.in_queues s.winner_q with _ | ⟨e0, rest⟩
  · rw [Merger.iterCore_stall s hq]
    have hpmA : pmAfter s pm = pm := by
      unfold pmAfter
      rw [hq]
    rw [hpmA]
    obtain ⟨hminv, hmono⟩ := minv_walk hI
      { time := s.safe_time, src := s.winner_q, event_type := EventType.Stalled }
      s.in_queues rfl le_rfl hI.champ (fun _ => le_rfl) hI.pmlp hI.qsorted hI.qlo
      hI.qhi hI.sb.2.2.2
    exact ⟨hminv, hmono, rfl⟩
  · rw [Merger.iterCore_pop s e0 rest hq]
    have hpmA : pmAfter s pm = Function.update pm s.winner_q e0.time := by
      unfold pmAfter
      rw [hq]
    rw [hpmA]
    have he0mem : e0 ∈ s.in_queues s.winner_q := by
      rw [hq]
      exact List.mem_cons_self _ _
    have he0pm : pm s.winner_q ≤ e0.time := hI.qlo _ hj e0 he0mem
    have he0lp : e0.time ≤ lp s.winner_q := hI.qhi _ hj e0 he0mem
    have hsort := hI.qsorted s.winner_q hj
    rw [hq] at hsort
    have hpm'wq : Function.update pm s.winner_q e0.time s.winner_q = e0.time :=
      Function.update_same _ _ _
    obtain ⟨hminv, hmono⟩ := minv_walk hI { e0 with src := s.winner_q }
      (Function.update s.in_queues s.winner_q rest) rfl
      (le_trans hI.champ he0pm)
      (le_of_eq hpm'wq.symm)
      (by
        intro i
        by_cases hi : i = s.winner_q
        · subst hi
          rw [Function.update_same]
          exact he0pm
        · rw [Function.update_noteq hi])
      (by
        intro i hik
        by_cases hi : i = s.winner_q
        · subst hi
          rw [Function.update_same]
          exact he0lp
        · rw [Function.update_noteq hi]
          exact hI.pmlp i hik)
      (by
        intro i hik
        by_cases hi : i = s.winner_q
        · subst hi
          rw [Function.update_same]
          exact hsort.tail
        · rw [Function.update_noteq hi]
          exact hI.qsorted i hik)
      (by
        intro i hik e he
        by_cases hi : i = s.winner_q
        · subst hi
          rw [Function.update_same] at he
          rw [Function.update_same]
          exact chain_head_le rest e0 hsort e he
        · rw [Function.update_noteq hi] at he
          rw [Function.update_noteq hi]
          exact hI.qlo i hik e he)
      (by
        intro i hik e he
        by_cases hi : i = s.winner_q
        · subst hi
          rw [Function.update_same] at he
          refine hI.qhi _ hj e ?_
          rw [hq]
          exact List.mem_cons_of_mem _ he
        · rw [Function.update_noteq hi] at he
          exact hI.qhi i hik e he)
      (by
        intro i hik
        rw [Function.update_noteq (by omega)]
        exact hI.sb.2.2.2 i hik)
    exact ⟨hminv, hmono, rfl⟩

/-- Appending an event no earlier than everything previously pushed keeps
a queue sorted. -/
theorem chain_snoc {U : Type} :
    ∀ (l : List (Event U)) (e : Event U),
      List.Chain' (fun a b => a.time ≤ b.time) l →
      (∀ x ∈ l, x.time ≤ e.time) →
      List.Chain' (fun a b => a.time ≤ b.time) (l ++ [e]) := by
  intro l
  induction l with
  | nil => intro e _ _; exact List.chain'_singleton e
  | cons a l ih =>
    intro e hchain hle
    cases l with
    | nil =>
      refine List.chain'_cons.mpr ⟨?_, List.chain'_singleton e⟩
      exact hle a (List.mem_cons_self a [])
    | cons b l' =>
      refine List.chain'_cons.mpr ⟨(List.chain'_cons.mp hchain).1, ?_⟩
      exact ih e (List.chain'_cons.mp hchain).2
        (fun x hx => hle x (List.mem_cons_of_mem a hx))

/-- A producer push respecting the per-queue contract (`lp i ≤ e.time`)
preserves the invariant, raising that queue's push watermark. -/
theorem minv_push {U : Type} {k : Nat} {lp pm : Nat → Nat} {s : Merger U}
    (hI : MInv k lp pm s) (i : Nat) (e : Event U) (hik : i < k)
    (hlp : lp i ≤ e.time) :
    MInv k (Function.update lp i e.time) pm (mergerPush s i e) := by
  refine ⟨mergerPush_SB k s i e hik hI.sb, hI.srcs, hI.a3, hI.cnt, hI.uniq,
    hI.esc, hI.g1, ?_, ?_, ?_, hI.rep, hI.champ, ?_⟩
  · intro i2 hi2
    show List.Chain' _ (Function.update s.in_queues i (s.in_queues i ++ [e]) i2)
    by_cases hi : i2 = i
    · subst hi
      rw [Function.update_same]
      refine chain_snoc _ e (hI.qsorted i2 hi2) ?_
      intro x hx
      exact le_trans (hI.qhi i2 hi2 x hx) hlp
    · rw [Function.update_noteq hi]
      exact hI.qsorted i2 hi2
  · intro i2 hi2 e2 he2
    rw [show (mergerPush s i e).in_queues =
      Function.update s.in_queues i (s.in_queues i ++ [e]) from rfl] at he2
    by_cases hi : i2 = i
    · subst hi
      rw [Function.update_same] at he2
      rcases List.mem_append.mp he2 with h | h
      · exact hI.qlo i2 hi2 e2 h
      · rw [List.mem_singleton.mp h]
        exact le_trans (hI.pmlp i2 hi2) hlp
    · rw [Function.update_noteq hi] at he2
      exact hI.qlo i2 hi2 e2 he2
  · intro i2 hi2 e2 he2
    rw [show (mergerPush s i e).in_queues =
      Function.update s.in_queues i (s.in_queues i ++ [e]) from rfl] at he2
    by_cases hi : i2 = i
    · subst hi
      rw [Function.update_same] at he2
      rw [Function.update_same]
      rcases List.mem_append.mp he2 with h | h
      · exact le_trans (hI.qhi i2 hi2 e2 h) hlp
      · rw [List.mem_singleton.mp h]
    · rw [Function.update_noteq hi] at he2
      rw [Function.update_noteq hi]
      exact hI.qhi i2 hi2 e2 he2
  · intro i2 hi2
    by_cases hi : i2 = i
    · subst hi
      rw [Function.update_same]
      exact le_trans (hI.pmlp i2 hi2) hlp
    · rw [Function.update_noteq hi]
      exact hI.pmlp i2 hi2

/-! ### The initial loser-tree layout of `Merger::new`

The initial placement stores the representative of queue `ix` at the
`ix-1`-st node of the in-order traversal; the structural invariant
clauses then follow from the correspondence between subtrees of the
truncated tree and intervals of queue indices, driven by the virtual
leaf layout `ix ↦ 2^L + v_ix` of `Merger::new`. -/

theorem div_between {x v e : Nat} :
    x / 2 ^ e = v ↔ v * 2 ^ e ≤ x ∧ x < (v + 1) * 2 ^ e := by
  have hpos : 0 < 2 ^ e := Nat.pos_pow_of_pos e (by norm_num)
  constructor
  · intro h
    have hA : v * 2 ^ e + x % 2 ^ e = x := by
      rw [← h]
      exact Nat.div_add_mod' x (2 ^ e)
    have hB : v * 2 ^ e + 2 ^ e = (v + 1) * 2 ^ e := by ring
    have hmod := Nat.mod_lt x hpos
    omega
  · rintro ⟨hle, hlt⟩
    exact Nat.div_eq_of_lt_le hle hlt

/-- Strict descendants pass through one of the two children. -/
theorem isDesc_child {v x : Nat} (h : isDesc v x) (hne : x ≠ v) :
    isDesc (2 * v) x ∨ isDesc (2 * v + 1) x := by
  obtain ⟨e, he⟩ := h
  match e, he with
  | 0, he => exact absurd (by simpa using he) hne
  | e + 1, he =>
    have hc : x / 2 ^ e / 2 = v := by
      rw [Nat.div_div_eq_div_mul, ← pow_succ]
      exact he
    have hcase : x / 2 ^ e = 2 * v ∨ x / 2 ^ e = 2 * v + 1 := by omega
    rcases hcase with h | h
    · exact Or.inl ⟨e, h⟩
    · exact Or.inr ⟨e, h⟩

/-- Every positive number lies in a dyadic class. -/
theorem exists_pow_class (u : Nat) (hu : 1 ≤ u) :
    ∃ c, 2 ^ c ≤ u ∧ u < 2 ^ (c + 1) :=
  ⟨Nat.log 2 u, Nat.pow_log_le_self 2 (by omega),
    Nat.lt_pow_succ_log_self (by norm_num) u⟩

/-- Within one layer of leaves, the height above an ancestor is determined
by the ancestor's dyadic class. -/
theorem layer_height {L x v e c : Nat} (hx1 : 2 ^ L ≤ x) (hx2 : x < 2 ^ (L + 1))
    (hv1 : 2 ^ c ≤ v) (hv2 : v < 2 ^ (c + 1)) (he : x / 2 ^ e = v) :
    e = L - c ∧ e ≤ L ∧ c ≤ L := by
  obtain ⟨hle, hlt⟩ := div_between.mp he
  have h1 : 2 ^ (c + e) ≤ x := by
    rw [pow_add]
    exact le_trans (Nat.mul_le_mul_right _ hv1) hle
  have hce : c + e ≤ L := by
    by_contra hgt
    have : 2 ^ (L + 1) ≤ 2 ^ (c + e) := Nat.pow_le_pow_right (by norm_num) (by omega)
    omega
  have h2 : x < 2 ^ (c + e + 1) := by
    calc x < (v + 1) * 2 ^ e := hlt
    _ ≤ 2 ^ (c + 1) * 2 ^ e := Nat.mul_le_mul_right _ (by omega)
    _ = 2 ^ (c + e + 1) := by
        rw [← pow_add]
        congr 1
        omega
  have hle2 : L ≤ c + e := by
    by_contra hgt
    have : 2 ^ (c + e + 1) ≤ 2 ^ L := Nat.pow_le_pow_right (by norm_num) (by omega)
    omega
  omega

/-- Leaves in the layer under the left child precede those under the
right child. -/
theorem layer_order {L v x y : Nat} (hv : 1 ≤ v)
    (hx1 : 2 ^ L ≤ x) (hx2 : x < 2 ^ (L + 1))
    (hy1 : 2 ^ L ≤ y) (hy2 : y < 2 ^ (L + 1))
    (hdx : isDesc (2 * v) x) (hdy : isDesc (2 * v + 1) y) : x < y := by
  obtain ⟨c, hc1, hc2⟩ := exists_pow_class (2 * v) (by omega)
  have hc1' : 2 ^ c ≤ 2 * v + 1 := by omega
  have hc2' : 2 * v + 1 < 2 ^ (c + 1) := by
    have hev : 2 ^ (c + 1) = 2 * 2 ^ c := by
      rw [pow_succ]
      ring
    omega
  obtain ⟨e, he⟩ := hdx
  obtain ⟨f, hf⟩ := hdy
  obtain ⟨heL, _, _⟩ := layer_height hx1 hx2 hc1 hc2 he
  obtain ⟨hfL, _, _⟩ := layer_height hy1 hy2 hc1' hc2' hf
  have hef : e = f := by omega
  subst hef
  by_contra hge
  have : y / 2 ^ e ≤ x / 2 ^ e := Nat.div_le_div_right (by omega)
  omega

/-- In a duplicate-free list, the position of a fixed nonempty infix is
unique. -/
theorem split_len :
    ∀ (P P' M S S' : List Nat), M ≠ [] → (P ++ M ++ S).Nodup →
      P ++ M ++ S = P' ++ M ++ S' → P.length = P'.length := by
  intro P
  induction P with
  | nil =>
    intro P' M S S' hM hnd heq
    cases P' with
    | nil => rfl
    | cons p' P'' =>
      exfalso
      cases M with
      | nil => exact hM rfl
      | cons m M' =>
        simp only [List.nil_append, List.cons_append] at heq hnd
        injection heq with hhead htail
        have hnm : m ∉ M' ++ S := (List.nodup_cons.mp hnd).1
        refine hnm ?_
        rw [htail]
        simp
  | cons p P ih =>
    intro P' M S S' hM hnd heq
    cases P' with
    | nil =>
      exfalso
      cases M with
      | nil => exact hM rfl
      | cons m M' =>
        simp only [List.cons_append, List.nil_append] at heq hnd
        injection heq with hhead htail
        have hnp : p ∉ P ++ m :: M' ++ S := (List.nodup_cons.mp hnd).1
        refine hnp ?_
        rw [hhead]
        simp
    | cons p' P'' =>
      simp only [List.cons_append] at heq hnd
      injection heq with hhead htail
      have hnd2 : (P ++ M ++ S).Nodup := (List.nodup_cons.mp hnd).2
      have := ih P'' M S S' hM hnd2 htail
      simp only [List.length_cons, this]

/-- A partition of an interval into a lower and an upper part places the
lower part exactly at the first `A.card` positions. -/
theorem interval_split (A B : Finset Nat) (a b : Nat)
    (hunion : A ∪ B = Finset.Icc a b)
    (hdisj : ∀ x, x ∈ A → x ∈ B → False)
    (hord : ∀ x ∈ A, ∀ y ∈ B, x < y) :
    ∀ x, a ≤ x → x ≤ b → (x ∈ A ↔ x < a + A.card) := by
  have hAsub : A ⊆ Finset.Icc a b := by
    intro x hx
    rw [← hunion]
    exact Finset.mem_union_left _ hx
  intro x hax hxb
  constructor
  · intro hxA
    have hsub : Finset.Icc a x ⊆ A := by
      intro y hy
      rw [Finset.mem_Icc] at hy
      have hyab : y ∈ Finset.Icc a b := Finset.mem_Icc.mpr ⟨hy.1, le_trans hy.2 hxb⟩
      rw [← hunion] at hyab
      rcases Finset.mem_union.mp hyab with h | h
      · exact h
      · exact absurd (hord x hxA y h) (by omega)
    have hcard := Finset.card_le_card hsub
    rw [Nat.card_Icc] at hcard
    omega
  · intro hlt
    by_contra hxA
    have hxB : x ∈ B := by
      have hyab : x ∈ Finset.Icc a b := Finset.mem_Icc.mpr ⟨hax, hxb⟩
      rw [← hunion] at hyab
      rcases Finset.mem_union.mp hyab with h | h
      · exact absurd h hxA
      · exact h
    have hsub : A ⊆ Finset.Ico a x := by
      intro y hy
      have hyab := hAsub hy
      rw [Finset.mem_Icc] at hyab
      exact Finset.mem_Ico.mpr ⟨hyab.1, hord y hy x hxB⟩
    have hcard := Finset.card_le_card hsub
    rw [Nat.card_Ico] at hcard
    omega

/-- Every real subtree occupies a contiguous infix of the in-order
traversal. -/
theorem split_exists (k : Nat) :
    ∀ v, 1 ≤ v → v < k → ∃ P S, inord k = P ++ subInord k v ++ S := by
  intro v
  induction v using Nat.strong_induction_on with
  | _ v ih =>
  intro hv1 hvk
  rcases Nat.lt_or_ge v 2 with h2 | h2
  · have hveq : v = 1 := by omega
    subst hveq
    exact ⟨[], [], by simp [inord]⟩
  · have hp1 : 1 ≤ v / 2 := by omega
    have hpk : v / 2 < k := by
      have := Nat.div_le_self v 2
      omega
    have hplt : v / 2 < v := Nat.div_lt_self (by omega) (by norm_num)
    obtain ⟨X, Y, hXY⟩ := ih (v / 2) hplt hp1 hpk
    have hdec := subInord_decomp k (v / 2) hp1 hpk
    have hcase : v = 2 * (v / 2) ∨ v = 2 * (v / 2) + 1 := by omega
    rcases hcase with hv | hv
    · refine ⟨X, (v / 2 :: subInord k (2 * (v / 2) + 1)) ++ Y, ?_⟩
      rw [hXY, hdec, ← hv]
      simp [List.append_assoc]
    · refine ⟨X ++ subInord k (2 * (v / 2)) ++ [v / 2], Y, ?_⟩
      rw [hXY, hdec, ← hv]
      simp [List.append_assoc]

/-- The number of real slots in a subtree is the length of its in-order
traversal. -/
theorem subInord_card (k v : Nat) (hv1 : 1 ≤ v) :
    ((Finset.range k).filter (fun u => 1 ≤ u ∧ isDesc v u)).card =
      (subInord k v).length := by
  have hnd := nodup_subInord k v hv1
  have h1 : (subInord k v).toFinset =
      (Finset.range k).filter (fun u => 1 ≤ u ∧ isDesc v u) := by
    ext x
    rw [List.mem_toFinset, mem_subInord k v x hv1, Finset.mem_filter,
      Finset.mem_range]
    constructor
    · rintro ⟨hxk, hd⟩
      refine ⟨hxk, ?_, hd⟩
      have := isDesc_ge hv1 hd
      omega
    · rintro ⟨hxk, _, hd⟩
      exact ⟨hxk, hd⟩
  rw [← h1, List.toFinset_card_of_nodup hnd]

/-- Abstract leaf-count: if every absent child slot covers exactly one
virtual leaf, every real subtree is entered by one more queue than it has
slots. -/
theorem leaf_count_aux (k L : Nat) (vm : Nat → Nat) (hkL : k ≤ 2 ^ L)
    (hhole : ∀ z, k ≤ z → z / 2 < k → 1 ≤ z / 2 →
      ∃ ix, ix < k ∧ isDesc z (2 ^ L + vm ix) ∧
        ∀ iy, iy < k → isDesc z (2 ^ L + vm iy) → iy = ix) :
    ∀ fuel v, k - v = fuel → 1 ≤ v → v < k →
      ((Finset.range k).filter (fun ix => isDesc v (2 ^ L + vm ix))).card =
        (subInord k v).length + 1 := by
  have hole_card : ∀ c, k ≤ c → c / 2 < k → 1 ≤ c / 2 →
      ((Finset.range k).filter (fun ix => isDesc c (2 ^ L + vm ix))).card = 1 := by
    intro c h1 h2 h3
    obtain ⟨ix0, hix0k, hix0d, huniq⟩ := hhole c h1 h2 h3
    rw [Finset.card_eq_one]
    refine ⟨ix0, ?_⟩
    ext iy
    simp only [Finset.mem_filter, Finset.mem_range, Finset.mem_singleton]
    constructor
    · rintro ⟨hiyk, hiyd⟩
      exact huniq iy hiyk hiyd
    · rintro rfl
      exact ⟨hix0k, hix0d⟩
  intro fuel
  induction fuel using Nat.strong_induction_on with
  | _ fuel ih =>
  intro v hfuel hv1 hvk
  have hsplitset : (Finset.range k).filter (fun ix => isDesc v (2 ^ L + vm ix)) =
      ((Finset.range k).filter (fun ix => isDesc (2 * v) (2 ^ L + vm ix))) ∪
        ((Finset.range k).filter (fun ix => isDesc (2 * v + 1) (2 ^ L + vm ix))) := by
    ext ix
    simp only [Finset.mem_union, Finset.mem_filter, Finset.mem_range]
    constructor
    · rintro ⟨hixk, hd⟩
      have hne : 2 ^ L + vm ix ≠ v := by
        have h9 : k ≤ 2 ^ L + vm ix := le_trans hkL (Nat.le_add_right _ _)
        omega
      rcases isDesc_child hd hne with h | h
      · exact Or.inl ⟨hixk, h⟩
      · exact Or.inr ⟨hixk, h⟩
    · rintro (⟨hixk, h⟩ | ⟨hixk, h⟩)
      · exact ⟨hixk, isDesc_left h⟩
      · exact ⟨hixk, isDesc_right h⟩
  have hdisjset : Disjoint
      ((Finset.range k).filter (fun ix => isDesc (2 * v) (2 ^ L + vm ix)))
      ((Finset.range k).filter (fun ix => isDesc (2 * v + 1) (2 ^ L + vm ix))) := by
    rw [Finset.disjoint_left]
    intro ix h1 h2
    rw [Finset.mem_filter] at h1 h2
    exact isDesc_sibling hv1 h1.2 h2.2
  rw [hsplitset, Finset.card_union_of_disjoint hdisjset,
    subInord_decomp k v hv1 hvk]
  rcases Nat.lt_or_ge (2 * v) k with h2v | h2v
  · rcases Nat.lt_or_ge (2 * v + 1) k with h2v1 | h2v1
    · -- both children real
      have c1 := ih (k - 2 * v) (by omega) (2 * v) rfl (by omega) h2v
      have c2 := ih (k - (2 * v + 1)) (by omega) (2 * v + 1) rfl (by omega) h2v1
      rw [c1, c2]
      simp only [List.length_append, List.length_cons]
      omega
    · -- right child absent
      have c1 := ih (k - 2 * v) (by omega) (2 * v) rfl (by omega) h2v
      have c2 := hole_card (2 * v + 1) h2v1 (by omega) (by omega)
      rw [c1, c2, subInord_nil k (2 * v + 1) h2v1]
      simp only [List.length_append, List.length_cons, List.length_nil]
  · -- both children absent
    have h2v1 : k ≤ 2 * v + 1 := by omega
    have c1 := hole_card (2 * v) h2v (by omega) (by omega)
    have c2 := hole_card (2 * v + 1) h2v1 (by omega) (by omega)
    rw [c1, c2, subInord_nil k (2 * v) h2v, subInord_nil k (2 * v + 1) h2v1]
    simp

/-- Abstract layout correspondence: with a monotone in-range leaf layout
whose holes each cover exactly one queue, the queues entering a real
subtree are exactly the contiguous run of indices aligned with the
subtree's infix of the in-order traversal (one index wider). -/
theorem leaf_interval (k L : Nat) (vm : Nat → Nat) (hkL : k ≤ 2 ^ L)
    (hvmlt : ∀ ix, ix < k → vm ix < 2 ^ L)
    (hvmmono : ∀ ix iy, ix < iy → iy < k → vm ix < vm iy)
    (hhole : ∀ z, k ≤ z → z / 2 < k → 1 ≤ z / 2 →
      ∃ ix, ix < k ∧ isDesc z (2 ^ L + vm ix) ∧
        ∀ iy, iy < k → isDesc z (2 ^ L + vm iy) → iy = ix) :
    ∀ v, 1 ≤ v → v < k → ∀ P S, inord k = P ++ subInord k v ++ S →
      ∀ ix, ix < k →
        (isDesc v (2 ^ L + vm ix) ↔
          (P.length ≤ ix ∧ ix ≤ P.length + (subInord k v).length)) := by
  intro v
  induction v using Nat.strong_induction_on with
  | _ v ih =>
  intro hv1 hvk P S hPS ix hixk
  rcases Nat.lt_or_ge v 2 with hv2 | hv2
  · -- the root: every queue enters, and the interval is everything
    have hveq : v = 1 := by omega
    subst hveq
    have hlen := congrArg List.length hPS
    rw [List.length_append, List.length_append] at hlen
    have hlsub : (subInord k 1).length = k - 1 := length_inord k
    have hli : (inord k).length = k - 1 := length_inord k
    constructor
    · intro _
      omega
    · intro _
      refine isDesc_one _ ?_
      have h2 : 1 ≤ 2 ^ L := Nat.one_le_two_pow
      omega
  · -- v ≥ 2: relate to the parent's interval
    have hp1 : 1 ≤ v / 2 := by omega
    have hpk : v / 2 < k := by
      have := Nat.div_le_self v 2
      omega
    have hplt : v / 2 < v := Nat.div_lt_self (by omega) (by norm_num)
    obtain ⟨X, Y, hXY⟩ := split_exists k (v / 2) hp1 hpk
    have hdec := subInord_decomp k (v / 2) hp1 hpk
    have hIH := ih (v / 2) hplt hp1 hpk X Y hXY
    have hlayer : ∀ jx, jx < k →
        2 ^ L ≤ 2 ^ L + vm jx ∧ 2 ^ L + vm jx < 2 ^ (L + 1) := by
      intro jx hjx
      refine ⟨Nat.le_add_right _ _, ?_⟩
      have := hvmlt jx hjx
      rw [pow_succ]
      omega
    have hXlen := congrArg List.length hXY
    rw [List.length_append, List.length_append] at hXlen
    have hli : (inord k).length = k - 1 := length_inord k
    have hunion :
        ((Finset.range k).filter (fun jx => isDesc (2 * (v / 2)) (2 ^ L + vm jx))) ∪
          ((Finset.range k).filter
            (fun jx => isDesc (2 * (v / 2) + 1) (2 ^ L + vm jx))) =
        Finset.Icc X.length (X.length + (subInord k (v / 2)).length) := by
      ext jx
      simp only [Finset.mem_union, Finset.mem_filter, Finset.mem_range,
        Finset.mem_Icc]
      constructor
      · rintro (⟨hjxk, h⟩ | ⟨hjxk, h⟩)
        · exact (hIH jx hjxk).mp (isDesc_left h)
        · exact (hIH jx hjxk).mp (isDesc_right h)
      · rintro ⟨h1, h2⟩
        have hjxk : jx < k := by omega
        have hd := (hIH jx hjxk).mpr ⟨h1, h2⟩
        have hne : 2 ^ L + vm jx ≠ v / 2 := by
          have hk9 : k ≤ 2 ^ L + vm jx := le_trans hkL (Nat.le_add_right _ _)
          omega
        rcases isDesc_child hd hne with h | h
        · exact Or.inl ⟨hjxk, h⟩
        · exact Or.inr ⟨hjxk, h⟩
    have hdisj2 : ∀ x,
        x ∈ (Finset.range k).filter (fun jx => isDesc (2 * (v / 2)) (2 ^ L + vm jx)) →
        x ∈ (Finset.range k).filter
          (fun jx => isDesc (2 * (v / 2) + 1) (2 ^ L + vm jx)) →
        False := by
      intro x h1 h2
      rw [Finset.mem_filter] at h1 h2
      exact isDesc_sibling hp1 h1.2 h2.2
    have hord : ∀ x ∈ (Finset.range k).filter
          (fun jx => isDesc (2 * (v / 2)) (2 ^ L + vm jx)),
        ∀ y ∈ (Finset.range k).filter
          (fun jx => isDesc (2 * (v / 2) + 1) (2 ^ L + vm jx)), x < y := by
      intro x hx y hy
      rw [Finset.mem_filter, Finset.mem_range] at hx hy
      obtain ⟨hxk, hdx⟩ := hx
      obtain ⟨hyk, hdy⟩ := hy
      obtain ⟨hx1, hx2⟩ := hlayer x hxk
      obtain ⟨hy1, hy2⟩ := hlayer y hyk
      have hNlt : 2 ^ L + vm x < 2 ^ L + vm y :=
        layer_order hp1 hx1 hx2 hy1 hy2 hdx hdy
      by_contra hge
      rcases Nat.lt_or_ge y x with hlt | hle2
      · have := hvmmono y x hlt hxk
        omega
      · have hxy : x = y := by omega
        subst hxy
        omega
    have hAcard := leaf_count_aux k L vm hkL hhole (k - 2 * (v / 2)) (2 * (v / 2))
      rfl (by omega) (by omega)
    have hchar := interval_split
      ((Finset.range k).filter (fun jx => isDesc (2 * (v / 2)) (2 ^ L + vm jx)))
      ((Finset.range k).filter (fun jx => isDesc (2 * (v / 2) + 1) (2 ^ L + vm jx)))
      X.length (X.length + (subInord k (v / 2)).length) hunion hdisj2 hord
    have hMne : subInord k v ≠ [] :=
      List.ne_nil_of_mem ((mem_subInord k v v hv1).mpr ⟨hvk, isDesc_refl v⟩)
    have hndall : (P ++ subInord k v ++ S).Nodup := by
      rw [← hPS]
      exact nodup_inord k
    have hcase : v = 2 * (v / 2) ∨ v = 2 * (v / 2) + 1 := by omega
    rcases hcase with hveq | hveq
    · -- v is the left child of its parent
      have hsubeq : subInord k (2 * (v / 2)) = subInord k v := by
        rw [← hveq]
      have hsplit2 : inord k =
          X ++ subInord k v ++ ((v / 2 :: subInord k (2 * (v / 2) + 1)) ++ Y) := by
        rw [hXY, hdec, ← hveq]
        simp [List.append_assoc]
      have hPX : P.length = X.length :=
        split_len P X (subInord k v) S _ hMne hndall (hPS.symm.trans hsplit2)
      have hlensum : (subInord k (v / 2)).length =
          (subInord k v).length + 1 + (subInord k (2 * (v / 2) + 1)).length := by
        rw [hdec, hsubeq]
        simp [List.length_append]
        omega
      rw [hsubeq] at hAcard
      constructor
      · intro hdvix
        have hmemA : ix ∈ (Finset.range k).filter
            (fun jx => isDesc (2 * (v / 2)) (2 ^ L + vm jx)) := by
          rw [Finset.mem_filter, Finset.mem_range]
          exact ⟨hixk, by rw [← hveq]; exact hdvix⟩
        have hmemI : ix ∈ Finset.Icc X.length
            (X.length + (subInord k (v / 2)).length) := by
          rw [← hunion]
          exact Finset.mem_union_left _ hmemA
        rw [Finset.mem_Icc] at hmemI
        have hlt := (hchar ix hmemI.1 hmemI.2).mp hmemA
        rw [hAcard] at hlt
        omega
      · rintro ⟨hlo, hhi⟩
        have hmemA := (hchar ix (by omega) (by omega)).mpr (by rw [hAcard]; omega)
        rw [Finset.mem_filter] at hmemA
        rw [hveq]
        exact hmemA.2
    · -- v is the right child of its parent
      have hsubeq : subInord k (2 * (v / 2) + 1) = subInord k v := by
        rw [← hveq]
      have hsplit2 : inord k =
          (X ++ subInord k (2 * (v / 2)) ++ [v / 2]) ++ subInord k v ++ Y := by
        rw [hXY, hdec, ← hveq]
        simp [List.append_assoc]
      have hPX : P.length = X.length + (subInord k (2 * (v / 2))).length + 1 := by
        have := split_len P (X ++ subInord k (2 * (v / 2)) ++ [v / 2])
          (subInord k v) S Y hMne hndall (hPS.symm.trans hsplit2)
        rw [this]
        simp [List.length_append]
        omega
      have hlensum : (subInord k (v / 2)).length =
          (subInord k (2 * (v / 2))).length + 1 + (subInord k v).length := by
        rw [hdec, hsubeq]
        simp [List.length_append]
        omega
      constructor
      · intro hdvix
        have hmemB : ix ∈ (Finset.range k).filter
            (fun jx => isDesc (2 * (v / 2) + 1) (2 ^ L + vm jx)) := by
          rw [Finset.mem_filter, Finset.mem_range]
          exact ⟨hixk, by rw [← hveq]; exact hdvix⟩
        have hmemI : ix ∈ Finset.Icc X.length
            (X.length + (subInord k (v / 2)).length) := by
          rw [← hunion]
          exact Finset.mem_union_right _ hmemB
        rw [Finset.mem_Icc] at hmemI
        have hnotA : ix ∉ (Finset.range k).filter
            (fun jx => isDesc (2 * (v / 2)) (2 ^ L + vm jx)) :=
          fun h => hdisj2 ix h hmemB
        have hnlt : ¬ ix < X.length + ((Finset.range k).filter
            (fun jx => isDesc (2 * (v / 2)) (2 ^ L + vm jx))).card :=
          fun hlt => hnotA ((hchar ix hmemI.1 hmemI.2).mpr hlt)
        rw [hAcard] at hnlt
        omega
      · rintro ⟨hlo, hhi⟩
        have hmemI1 : X.length ≤ ix := by omega
        have hmemI2 : ix ≤ X.length + (subInord k (v / 2)).length := by omega
        have hnotA : ix ∉ (Finset.range k).filter
            (fun jx => isDesc (2 * (v / 2)) (2 ^ L + vm jx)) := by
          intro h
          have := (hchar ix hmemI1 hmemI2).mp h
          rw [hAcard] at this
          omega
        have hmemU : ix ∈
            ((Finset.range k).filter (fun jx => isDesc (2 * (v / 2)) (2 ^ L + vm jx))) ∪
              ((Finset.range k).filter
                (fun jx => isDesc (2 * (v / 2) + 1) (2 ^ L + vm jx))) := by
          rw [hunion, Finset.mem_Icc]
          exact ⟨hmemI1, hmemI2⟩
        rcases Finset.mem_union.mp hmemU with h | h
        · exact absurd h hnotA
        · rw [Finset.mem_filter] at h
          rw [hveq]
          exact h.2

/-- The ancestor of the virtual leaf `2^L + v` at level `ℓ` is the level
formula used by `Merger::new`. -/
theorem leaf_div (L v ℓ : Nat) (hv : v < 2 ^ L) (hl : ℓ ≤ L) :
    (2 ^ L + v) / 2 ^ (L - ℓ) = 2 ^ ℓ + v / 2 ^ (L - ℓ) := by
  have h1 : 2 ^ L = 2 ^ (L - ℓ) * 2 ^ ℓ := by
    rw [← pow_add]
    congr 1
    omega
  rw [h1, Nat.mul_add_div (Nat.pos_pow_of_pos _ (by norm_num))]

/-- The level loop of `Merger::new` finds the deepest real ancestor of the
virtual leaf: its result is an ancestor-or-self of every real tree node on
the leaf's path down to the inspected depth. -/
theorem entryAux_deepest (len L v : Nat) (hv : v < 2 ^ L) :
    ∀ level, level < L →
      ((∀ z d, 1 ≤ z → z < len → (2 ^ L + v) / 2 ^ d = z → L - level ≤ d → d ≤ L →
        isDesc z (entryAux len L v level)) ∧
      isDesc (entryAux len L v level) (2 ^ L + v)) := by
  intro level
  induction level with
  | zero =>
    intro _
    have hdiv1 : (2 ^ L + v) / 2 ^ L = 1 := by
      have h5 := leaf_div L v 0 hv (Nat.zero_le L)
      rw [Nat.sub_zero] at h5
      rw [h5, pow_zero, Nat.div_eq_of_lt hv]
    have he0 : entryAux len L v 0 = 1 := by
      show 2 ^ 0 + v / 2 ^ L = 1
      rw [Nat.div_eq_of_lt hv]
      norm_num
    constructor
    · intro z d hz1 hzlen hzd hdlo hdhi
      have hdL : d = L := by omega
      rw [hdL] at hzd
      have hz : z = 1 := by rw [← hzd, hdiv1]
      rw [he0, hz]
      exact isDesc_refl 1
    · rw [he0]
      exact ⟨L, hdiv1⟩
  | succ level ihl =>
    intro hlevL
    have hred : entryAux len L v (level + 1) =
        if 2 ^ (level + 1) + v / 2 ^ (L - (level + 1)) < len
        then 2 ^ (level + 1) + v / 2 ^ (L - (level + 1))
        else entryAux len L v level := rfl
    obtain ⟨ih1, ih2⟩ := ihl (by omega)
    have hidx_eq : (2 ^ L + v) / 2 ^ (L - (level + 1)) =
        2 ^ (level + 1) + v / 2 ^ (L - (level + 1)) :=
      leaf_div L v (level + 1) hv (by omega)
    by_cases hidx : 2 ^ (level + 1) + v / 2 ^ (L - (level + 1)) < len
    · rw [hred, if_pos hidx]
      constructor
      · intro z d hz1 hzlen hzd hdlo hdhi
        rcases Nat.eq_or_lt_of_le hdlo with hdeq | hdlt
        · have hzidx : z = 2 ^ (level + 1) + v / 2 ^ (L - (level + 1)) := by
            rw [← hzd, ← hdeq]
            exact hidx_eq
          rw [hzidx]
          exact isDesc_refl _
        · refine ⟨d - (L - (level + 1)), ?_⟩
          rw [← hidx_eq, Nat.div_div_eq_div_mul, ← pow_add, ← hzd]
          congr 2
          omega
      · exact ⟨L - (level + 1), hidx_eq⟩
    · rw [hred, if_neg hidx]
      constructor
      · intro z d hz1 hzlen hzd hdlo hdhi
        rcases Nat.eq_or_lt_of_le hdlo with hdeq | hdlt
        · exfalso
          have hzidx : z = 2 ^ (level + 1) + v / 2 ^ (L - (level + 1)) := by
            rw [← hzd, ← hdeq]
            exact hidx_eq
          omega
        · exact ih1 z d hz1 hzlen hzd (by omega) hdhi
      · exact ih2

/-- `pathOf` lands on the deepest real ancestor of the virtual leaf: it is
a descendant of every real node on the leaf's path. -/
theorem pathOf_deepest (len L llmi offset ix : Nat) (hL1 : 1 ≤ L)
    (hlenL : len ≤ 2 ^ L)
    (hv : (if llmi < ix then (ix - offset) * 2 else ix) < 2 ^ L) :
    isDesc (pathOf len L llmi offset ix)
      (2 ^ L + (if llmi < ix then (ix - offset) * 2 else ix)) ∧
    ∀ z, 1 ≤ z → z < len →
      isDesc z (2 ^ L + (if llmi < ix then (ix - offset) * 2 else ix)) →
      isDesc z (pathOf len L llmi offset ix) := by
  have hpath : pathOf len L llmi offset ix =
      entryAux len L (if llmi < ix then (ix - offset) * 2 else ix) (L - 1) := rfl
  obtain ⟨h1, h2⟩ := entryAux_deepest len L
    (if llmi < ix then (ix - offset) * 2 else ix) hv (L - 1) (by omega)
  rw [hpath]
  refine ⟨h2, ?_⟩
  intro z hz1 hzlen hzd
  obtain ⟨d, hd⟩ := hzd
  have hdL : d ≤ L := by
    by_contra hgt
    have hlt : 2 ^ L + (if llmi < ix then (ix - offset) * 2 else ix) < 2 ^ d := by
      have h9 : 2 ^ (L + 1) ≤ 2 ^ d := Nat.pow_le_pow_right (by norm_num) (by omega)
      rw [pow_succ] at h9
      omega
    rw [Nat.div_eq_of_lt hlt] at hd
    omega
  have hd1 : 1 ≤ d := by
    by_contra h0
    have hd0 : d = 0 := by omega
    subst hd0
    rw [pow_zero, Nat.div_one] at hd
    omega
  exact h1 z d hz1 hzlen hd (by omega) hdL

/-- The virtual leaf slot used by `Merger::new` for input `ix` (the `v`
computed before the level loop, with the shift past `last_layer_max_i`). -/
def vmOf (k ix : Nat) : Nat :=
  if ((k + 2 ^ log2 k - 1) % 2 ^ log2 k + 1) * 2 < ix
  then (ix - ((((k + 2 ^ log2 k - 1) % 2 ^ log2 k + 1) * 2 + 1) / 2)) * 2
  else ix

theorem pathOf_vmOf (k ix : Nat) :
    pathOf k (clog2 k) (((k + 2 ^ log2 k - 1) % 2 ^ log2 k + 1) * 2)
      ((((k + 2 ^ log2 k - 1) % 2 ^ log2 k + 1) * 2 + 1) / 2) ix =
    entryAux k (clog2 k) (vmOf k ix) (clog2 k - 1) := rfl

/-- Within one layer, the only descendant relation is equality. -/
theorem layer_self {L z x : Nat} (hz1 : 2 ^ L ≤ z) (hx2 : x < 2 ^ (L + 1))
    (hd : isDesc z x) : z = x := by
  obtain ⟨e, he⟩ := hd
  match e, he with
  | 0, he => simpa using he.symm
  | e + 1, he =>
    exfalso
    have h1 : x / 2 ^ (e + 1) ≤ x / 2 := by
      refine Nat.div_le_div_left ?_ (by norm_num)
      calc (2 : Nat) = 2 ^ 1 := by norm_num
      _ ≤ 2 ^ (e + 1) := Nat.pow_le_pow_right (by norm_num) (by omega)
    have h2 : x / 2 < 2 ^ L := by
      rw [pow_succ] at hx2
      omega
    omega

/-- The bootstrap parameters of `Merger::new` in closed form, for powers
of two and other sizes. -/
theorem init_params (k : Nat) (hk : 2 ≤ k) :
    (2 ^ log2 k = k →
      ((k + 2 ^ log2 k - 1) % 2 ^ log2 k + 1) * 2 = 2 * k ∧ clog2 k = log2 k) ∧
    (2 ^ log2 k ≠ k →
      ((k + 2 ^ log2 k - 1) % 2 ^ log2 k + 1) * 2 = 2 * (k - 2 ^ log2 k) ∧
        clog2 k = log2 k + 1 ∧ 2 ^ log2 k < k ∧ k < 2 * 2 ^ log2 k) ∧
    1 ≤ log2 k ∧ k ≤ 2 ^ clog2 k ∧ 1 ≤ clog2 k := by
  have hm : log2 k = Nat.log 2 k := log2_eq k
  have hL : clog2 k = Nat.clog 2 k := clog2_eq k
  have hlog1 : 0 < Nat.log 2 k := Nat.log_pos (by norm_num) hk
  have hkle : k ≤ 2 ^ Nat.clog 2 k := Nat.le_pow_clog (by norm_num) k
  have hclog1 : 0 < Nat.clog 2 k := Nat.clog_pos (by norm_num) (by omega)
  refine ⟨?_, ?_, by omega, by rw [hL]; exact hkle, by omega⟩
  · intro hpow
    have hmod : (k + 2 ^ log2 k - 1) % 2 ^ log2 k = k - 1 := by
      rw [hm] at hpow ⊢
      rw [hpow]
      have h5 : k + k - 1 = (k - 1) + k := by omega
      rw [h5, Nat.add_mod_right]
      exact Nat.mod_eq_of_lt (by omega)
    have hclog : Nat.clog 2 k = Nat.log 2 k := by
      have hc1 : Nat.clog 2 k ≤ Nat.log 2 k :=
        (Nat.le_pow_iff_clog_le (by norm_num)).mp (le_of_eq (hm ▸ hpow).symm)
      have hc2 : Nat.log 2 k - 1 < Nat.clog 2 k := by
        refine (Nat.pow_lt_iff_lt_clog (by norm_num)).mp ?_
        calc 2 ^ (Nat.log 2 k - 1) < 2 ^ Nat.log 2 k :=
          Nat.pow_lt_pow_right (by norm_num) (by omega)
        _ = k := hm ▸ hpow
      omega
    rw [hmod, hm, hL, hclog]
    omega
  · intro hpow
    have h1 : 2 ^ Nat.log 2 k ≤ k := Nat.pow_log_le_self 2 (by omega)
    have h2 : 2 ^ Nat.log 2 k < k := lt_of_le_of_ne (by omega) (hm ▸ hpow)
    have h3 : k < 2 ^ (Nat.log 2 k + 1) := Nat.lt_pow_succ_log_self (by norm_num) k
    have hps : (2 : Nat) ^ (Nat.log 2 k + 1) = 2 * 2 ^ Nat.log 2 k := by
      rw [pow_succ]
      ring
    have hclog : Nat.clog 2 k = Nat.log 2 k + 1 := by
      have hc1 : Nat.clog 2 k ≤ Nat.log 2 k + 1 :=
        (Nat.le_pow_iff_clog_le (by norm_num)).mp (le_of_lt h3)
      have hc2 : Nat.log 2 k < Nat.clog 2 k :=
        (Nat.pow_lt_iff_lt_clog (by norm_num)).mp h2
      omega
    have hmod : (k + 2 ^ log2 k - 1) % 2 ^ log2 k = k - 2 ^ Nat.log 2 k - 1 := by
      rw [hm]
      have h5 : k + 2 ^ Nat.log 2 k - 1 =
          (k - 2 ^ Nat.log 2 k - 1) + 2 ^ Nat.log 2 k * 2 := by omega
      rw [h5, Nat.add_mul_mod_self_left]
      exact Nat.mod_eq_of_lt (by omega)
    rw [hmod, hm, hL, hclog]
    refine ⟨by omega, rfl, by omega, by omega⟩

theorem vmOf_pow (k : Nat) (hk : 2 ≤ k) (hpow : 2 ^ log2 k = k) (ix : Nat)
    (hix : ix < k) : vmOf k ix = ix := by
  obtain ⟨hP, _, _, _, _⟩ := init_params k hk
  obtain ⟨hllmi, _⟩ := hP hpow
  unfold vmOf
  rw [hllmi, if_neg (by omega)]

theorem vmOf_npow (k : Nat) (hk : 2 ≤ k) (hpow : 2 ^ log2 k ≠ k) (ix : Nat) :
    vmOf k ix = if 2 * (k - 2 ^ log2 k) < ix
      then (ix - (k - 2 ^ log2 k)) * 2 else ix := by
  obtain ⟨_, hNP, _, _, _⟩ := init_params k hk
  obtain ⟨hllmi, _, hlt, hub⟩ := hNP hpow
  have hoff : (2 * (k - 2 ^ log2 k) + 1) / 2 = k - 2 ^ log2 k := by omega
  unfold vmOf
  rw [hllmi, hoff]

/-- The virtual slots all lie in the leaf layer. -/
theorem vmOf_lt (k : Nat) (hk : 2 ≤ k) :
    ∀ ix, ix < k → vmOf k ix < 2 ^ clog2 k := by
  intro ix hix
  obtain ⟨hP, hNP, hlog1, hkle, hclog1⟩ := init_params k hk
  by_cases hpow : 2 ^ log2 k = k
  · obtain ⟨hllmi, hclog⟩ := hP hpow
    rw [vmOf_pow k hk hpow ix hix, hclog, hpow]
    exact hix
  · obtain ⟨hllmi, hclog, hlt, hub⟩ := hNP hpow
    have h2L : 2 ^ clog2 k = 2 * 2 ^ log2 k := by
      rw [hclog, pow_succ]
      ring
    rw [vmOf_npow k hk hpow ix, h2L]
    by_cases hbr : 2 * (k - 2 ^ log2 k) < ix
    · rw [if_pos hbr]
      omega
    · rw [if_neg hbr]
      omega

/-- The virtual slots are strictly increasing in the queue index. -/
theorem vmOf_mono (k : Nat) (hk : 2 ≤ k) :
    ∀ ix iy, ix < iy → iy < k → vmOf k ix < vmOf k iy := by
  intro ix iy hlt hiyk
  obtain ⟨hP, hNP, hlog1, hkle, hclog1⟩ := init_params k hk
  by_cases hpow : 2 ^ log2 k = k
  · rw [vmOf_pow k hk hpow ix (by omega), vmOf_pow k hk hpow iy hiyk]
    exact hlt
  · obtain ⟨hllmi, hclog, hltp, hub⟩ := hNP hpow
    rw [vmOf_npow k hk hpow ix, vmOf_npow k hk hpow iy]
    by_cases hbx : 2 * (k - 2 ^ log2 k) < ix
    · rw [if_pos hbx, if_pos (by omega)]
      omega
    · rw [if_neg hbx]
      by_cases hby : 2 * (k - 2 ^ log2 k) < iy
      · rw [if_pos hby]
        omega
      · rw [if_neg hby]
        exact hlt

/-- Each absent slot of the truncated tree covers exactly one queue's
virtual leaf. -/
theorem vmOf_hole (k : Nat) (hk : 2 ≤ k) :
    ∀ z, k ≤ z → z / 2 < k → 1 ≤ z / 2 →
      ∃ ix, ix < k ∧ isDesc z (2 ^ clog2 k + vmOf k ix) ∧
        ∀ iy, iy < k → isDesc z (2 ^ clog2 k + vmOf k iy) → iy = ix := by
  intro z hzk hz2 hz1
  have hz2k : z < 2 * k := by omega
  obtain ⟨hP, hNP, hlog1, hkle, hclog1⟩ := init_params k hk
  by_cases hpow : 2 ^ log2 k = k
  · -- power of two: the layer is full, `z` is itself a leaf slot
    obtain ⟨hllmi, hclog⟩ := hP hpow
    have h2L : 2 ^ clog2 k = k := by rw [hclog, hpow]
    refine ⟨z - k, by omega, ?_, ?_⟩
    · rw [vmOf_pow k hk hpow (z - k) (by omega), h2L,
        show k + (z - k) = z by omega]
      exact isDesc_refl z
    · intro iy hiyk hd
      rw [vmOf_pow k hk hpow iy hiyk, h2L] at hd
      have := layer_self (L := clog2 k) (by omega) (by
        rw [pow_succ, h2L]
        omega) hd
      omega
  · -- not a power of two
    obtain ⟨hllmi, hclog, hltp, hub⟩ := hNP hpow
    have h2L : 2 ^ clog2 k = 2 * 2 ^ log2 k := by
      rw [hclog, pow_succ]
      ring
    rcases Nat.lt_or_ge z (2 * 2 ^ log2 k) with hza | hzb
    · -- z is a missing slot at the lower level: its left child is the leaf
      refine ⟨z - 2 ^ log2 k + (k - 2 ^ log2 k), by omega, ?_, ?_⟩
      · have hix_ge : 2 * (k - 2 ^ log2 k) ≤ z - 2 ^ log2 k + (k - 2 ^ log2 k) := by
          omega
        have hvm : vmOf k (z - 2 ^ log2 k + (k - 2 ^ log2 k)) =
            2 * (z - 2 ^ log2 k) := by
          rw [vmOf_npow k hk hpow]
          by_cases hbr : 2 * (k - 2 ^ log2 k) < z - 2 ^ log2 k + (k - 2 ^ log2 k)
          · rw [if_pos hbr]
            omega
          · rw [if_neg hbr]
            omega
        rw [hvm, h2L]
        refine ⟨1, ?_⟩
        rw [pow_one]
        omega
      · intro iy hiyk hd
        have hvmy := vmOf_lt k hk iy hiyk
        obtain ⟨e, he⟩ := hd
        obtain ⟨he1, _, _⟩ := layer_height (L := clog2 k) (c := log2 k)
          (Nat.le_add_right _ _) (by
            rw [pow_succ]
            omega) (by omega) (by rw [← hclog]; omega) he
        have he1' : e = 1 := by omega
        rw [he1', pow_one] at he
        rw [vmOf_npow k hk hpow] at he
        by_cases hbr : 2 * (k - 2 ^ log2 k) < iy
        · rw [if_pos hbr] at he
          -- (2^L + (iy - r)*2) / 2 = z: even leaf: iy determined
          rw [h2L] at he
          omega
        · rw [if_neg hbr] at he
          rw [h2L] at he
          -- iy ≤ 2r: leaf is 2M + iy ≤ 2M + 2r = 2k ≤ 2z: forces z = k, iy = 2r
          omega
    · -- z is a missing slot in the leaf layer itself
      refine ⟨z - 2 * 2 ^ log2 k, by omega, ?_, ?_⟩
      · have hvm : vmOf k (z - 2 * 2 ^ log2 k) = z - 2 * 2 ^ log2 k := by
          rw [vmOf_npow k hk hpow, if_neg (by omega)]
        rw [hvm, h2L, show 2 * 2 ^ log2 k + (z - 2 * 2 ^ log2 k) = z by omega]
        exact isDesc_refl z
      · intro iy hiyk hd
        have hvmy := vmOf_lt k hk iy hiyk
        have hzeq := layer_self (L := clog2 k) (by omega) (by
          rw [pow_succ]
          omega) hd
        rw [vmOf_npow k hk hpow] at hzeq
        by_cases hbr : 2 * (k - 2 ^ log2 k) < iy
        · rw [if_pos hbr] at hzeq
          rw [h2L] at hzeq
          omega
        · rw [if_neg hbr] at hzeq
          rw [h2L] at hzeq
          omega

/-- The queues entering a real subtree of the initial tree are exactly
the contiguous run of indices aligned with the subtree's infix of the
in-order traversal, one wider on the left. -/
theorem init_entrant (k : Nat) (hk : 2 ≤ k) :
    ∀ v, 1 ≤ v → v < k → ∀ P S, inord k = P ++ subInord k v ++ S →
      ∀ ix, ix < k →
        (isDesc v (pathOf k (clog2 k) (((k + 2 ^ log2 k - 1) % 2 ^ log2 k + 1) * 2)
            ((((k + 2 ^ log2 k - 1) % 2 ^ log2 k + 1) * 2 + 1) / 2) ix) ↔
          (P.length ≤ ix ∧ ix ≤ P.length + (subInord k v).length)) := by
  intro v hv1 hvk P S hPS ix hixk
  obtain ⟨hP, hNP, hlog1, hkle, hclog1⟩ := init_params k hk
  have hdeep := pathOf_deepest k (clog2 k)
    (((k + 2 ^ log2 k - 1) % 2 ^ log2 k + 1) * 2)
    ((((k + 2 ^ log2 k - 1) % 2 ^ log2 k + 1) * 2 + 1) / 2) ix
    (by omega) hkle (vmOf_lt k hk ix hixk)
  have hli := leaf_interval k (clog2 k) (vmOf k) hkle (vmOf_lt k hk)
    (vmOf_mono k hk) (vmOf_hole k hk) v hv1 hvk P S hPS ix hixk
  constructor
  · intro h
    exact hli.mp (isDesc_trans h hdeep.1)
  · intro h
    exact hdeep.2 v hv1 hvk (hli.mpr h)

/-- `range'` splits at any point. -/
theorem range'_split : ∀ (m a n : Nat),
    List.range' a (m + n) = List.range' a m ++ List.range' (a + m) n := by
  intro m
  induction m with
  | zero =>
    intro a n
    simp
  | succ m ih =>
    intro a n
    rw [show m + 1 + n = (m + n) + 1 from by omega]
    show a :: List.range' (a + 1) (m + n) = (a :: List.range' (a + 1) m) ++
      List.range' (a + (m + 1)) n
    rw [List.cons_append, ih (a + 1) n, show a + 1 + m = a + (m + 1) from by omega]

/-- Exact form of the initial loser table: the walk order receives
consecutive sources starting at `j + 1`, all placeholders at time 0. -/
theorem assignSrcs_map {U : Type} (n : Nat) :
    ∀ (l : List Nat) (lose : Nat → Event U) (j : Nat), l.Nodup →
      (∀ x ∈ l, x < n) →
      ∃ lose2, assignSrcs n lose l j = Except.ok lose2 ∧
        l.map (fun u => (lose2 u).src) = List.range' (j + 1) l.length ∧
        (∀ i ∈ l, (lose2 i).time = 0) ∧
        (∀ i, ¬ i ∈ l → lose2 i = lose i) := by
  intro l
  induction l with
  | nil =>
    intro lose j _ _
    exact ⟨lose, rfl, rfl, fun i hi => absurd hi (List.not_mem_nil i),
      fun i _ => rfl⟩
  | cons ix rest ih =>
    intro lose j hnd hbound
    obtain ⟨lose2, hok, hmap, htime, hout⟩ := ih
      (Function.update lose ix
        { time := 0, src := j + 1, event_type := EventType.Null })
      (j + 1) hnd.of_cons (fun x hx => hbound x (List.mem_cons_of_mem ix hx))
    have hix_not : ix ∉ rest := (List.nodup_cons.mp hnd).1
    have hval : lose2 ix = { time := 0, src := j + 1, event_type := EventType.Null } := by
      rw [hout ix hix_not, Function.update_same]
    refine ⟨lose2, ?_, ?_, ?_, ?_⟩
    · show assignSrcs n lose (ix :: rest) j = Except.ok lose2
      simp only [assignSrcs]
      rw [if_pos (hbound ix (List.mem_cons_self ix rest))]
      exact hok
    · rw [List.map_cons, hmap, hval]
      show (j + 1) :: List.range' (j + 1 + 1) rest.length =
        List.range' (j + 1) (ix :: rest).length
      rw [List.length_cons, show rest.length + 1 = 1 + rest.length from by omega,
        range'_split 1 (j + 1) rest.length]
      rfl
    · intro i hi
      rcases List.mem_cons.mp hi with rfl | hi2
      · rw [hval]
      · exact htime i hi2
    · intro i hi
      have hi1 : ¬ i ∈ rest := fun hh => hi (List.mem_cons_of_mem ix hh)
      have hi2 : i ≠ ix := fun hh => hi (hh ▸ List.mem_cons_self ix rest)
      rw [hout i hi1, Function.update_noteq hi2]

theorem mem_range_int {a n x : Nat} :
    x ∈ List.range' a n ↔ a ≤ x ∧ x < a + n := by
  induction n generalizing a with
  | zero =>
    simp only [List.range', List.not_mem_nil, false_iff, not_and]
    omega
  | succ n ih =>
    show x ∈ a :: List.range' (a + 1) n ↔ _
    rw [List.mem_cons, ih]
    omega

/-- The infix of the traversal occupied by a subtree carries the
contiguous run of sources aligned with its position. -/
theorem seg_map (k : Nat) (f : Nat → Nat) (P M S : List Nat)
    (hPS : inord k = P ++ M ++ S)
    (hmapeq : (inord k).map f = List.range' 1 (k - 1)) :
    M.map f = List.range' (P.length + 1) M.length := by
  have hlen := congrArg List.length hPS
  rw [List.length_append, List.length_append, length_inord] at hlen
  rw [hPS, List.map_append, List.map_append, List.append_assoc] at hmapeq
  rw [show k - 1 = P.length + (M.length + S.length) from by omega,
    range'_split P.length 1 (M.length + S.length)] at hmapeq
  have h1 := List.append_inj hmapeq (by rw [List.length_map, List.length_range'])
  have h2 := h1.2
  rw [range'_split M.length (1 + P.length) S.length] at h2
  have h3 := List.append_inj h2 (by rw [List.length_map, List.length_range'])
  rw [h3.1]
  congr 1
  omega

/-- The freshly built merger satisfies the full loser-tree invariant with
zero watermarks, provided the initial queue contents respect the producer
contract. -/
theorem minv_init {U : Type} (qs : List (List (Event U))) (id : Nat)
    (ids : List Nat) (hk : 2 ≤ qs.length) (lp0 : Nat → Nat)
    (hsorted : ∀ i, i < qs.length →
      List.Chain' (fun a b => a.time ≤ b.time) (qs.getD i []))
    (hlp0 : ∀ i, i < qs.length → ∀ e ∈ qs.getD i [], e.time ≤ lp0 i) :
    ∃ s, Merger.new qs id ids = Except.ok s ∧
      MInv qs.length lp0 (fun _ => 0) s := by
  obtain ⟨lose2, hok, hmap, htime, hout⟩ := assignSrcs_map qs.length
    (inord qs.length)
    (fun i => ({ time := 0, src := i, event_type := EventType.Null } : Event U)) 0
    (nodup_inord _) (fun x hx => ((mem_inord _ x).mp hx).2)
  have hlay : ¬ clog2 qs.length = 0 := by
    rw [clog2_eq]
    have := Nat.clog_pos (b := 2) (by norm_num) (n := qs.length) (by omega)
    omega
  have hmapeq : (inord qs.length).map (fun u => (lose2 u).src) =
      List.range' 1 (qs.length - 1) := by
    rw [hmap, length_inord]
  have htime0 : ∀ u, (lose2 u).time = 0 := by
    intro u
    by_cases hu : u ∈ inord qs.length
    · exact htime u hu
    · rw [hout u hu]
  -- stored sources over any subtree's infix form a contiguous run
  have hseg : ∀ v, 1 ≤ v → v < qs.length → ∀ P S,
      inord qs.length = P ++ subInord qs.length v ++ S →
      ∀ ixq, (∃ u, 1 ≤ u ∧ u < qs.length ∧ isDesc v u ∧ (lose2 u).src = ixq) ↔
        (P.length + 1 ≤ ixq ∧ ixq ≤ P.length + (subInord qs.length v).length) := by
    intro v hv1 hvk P S hPS ixq
    have hsm := seg_map qs.length (fun u => (lose2 u).src) P
      (subInord qs.length v) S hPS hmapeq
    constructor
    · rintro ⟨u, hu1, huk, hdu, hsrc⟩
      have humem : u ∈ subInord qs.length v :=
        (mem_subInord qs.length v u hv1).mpr ⟨huk, hdu⟩
      have : ixq ∈ (subInord qs.length v).map (fun u => (lose2 u).src) := by
        rw [← hsrc]
        exact List.mem_map_of_mem _ humem
      rw [hsm, mem_range_int] at this
      omega
    · intro hint
      have : ixq ∈ (subInord qs.length v).map (fun u => (lose2 u).src) := by
        rw [hsm, mem_range_int]
        omega
      obtain ⟨u, humem, hsrc⟩ := List.mem_map.mp this
      obtain ⟨huk, hdu⟩ := (mem_subInord qs.length v u hv1).mp humem
      have hu1 : 1 ≤ u := by
        have := isDesc_ge hv1 hdu
        omega
      exact ⟨u, hu1, huk, hdu, hsrc⟩
  -- all stored sources are in range
  have hsrc_range : ∀ u, 1 ≤ u → u < qs.length →
      1 ≤ (lose2 u).src ∧ (lose2 u).src < qs.length := by
    intro u hu1 huk
    have humem : u ∈ inord qs.length := (mem_inord _ u).mpr ⟨hu1, huk⟩
    have : (lose2 u).src ∈ (inord qs.length).map (fun u => (lose2 u).src) :=
      List.mem_map_of_mem _ humem
    rw [hmapeq, mem_range_int] at this
    omega
  refine ⟨{ id := id
            in_queues := fun i => qs.getD i []
            n_layers := clog2 qs.length
            paths := fun ix => pathOf qs.length (clog2 qs.length)
              (((qs.length + 2 ^ log2 qs.length - 1) % 2 ^ log2 qs.length + 1) * 2)
              ((((qs.length + 2 ^ log2 qs.length - 1) % 2 ^ log2 qs.length + 1) * 2 + 1) / 2)
              ix
            winner_q := 0
            safe_time := 0
            loser_e := lose2
            ix_to_id := ids }, ?_, ?_⟩
  · show Merger.new qs id ids = _
    simp only [Merger.new]
    rw [ltr_walk_eq qs.length hk, exceptOkBind, hok, exceptOkBind, if_neg hlay]
    rfl
  · refine ⟨?_, ?_, ?_, ?_, ?_, ?_, ?_, ?_, ?_, ?_, ?_, ?_, ?_⟩
    · -- structural bounds
      refine ⟨by show (0 : Nat) < qs.length; omega, ?_, ?_, ?_⟩
      · intro u hu
        exact pathOf_bound qs.length u hk hu
      · intro j hj1 hj2
        exact (hsrc_range j hj1 hj2).2
      · intro i hi
        show qs.getD i [] = []
        exact List.getD_eq_default qs [] hi
    · -- the source permutation
      show (((List.range qs.length).drop 1).map (fun v => (lose2 v).src) ++
        [0]).Perm (List.range qs.length)
      have hperm1 : ((List.range qs.length).drop 1).Perm (inord qs.length) := by
        refine perm_of_nodup_mem_iff _ _
          (List.Nodup.sublist (List.drop_sublist 1 _) (List.nodup_range _))
          (nodup_inord _) ?_
        intro z
        rw [mem_drop_one_range, mem_inord]
      have hmapperm := hperm1.map (fun u => (lose2 u).src)
      rw [hmapeq] at hmapperm
      have hsplitr : List.range qs.length =
          List.range' 0 1 ++ List.range' 1 (qs.length - 1) := by
        have h := range'_split 1 0 (qs.length - 1)
        rw [show 1 + (qs.length - 1) = qs.length from by omega] at h
        rw [List.range_eq_range']
        exact h
      refine List.Perm.trans (List.Perm.append_right _ hmapperm) ?_
      rw [hsplitr]
      exact List.perm_append_comm
    · -- every stored loser is on its source's path
      intro u hu1 huk
      obtain ⟨P, S, hPS⟩ := split_exists qs.length u hu1 huk
      have hlen := congrArg List.length hPS
      rw [List.length_append, List.length_append, length_inord] at hlen
      have humem : u ∈ subInord qs.length u :=
        (mem_subInord qs.length u u hu1).mpr ⟨huk, isDesc_refl u⟩
      have hsm := seg_map qs.length (fun w => (lose2 w).src) P
        (subInord qs.length u) S hPS hmapeq
      have : (lose2 u).src ∈ (subInord qs.length u).map (fun w => (lose2 w).src) :=
        List.mem_map_of_mem _ humem
      rw [hsm, mem_range_int] at this
      exact (init_entrant qs.length hk u hu1 huk P S hPS (lose2 u).src
        (hsrc_range u hu1 huk).2).mpr (by omega)
    · -- entrant count
      intro v hv1 hvk
      have hdeept : ∀ ix, ix < qs.length →
          (isDesc v (pathOf qs.length (clog2 qs.length)
            (((qs.length + 2 ^ log2 qs.length - 1) % 2 ^ log2 qs.length + 1) * 2)
            ((((qs.length + 2 ^ log2 qs.length - 1) % 2 ^ log2 qs.length + 1) * 2 + 1) / 2)
            ix) ↔
          isDesc v (2 ^ clog2 qs.length + vmOf qs.length ix)) := by
        intro ix hixk
        obtain ⟨_, _, _, hkle, hclog1⟩ := init_params qs.length hk
        have hdeep := pathOf_deepest qs.length (clog2 qs.length)
          (((qs.length + 2 ^ log2 qs.length - 1) % 2 ^ log2 qs.length + 1) * 2)
          ((((qs.length + 2 ^ log2 qs.length - 1) % 2 ^ log2 qs.length + 1) * 2 + 1) / 2)
          ix (by omega) hkle (vmOf_lt qs.length hk ix hixk)
        constructor
        · intro h
          exact isDesc_trans h hdeep.1
        · intro h
          exact hdeep.2 v hv1 hvk h
      have hfeq : (Finset.range qs.length).filter
            (fun ix => isDesc v (pathOf qs.length (clog2 qs.length)
              (((qs.length + 2 ^ log2 qs.length - 1) % 2 ^ log2 qs.length + 1) * 2)
              ((((qs.length + 2 ^ log2 qs.length - 1) % 2 ^ log2 qs.length + 1) * 2 + 1) / 2)
              ix)) =
          (Finset.range qs.length).filter
            (fun ix => isDesc v (2 ^ clog2 qs.length + vmOf qs.length ix)) := by
        refine Finset.filter_congr ?_
        intro ix hix
        rw [Finset.mem_range] at hix
        exact hdeept ix hix
      show ((Finset.range qs.length).filter _).card = _
      rw [hfeq]
      obtain ⟨_, _, _, hkle, _⟩ := init_params qs.length hk
      rw [leaf_count_aux qs.length (clog2 qs.length) (vmOf qs.length) hkle
        (vmOf_hole qs.length hk) (qs.length - v) v rfl hv1 hvk,
        subInord_card qs.length v hv1]
    · -- at most one outside entrant
      intro v ix iy hv1 hvk hixk hiyk hentx henty houtx houty
      obtain ⟨P, S, hPS⟩ := split_exists qs.length v hv1 hvk
      have hex := (init_entrant qs.length hk v hv1 hvk P S hPS ix hixk).mp hentx
      have hey := (init_entrant qs.length hk v hv1 hvk P S hPS iy hiyk).mp henty
      have hchar := hseg v hv1 hvk P S hPS
      have hxval : ix = P.length := by
        rcases houtx with h | h
        · have h0 : ix = 0 := h
          omega
        · have hns : ¬ (P.length + 1 ≤ ix ∧
              ix ≤ P.length + (subInord qs.length v).length) :=
            fun hst => h ((hchar ix).mpr hst)
          omega
      have hyval : iy = P.length := by
        rcases houty with h | h
        · have h0 : iy = 0 := h
          omega
        · have hns : ¬ (P.length + 1 ≤ iy ∧
              iy ≤ P.length + (subInord qs.length v).length) :=
            fun hst => h ((hchar iy).mpr hst)
          omega
      rw [hxval, hyval]
    · -- escaped representatives are minimal (all placeholders at time 0)
      intro v ix hv1 hvk hixk hixne hent hnst u2 hu21 hu2k hu2src u hu1 huk hdu
      show (lose2 u2).time ≤ (lose2 u).time
      rw [htime0 u2, htime0 u]
    · -- safe_time bounds all stored losers
      intro v hv1 hvk
      show (0 : Nat) ≤ (lose2 v).time
      exact Nat.zero_le _
    · exact hsorted
    · intro i _ e _
      exact Nat.zero_le _
    · exact hlp0
    · intro v hv1 hvk
      show (lose2 v).time ≤ 0
      rw [htime0 v]
    · exact Nat.zero_le _
    · intro i _
      exact Nat.zero_le _

/-- Whether or not an iteration of the `next` loop yields an event, the
resulting state is the core's updated state. -/
theorem Merger.nextIter_snd {U : Type} (s : Merger U) :
    (s.nextIter).2 = (s.iterCore).2 := by
  unfold Merger.nextIter
  rcases hty : (s.iterCore).1.event_type with u | _ | _ | _ <;> simp only [hty]
  split
  · rfl
  · rfl

/-- One observable step of a merger with ghost per-queue watermarks:
either some producer pushes an event to its queue respecting the producer
contract (non-decreasing times per queue, tracked by `lp`), or the
consumer runs one iteration of the `next` loop, observing its optional
yielded event. -/
inductive MStep {U : Type} (k : Nat) :
    Merger U × (Nat → Nat) × (Nat → Nat) →
    Merger U × (Nat → Nat) × (Nat → Nat) → Option (Event U) → Prop where
  | push : ∀ (s : Merger U) (lp pm : Nat → Nat) (i : Nat) (e : Event U),
      i < k → lp i ≤ e.time →
      MStep k (s, lp, pm) (mergerPush s i e, Function.update lp i e.time, pm)
        none
  | next : ∀ (s s' : Merger U) (lp pm : Nat → Nat) (r : Option (Event U)),
      s.nextIter = (r, s') →
      MStep k (s, lp, pm) (s', lp, pmAfter s pm) r

/-- A run of the merger: any interleaving of producer pushes and `next`
iterations, accumulating the yielded events in order. -/
inductive MTrace {U : Type} (k : Nat)
    (c : Merger U × (Nat → Nat) × (Nat → Nat)) :
    Merger U × (Nat → Nat) × (Nat → Nat) → List (Event U) → Prop where
  | refl : MTrace k c c []
  | step : ∀ c' c'' out r, MTrace k c c' out → MStep k c' c'' r →
      MTrace k c c'' (out ++ r.toList)

/-- Each observable step preserves the loser-tree invariant, never
decreases `safe_time`, and stamps any yielded event with the new
`safe_time`. -/
theorem mstep_inv {U : Type} {k : Nat}
    {c c' : Merger U × (Nat → Nat) × (Nat → Nat)} {r : Option (Event U)}
    (hst : MStep k c c' r) (hI : MInv k c.2.1 c.2.2 c.1) :
    MInv k c'.2.1 c'.2.2 c'.1 ∧ c.1.safe_time ≤ c'.1.safe_time ∧
      ∀ e, r = some e → e.time = c'.1.safe_time := by
  cases hst with
  | push s lp pm i e hik hlp =>
    exact ⟨minv_push hI i e hik hlp, le_refl _,
      fun e2 h => Option.noConfusion h⟩
  | next s s2 lp pm r2 h =>
    have hs2 : (s.nextIter).2 = s2 := congrArg Prod.snd h
    rw [Merger.nextIter_snd] at hs2
    obtain ⟨hI', hmono, _⟩ := minv_iterCore hI
    refine ⟨?_, ?_, ?_⟩
    · show MInv k lp (pmAfter s pm) s2
      rw [← hs2]
      exact hI'
    · show s.safe_time ≤ s2.safe_time
      rw [← hs2]
      exact hmono
    · intro e he
      exact Merger.nextIter_some_time s e s2 (by rw [h, he])

/-- Along any run from an invariant state, the invariant holds, the
yielded events are sorted by time, and all of them are bounded by the
current `safe_time`. -/
theorem mtrace_inv {U : Type} {k : Nat}
    {c c' : Merger U × (Nat → Nat) × (Nat → Nat)} {out : List (Event U)}
    (htr : MTrace k c c' out) (hI : MInv k c.2.1 c.2.2 c.1) :
    MInv k c'.2.1 c'.2.2 c'.1 ∧ c.1.safe_time ≤ c'.1.safe_time ∧
      List.Chain' (fun a b => a.time ≤ b.time) out ∧
      ∀ e ∈ out, e.time ≤ c'.1.safe_time := by
  induction htr with
  | refl =>
    exact ⟨hI, le_refl _, List.chain'_nil,
      fun e he => absurd he (List.not_mem_nil e)⟩
  | step d' d'' out2 r2 htr2 hst2 ih =>
    obtain ⟨hI1, hmono1, hchain1, hbound1⟩ := ih
    obtain ⟨hI2, hmono2, htime2⟩ := mstep_inv hst2 hI1
    refine ⟨hI2, le_trans hmono1 hmono2, ?_, ?_⟩
    · rcases r2 with _ | e
      · rw [show ((none : Option (Event U)).toList) = [] from rfl,
          List.append_nil]
        exact hchain1
      · rw [show ((some e : Option (Event U)).toList) = [e] from rfl]
        refine chain_snoc out2 e hchain1 ?_
        intro x hx
        have hb := hbound1 x hx
        have het := htime2 e rfl
        omega
    · intro e he
      rcases r2 with _ | e2
      · rw [show ((none : Option (Event U)).toList) = [] from rfl,
          List.append_nil] at he
        exact le_trans (hbound1 e he) hmono2
      · rw [show ((some e2 : Option (Event U)).toList) = [e2] from rfl] at he
        rcases List.mem_append.mp he with hin | hin
        · exact le_trans (hbound1 e hin) hmono2
        · rw [List.mem_singleton.mp hin, htime2 e2 rfl]

/-- C1: Under the producer contract — each input queue starts sorted by
time and every producer pushes events with times that never decrease on
its queue — the sequence of events yielded by successive iterations of
`Merger::next` on a freshly constructed merger is monotonically
non-decreasing in time. -/
theorem claim_C1 {U : Type} (qs : List (List (Event U))) (id : Nat)
    (ids : List Nat) (s0 : Merger U) (lp0 : Nat → Nat)
    (hk : 2 ≤ qs.length)
    (hsorted : ∀ i, i < qs.length →
      List.Chain' (fun a b => a.time ≤ b.time) (qs.getD i []))
    (hlp0 : ∀ i, i < qs.length → ∀ e ∈ qs.getD i [], e.time ≤ lp0 i)
    (hnew : Merger.new qs id ids = Except.ok s0)
    (c' : Merger U × (Nat → Nat) × (Nat → Nat)) (out : List (Event U))
    (htr : MTrace qs.length (s0, lp0, fun _ => 0) c' out) :
    List.Chain' (fun a b => a.time ≤ b.time) out := by
  obtain ⟨s1, hnew1, hI⟩ := minv_init qs id ids hk lp0 hsorted hlp0
  rw [hnew1] at hnew
  injection hnew with hs
  rw [hs] at hI
  exact (mtrace_inv htr hI).2.2.1

/-- A concrete two-queue merger, extracted from a successful `Merger.new`. -/
def mergerNew2 : Merger Unit :=
  match Merger.new ([[], []] : List (List (Event Unit))) 0 [0, 1] with
  | Except.ok s => s
  | Except.error _ =>
    { id := 0
      in_queues := fun _ => []
      n_layers := 0
      paths := fun _ => 0
      winner_q := 0
      safe_time := 0
      loser_e := fun i => { time := 0, src := i, event_type := EventType.Null }
      ix_to_id := [] }

theorem claim_C1_witness :
    List.Chain' (fun a b => a.time ≤ b.time) ([] : List (Event Unit)) :=
  claim_C1 [[], []] 0 [0, 1] mergerNew2 (fun _ => 0) (by decide)
    (fun i _ => by rcases i with _ | _ | i <;> exact List.chain'_nil)
    (fun i _ e he => by
      rcases i with _ | _ | i <;> exact absurd he (List.not_mem_nil e))
    (by rfl)
    (mergerNew2, fun _ => 0, fun _ => 0) [] MTrace.refl

end Rustasim